import Mathlib

/-!
# Black-Scholes path simulation (`BlackScholesModel.cpp`)

A shallow embedding of the path generators of `BlackScholesModel` and of the
PNL / MPI primitives they call.

* A C `double` is an element of an arbitrary linearly ordered field `α` with a
  floor function: the arithmetic `+ - * /` is exact.  The transcendental
  functions `exp` and `sqrt` of `<math.h>` are parameters (`Libm`), so every
  result holds for any interpretation of them.
* A PNL vector / matrix is its dimensions together with its entries.  A PNL
  call whose index or size precondition is violated (the library aborts under
  range checking and has undefined behaviour otherwise) returns `none`.
* A method of `BlackScholesModel` takes the object and returns it together with
  the matrices it writes, so that changes of the members are visible.
* A quotient with divisor zero is `0` in a field, whereas IEEE arithmetic gives
  an infinity or NaN.  The results are meant for nonzero divisors (`steps >= 1`,
  a nonzero time step); `fmod` with modulus zero is NaN here as in C.
* Where a result depends on rounding, the operation is evaluated in binary64:
  a `double` is a rational number that `binary64` (round to nearest, ties to
  even, 53 significant bits, subnormal numbers below `2^(-1022)`) leaves fixed,
  and `double_add`, `double_sub`, `double_mul`, `double_div` round the exact
  result.  `fmod` is exact in binary64.  Infinities and NaN are not values of
  the model; an `exp` that underflows is an `exp` that returns `0`.
* `pnl_mat_chol` is a parameter of the constructors.  For the correctness of the
  factor it is instantiated by the row-by-row Cholesky factorisation of a
  positive semi-definite matrix, which stops at a negative pivot.
-/

namespace BlackScholes

/-! ## PNL containers -/

/-- The PNL vector `PnlVect`: `size` entries `array 0 .. array (size-1)`. -/
structure PnlVect (α : Type) where
  size : Nat
  array : Nat → α

/-- The PNL matrix `PnlMat`: `m` rows and `n` columns, entry `(i, j)` is `array i j`. -/
structure PnlMat (α : Type) where
  m : Nat
  n : Nat
  array : Nat → Nat → α

/-- The functions of `<math.h>` that have no exact counterpart in a field. -/
structure Libm (α : Type) where
  exp : α → α
  sqrt : α → α

/-- The PNL generator `PnlRng` seen from its client: the sequence of standard normal
samples it is going to deliver and the number of samples already consumed. -/
structure PnlRng (α : Type) where
  stream : Nat → α
  pos : Nat

section Primitives

variable {α : Type}

/-- Row `i` of a matrix as a vector. -/
def PnlMat.row (M : PnlMat α) (i : Nat) : PnlVect α :=
  { size := M.n, array := M.array i }

/-- PNL `pnl_vect_get(v, i)`. -/
def pnl_vect_get (v : PnlVect α) (i : Int) : Option α :=
  if 0 ≤ i ∧ i < v.size then some (v.array i.toNat) else none

/-- PNL `pnl_vect_set(v, i, x)`. -/
def pnl_vect_set (v : PnlVect α) (i : Int) (x : α) : Option (PnlVect α) :=
  if 0 ≤ i ∧ i < v.size then some { v with array := Function.update v.array i.toNat x } else none

/-- PNL `pnl_vect_clone(clone, v)`: `clone` becomes a copy of `v`, whatever it held. -/
def pnl_vect_clone (_clone v : PnlVect α) : PnlVect α := v

/-- PNL `pnl_mat_clone(clone, M)`: `clone` becomes a copy of `M`, whatever it held. -/
def pnl_mat_clone (_clone M : PnlMat α) : PnlMat α := M

/-- PNL `pnl_mat_get_row(V, M, i)`: `V` is resized to `M->n` and receives row `i`. -/
def pnl_mat_get_row (M : PnlMat α) (i : Int) : Option (PnlVect α) :=
  if 0 ≤ i ∧ i < M.m then some (M.row i.toNat) else none

/-- PNL `pnl_mat_set_row(M, V, i)`: row `i` of `M` is overwritten with `V`,
which must have `M->n` entries. -/
def pnl_mat_set_row (M : PnlMat α) (V : PnlVect α) (i : Int) : Option (PnlMat α) :=
  if 0 ≤ i ∧ i < M.m ∧ M.n = V.size then
    some { M with array := Function.update M.array i.toNat V.array }
  else none

/-- PNL `pnl_mat_del_row(M, i)`: row `i` is removed, the rows below move up. -/
def pnl_mat_del_row (M : PnlMat α) (i : Int) : Option (PnlMat α) :=
  if 0 ≤ i ∧ i < M.m then
    some { m := M.m - 1, n := M.n,
           array := fun r c => if r < i.toNat then M.array r c else M.array (r + 1) c }
  else none

/-- PNL `pnl_mat_set_subblock(M, block, i, j)`: `block` is written into `M` with its
top left corner at `(i, j)`; it must fit. -/
def pnl_mat_set_subblock (M block : PnlMat α) (i j : Int) : Option (PnlMat α) :=
  if 0 ≤ i ∧ 0 ≤ j ∧ i + block.m ≤ M.m ∧ j + block.n ≤ M.n then
    some { M with array := fun r c =>
      if i.toNat ≤ r ∧ r < i.toNat + block.m ∧ j.toNat ≤ c ∧ c < j.toNat + block.n then
        block.array (r - i.toNat) (c - j.toNat)
      else M.array r c }
  else none

/-- PNL `pnl_mat_extract_subblock(M_sub, M, i, len_i, j, len_j)`: `M_sub` becomes the
`len_i × len_j` block of `M` whose top left corner is `(i, j)`. -/
def pnl_mat_extract_subblock (M : PnlMat α) (i len_i j len_j : Int) : Option (PnlMat α) :=
  if 0 ≤ i ∧ 0 ≤ len_i ∧ 0 ≤ j ∧ 0 ≤ len_j ∧ i + len_i ≤ M.m ∧ j + len_j ≤ M.n then
    some { m := len_i.toNat, n := len_j.toNat,
           array := fun r c => M.array (i.toNat + r) (j.toNat + c) }
  else none

/-- PNL `pnl_mat_resize(M, m, n)`: the dimensions change, the storage (row major) is kept,
so the old entry number `i * n + j` is the new entry `(i, j)`. -/
def pnl_mat_resize (M : PnlMat α) (m n : Nat) : PnlMat α :=
  { m := m, n := n,
    array := fun i j => M.array ((i * n + j) / M.n) ((i * n + j) % M.n) }

/-- PNL `pnl_mat_set_all(M, x)`: every entry becomes `x`. -/
def pnl_mat_set_all (M : PnlMat α) (x : α) : PnlMat α :=
  { M with array := fun _ _ => x }

/-- PNL `pnl_vect_rng_normal(G, size, rng)`: `G` is resized to `size` and filled with the
next `size` samples of the generator. -/
def pnl_vect_rng_normal (size : Nat) (rng : PnlRng α) : PnlVect α × PnlRng α :=
  ({ size := size, array := fun j => rng.stream (rng.pos + j) },
   { rng with pos := rng.pos + size })

end Primitives

section Arithmetic

variable {α : Type} [LinearOrderedField α] [FloorRing α]

/-- PNL `pnl_vect_create(size)`; the entries are not initialised, here they are `0`. -/
def pnl_vect_create (size : Nat) : PnlVect α :=
  { size := size, array := fun _ => 0 }

/-- PNL `pnl_mat_new()`: the empty matrix. -/
def pnl_mat_new : PnlMat α := { m := 0, n := 0, array := fun _ _ => 0 }

/-- PNL `pnl_vect_new()`: the empty vector. -/
def pnl_vect_new : PnlVect α := { size := 0, array := fun _ => 0 }

/-- PNL `pnl_mat_mult_scalar(M, x)`: every entry is multiplied by `x`. -/
def pnl_mat_mult_scalar (M : PnlMat α) (x : α) : PnlMat α :=
  { M with array := fun i j => M.array i j * x }

/-- The sum `x_0 * y_0 + ... + x_(size-1) * y_(size-1)`. -/
def dot (x y : PnlVect α) : α :=
  (List.range x.size).foldl (fun s j => s + x.array j * y.array j) 0

/-- PNL `pnl_vect_scalar_prod(x, y)`: the scalar product of two vectors of the same size. -/
def pnl_vect_scalar_prod (x y : PnlVect α) : Option α :=
  if x.size = y.size then some (dot x y) else none

/-- Conversion of a `double` to `int`: the fractional part is discarded. -/
def toInt (x : α) : Int := if 0 ≤ x then ⌊x⌋ else ⌈x⌉

/-- The function `fmod(x, y)` of `<math.h>`: `x - k * y` where `k` is `x / y` with its
fractional part discarded.  For `y = 0` the result is NaN, here `none`. -/
def fmod (x y : α) : Option α :=
  if y = 0 then none else some (x - (toInt (x / y) : α) * y)

/-- The C test `fmod(x, y) != 0`; it holds when the result is NaN. -/
def fmod_ne_zero (x y : α) : Bool := decide (fmod x y ≠ some 0)

/-- PNL `pnl_mat_create_from_scalar(m, n, x)`: the `m × n` matrix filled with `x`. -/
def pnl_mat_create_from_scalar (m n : Nat) (x : α) : PnlMat α :=
  { m := m, n := n, array := fun _ _ => x }

/-- PNL `pnl_mat_set_diag(M, x, 0)`: the main diagonal of `M` is set to `x`. -/
def pnl_mat_set_diag (M : PnlMat α) (x : α) : PnlMat α :=
  { M with array := fun i j => if i = j then x else M.array i j }

end Arithmetic

/-! ## The class `BlackScholesModel` -/

/-- The data members of `BlackScholesModel`. -/
structure BlackScholesModel (α : Type) where
  size_ : Nat
  r_ : α
  rho_ : α
  sigma_ : PnlVect α
  spot_ : PnlVect α
  trend : PnlVect α
  mat_cholesky : PnlMat α
  G : PnlVect α
  clone_past_ : PnlMat α
  subBlock_ : PnlMat α

/-- The dimensions every constructor establishes: the three parameter vectors have
`size_` entries and the Cholesky factor is `size_ × size_`. -/
def BlackScholesModel.WellFormed {α : Type} (M : BlackScholesModel α) : Prop :=
  M.spot_.size = M.size_ ∧ M.sigma_.size = M.size_ ∧ M.trend.size = M.size_ ∧
    M.mat_cholesky.m = M.size_ ∧ M.mat_cholesky.n = M.size_

/-- The local variables `cours_date` and `path` of the fixed-sample path loops. -/
structure PathState (α : Type) where
  cours_date : PnlVect α
  path : PnlMat α

/-- The state of the generator-driven path loops: the object (its member `G` is
overwritten at every draw), the generator, `cours_date` and `path`. -/
structure RngState (α : Type) where
  model : BlackScholesModel α
  rng : PnlRng α
  cours_date : PnlVect α
  path : PnlMat α

section Simulation

variable {α : Type} [LinearOrderedField α] [FloorRing α]

/-- The statement every path loop executes for asset `i`:
`cours_date[i] = cours_date[i] * exp((drift - sigma_[i]^2 / 2) * dt
   + sigma_[i] * sqrt(dt) * pnl_vect_scalar_prod(mat_chol_row, G))`
after `pnl_mat_get_row(mat_chol_row, mat_cholesky, i)`.  The drift is `r_` in `asset`
and `pnl_vect_get(trend, i)` in `simul_market`; `dt` is the elapsed time. -/
def update_cours (F : Libm α) (M : BlackScholesModel α) (drift : Nat → Option α) (dt : α)
    (G : PnlVect α) (cours_date : PnlVect α) (i : Nat) : Option (PnlVect α) := do
  let mat_chol_row ← pnl_mat_get_row M.mat_cholesky i
  let x ← pnl_vect_get cours_date i
  let mu ← drift i
  let s ← pnl_vect_get M.sigma_ i
  let p ← pnl_vect_scalar_prod mat_chol_row G
  pnl_vect_set cours_date i (x * F.exp ((mu - s ^ 2 / 2) * dt + s * F.sqrt dt * p))

/-- The loop `for (int i = 0; i < size_; i++)` around `update_cours`. -/
def update_all (F : Libm α) (M : BlackScholesModel α) (drift : Nat → Option α) (dt : α)
    (G : PnlVect α) (cours_date : PnlVect α) : Option (PnlVect α) :=
  (List.range M.size_).foldlM (update_cours F M drift dt G) cours_date

/-- The drift of `asset`: the rate `r_` for every asset. -/
def drift_r (M : BlackScholesModel α) : Nat → Option α := fun _ => some M.r_

/-- The drift of `simul_market`: `pnl_vect_get(trend, i)`. -/
def drift_trend (M : BlackScholesModel α) : Nat → Option α := fun i => pnl_vect_get M.trend i

/-- One iteration of the date loop of `asset(path, T, nbTimeSteps, rng)`. -/
def asset_rng_body (F : Libm α) (T : α) (nbTimeSteps : Nat) (st : RngState α) (date : Nat) :
    Option (RngState α) :=
  if date = 0 then do
    let path ← pnl_mat_set_row st.path st.cours_date date
    pure { st with path := path }
  else do
    let draw := pnl_vect_rng_normal st.model.size_ st.rng
    let model := { st.model with G := draw.1 }
    let cours_date ← update_all F model (drift_r model) (T / nbTimeSteps) model.G st.cours_date
    let path ← pnl_mat_set_row st.path cours_date date
    pure { model := model, rng := draw.2, cours_date := cours_date, path := path }

/-- The method `asset(PnlMat *path, double T, int nbTimeSteps, PnlRng *rng)`:
simulation from time 0 with draws of the generator. -/
def asset_rng (F : Libm α) (M : BlackScholesModel α) (path : PnlMat α) (T : α)
    (nbTimeSteps : Nat) (rng : PnlRng α) : Option (RngState α) :=
  (List.range (nbTimeSteps + 1)).foldlM (asset_rng_body F T nbTimeSteps)
    { model := M, rng := rng, cours_date := pnl_vect_clone pnl_vect_new M.spot_, path := path }

/-- One iteration of the date loop of `asset(path, T, nbTimeSteps, G)`. -/
def asset_G_body (F : Libm α) (M : BlackScholesModel α) (T : α) (nbTimeSteps : Nat)
    (G : PnlVect α) (st : PathState α) (date : Nat) : Option (PathState α) :=
  if date = 0 then do
    let path ← pnl_mat_set_row st.path st.cours_date date
    pure { st with path := path }
  else do
    let cours_date ← update_all F M (drift_r M) (T / nbTimeSteps) G st.cours_date
    let path ← pnl_mat_set_row st.path cours_date date
    pure { cours_date := cours_date, path := path }

/-- The method `asset(PnlMat *path, double T, int nbTimeSteps, PnlVect *G)`: simulation
from time 0 with the fixed sample `G`.  The result is the object after the call and the
path. -/
def asset_G (F : Libm α) (M : BlackScholesModel α) (path : PnlMat α) (T : α)
    (nbTimeSteps : Nat) (G : PnlVect α) : Option (BlackScholesModel α × PnlMat α) := do
  let st ← (List.range (nbTimeSteps + 1)).foldlM (asset_G_body F M T nbTimeSteps G)
    { cours_date := pnl_vect_clone pnl_vect_new M.spot_, path := path }
  pure (M, st.path)

/-- One iteration of the date loop of `simul_market(path, T, H, rng)`. -/
def simul_market_rng_body (F : Libm α) (T : α) (H : Nat) (st : RngState α) (date : Nat) :
    Option (RngState α) := do
  let st ←
    if date ≠ 0 then do
      let draw := pnl_vect_rng_normal st.model.size_ st.rng
      let model := { st.model with G := draw.1 }
      let cours_date ← update_all F model (drift_trend model) (T / H) model.G st.cours_date
      pure { st with model := model, rng := draw.2, cours_date := cours_date }
    else pure st
  let path ← pnl_mat_set_row st.path st.cours_date date
  pure { st with path := path }

/-- The method `simul_market(PnlMat *path, double T, int H, PnlRng *rng)`: simulation
under the historical probability with draws of the generator. -/
def simul_market_rng (F : Libm α) (M : BlackScholesModel α) (path : PnlMat α) (T : α)
    (H : Nat) (rng : PnlRng α) : Option (RngState α) :=
  (List.range (H + 1)).foldlM (simul_market_rng_body F T H)
    { model := M, rng := rng, cours_date := pnl_vect_clone pnl_vect_new M.spot_, path := path }

/-- One iteration of the date loop of `simul_market(path, T, H, G)`. -/
def simul_market_G_body (F : Libm α) (M : BlackScholesModel α) (T : α) (H : Nat)
    (G : PnlVect α) (st : PathState α) (date : Nat) : Option (PathState α) := do
  let cours_date ←
    if date ≠ 0 then update_all F M (drift_trend M) (T / H) G st.cours_date
    else pure st.cours_date
  let path ← pnl_mat_set_row st.path cours_date date
  pure { cours_date := cours_date, path := path }

/-- The method `simul_market(PnlMat *path, double T, int H, PnlVect *G)`: simulation
under the historical probability with the fixed sample `G`. -/
def simul_market_G (F : Libm α) (M : BlackScholesModel α) (path : PnlMat α) (T : α)
    (H : Nat) (G : PnlVect α) : Option (BlackScholesModel α × PnlMat α) := do
  let st ← (List.range (H + 1)).foldlM (simul_market_G_body F M T H G)
    { cours_date := pnl_vect_clone pnl_vect_new M.spot_, path := path }
  pure (M, st.path)

/-- The elapsed time `(past->m - 1) * step - t` of the first simulated date when `t` is
not on the grid; the subtraction `past->m - 1` is done on `int`. -/
def irregular_step (past : PnlMat α) (step t : α) : α :=
  (((past.m : Int) - 1 : Int) : α) * step - t

/-- The first statements of both `asset(path, t, T, nbTimeSteps, ., past)`: `past` is
cloned into `clone_past_` (a member in the overload with a generator, a fresh matrix in
the other), and the clone loses its last row when `fmod(t, T / nbTimeSteps) != 0`. -/
def clone_of_past (clone_past_ : PnlMat α) (t T : α) (nbTimeSteps : Nat) (past : PnlMat α) :
    Option (PnlMat α) :=
  let clone_past := pnl_mat_clone clone_past_ past
  if fmod_ne_zero t (T / nbTimeSteps) then
    pnl_mat_del_row clone_past ((clone_past.m : Int) - 1)
  else some clone_past

/-- One iteration of the date loop of `asset(path, t, T, nbTimeSteps, rng, past)`;
`first` is `clone_past_->m`, the first date of the loop. -/
def asset_rng_past_body (F : Libm α) (t step : α) (past : PnlMat α) (first : Nat)
    (st : RngState α) (date : Nat) : Option (RngState α) := do
  let draw := pnl_vect_rng_normal st.model.size_ st.rng
  let model := { st.model with G := draw.1 }
  let cours_date ←
    if date = first ∧ fmod_ne_zero t step = true then
      update_all F model (drift_r model) (irregular_step past step t) model.G st.cours_date
    else
      update_all F model (drift_r model) step model.G st.cours_date
  let path ← pnl_mat_set_row st.path cours_date date
  pure { model := model, rng := draw.2, cours_date := cours_date, path := path }

/-- The method `asset(PnlMat *path, double t, double T, int nbTimeSteps, PnlRng *rng,
const PnlMat *past)`: continuation of the observed `past` with draws of the generator. -/
def asset_rng_past (F : Libm α) (M : BlackScholesModel α) (path : PnlMat α) (t T : α)
    (nbTimeSteps : Nat) (rng : PnlRng α) (past : PnlMat α) : Option (RngState α) := do
  let step := T / nbTimeSteps
  let clone_past ← clone_of_past M.clone_past_ t T nbTimeSteps past
  let M := { M with clone_past_ := clone_past }
  let path ← pnl_mat_set_subblock path M.clone_past_ 0 0
  let last_row ← pnl_mat_get_row past ((past.m : Int) - 1)
  let cours_date := pnl_vect_clone pnl_vect_new last_row
  (List.range' M.clone_past_.m (nbTimeSteps + 1 - M.clone_past_.m)).foldlM
    (asset_rng_past_body F t step past M.clone_past_.m)
    { model := M, rng := rng, cours_date := cours_date, path := path }

/-- One iteration of the date loop of `asset(path, t, T, nbTimeSteps, G, past)`;
`first` is `clone_past->m`, the first date of the loop. -/
def asset_G_past_body (F : Libm α) (M : BlackScholesModel α) (t step : α) (G : PnlVect α)
    (past : PnlMat α) (first : Nat) (st : PathState α) (date : Nat) :
    Option (PathState α) := do
  let cours_date ←
    if date = first ∧ fmod_ne_zero t step = true then
      update_all F M (drift_r M) (irregular_step past step t) G st.cours_date
    else
      update_all F M (drift_r M) step G st.cours_date
  let path ← pnl_mat_set_row st.path cours_date date
  pure { cours_date := cours_date, path := path }

/-- The method `asset(PnlMat *path, double t, double T, int nbTimeSteps, PnlVect *G,
const PnlMat *past)`: continuation of the observed `past` with the fixed sample `G`.
The two `cout` statements are not part of the embedding. -/
def asset_G_past (F : Libm α) (M : BlackScholesModel α) (path : PnlMat α) (t T : α)
    (nbTimeSteps : Nat) (G : PnlVect α) (past : PnlMat α) :
    Option (BlackScholesModel α × PnlMat α) := do
  let step := T / nbTimeSteps
  let path := pnl_mat_set_all path 0
  let clone_past ← clone_of_past pnl_mat_new t T nbTimeSteps past
  let path ← pnl_mat_set_subblock path clone_past 0 0
  let last_row ← pnl_mat_get_row past ((past.m : Int) - 1)
  let cours_date := pnl_vect_clone pnl_vect_new last_row
  let st ← (List.range' clone_past.m (nbTimeSteps + 1 - clone_past.m)).foldlM
    (asset_G_past_body F M t step G past clone_past.m)
    { cours_date := cours_date, path := path }
  pure (M, st.path)

/-! ## `shiftAsset` -/

/-- The index `ind_t` computed at the head of `shiftAsset`: `floor(t / timestep) + 1`
when `fmod(t, timestep) != 0` and `t / timestep` otherwise, both converted to `int`. -/
def shift_index (t timestep : α) : Int :=
  if fmod_ne_zero t timestep then toInt (((⌊t / timestep⌋ : Int) : α) + 1)
  else toInt (t / timestep)

/-- The objects `shiftAsset` is called with, after the call: the model (its member
`subBlock_` is overwritten), the output `shift_path` and the input `path`. -/
structure ShiftResult (α : Type) where
  model : BlackScholesModel α
  shift_path : PnlMat α
  path : PnlMat α

/-- The method `shiftAsset(PnlMat *shift_path, const PnlMat *path, int d, double h,
double t, double timestep)`; `shift_path` and `path` are distinct objects. -/
def shiftAsset (M : BlackScholesModel α) (shift_path path : PnlMat α) (d : Int)
    (h t timestep : α) : Option (ShiftResult α) := do
  let ind_t := shift_index t timestep
  let subBlock ← pnl_mat_extract_subblock path ind_t ((path.m : Int) - ind_t) d 1
  let subBlock := pnl_mat_mult_scalar subBlock (1 + h)
  let M := { M with subBlock_ := subBlock }
  let shift_path := pnl_mat_resize shift_path path.m path.n
  let shift_path := pnl_mat_clone shift_path path
  let shift_path ← pnl_mat_set_subblock shift_path M.subBlock_ ind_t d
  pure { model := M, shift_path := shift_path, path := path }

end Simulation

/-! ## The start-up message and the constructors -/

/-- One item of an `MPI_PACKED` buffer: an `MPI_INT` or an `MPI_DOUBLE`. -/
inductive MpiItem (α : Type) where
  | int (v : Int)
  | double (v : α)

/-- The values `Param::extract` delivers to the constructors, by key. -/
structure Param (α : Type) where
  option_size : Nat
  spot : PnlVect α
  volatility : PnlVect α
  interest_rate : α
  correlation : α
  trend : PnlVect α

section Constructors

variable {α : Type} [LinearOrderedField α] [FloorRing α]

/-- The entries `array[0 .. count-1]` as buffer items. -/
def double_items (array : Nat → α) (count : Nat) : List (MpiItem α) :=
  (List.range count).map (fun j => MpiItem.double (array j))

/-- MPI `MPI_Pack(&x, 1, MPI_INT, buf, bufsize, &pos, comm)`; the position is the number
of items already in the buffer. -/
def MPI_Pack_int (x : Int) (buf : List (MpiItem α)) : List (MpiItem α) :=
  buf ++ [MpiItem.int x]

/-- MPI `MPI_Pack(array, count, MPI_DOUBLE, buf, bufsize, &pos, comm)`. -/
def MPI_Pack_double (array : Nat → α) (count : Nat) (buf : List (MpiItem α)) :
    List (MpiItem α) :=
  buf ++ double_items array count

/-- MPI `MPI_Unpack(buf, bufsize, &pos, &x, 1, MPI_INT, comm)`: the item at `pos`, which
must be an `int`, and the new position. -/
def MPI_Unpack_int (buf : List (MpiItem α)) (pos : Nat) : Option (Int × Nat) :=
  match buf[pos]? with
  | some (MpiItem.int v) => some (v, pos + 1)
  | _ => none

/-- The `double` stored at position `pos` of a buffer. -/
def double_at (buf : List (MpiItem α)) (pos : Nat) : Option α :=
  match buf[pos]? with
  | some (MpiItem.double v) => some v
  | _ => none

/-- MPI `MPI_Unpack(buf, bufsize, &pos, array, count, MPI_DOUBLE, comm)`: the `count`
items from `pos` on, which must be `double`s, are stored in `array[0 .. count-1]`. -/
def MPI_Unpack_double (buf : List (MpiItem α)) (pos : Nat) (array : Nat → α)
    (count : Nat) : Option ((Nat → α) × Nat) := do
  let vs ← (List.range count).mapM (fun j => double_at buf (pos + j))
  pure (fun j => if j < count then vs.getD j (array j) else array j, pos + count)

/-- The three statements that end every constructor: the matrix with `rho_` off the
diagonal and `1` on it, factorised by `pnl_mat_chol` (a parameter). -/
def cholesky_of_rho (chol : PnlMat α → Option (PnlMat α)) (size_ : Nat) (rho_ : α) :
    Option (PnlMat α) :=
  chol (pnl_mat_set_diag (pnl_mat_create_from_scalar size_ size_ rho_) 1)

/-- The constructor `BlackScholesModel(Param *P, int size)` of the master: the result is
the object and the messages sent, each with its destination rank.  The buffer is sent
whole, `unused` is the part of it behind the packed items. -/
def BlackScholesModel.master (chol : PnlMat α → Option (PnlMat α)) (P : Param α)
    (size : Nat) (unused : List (MpiItem α)) :
    Option (BlackScholesModel α × List (Nat × List (MpiItem α))) := do
  let size_ := P.option_size
  let spot_ := P.spot
  let sigma_ := P.volatility
  let r_ := P.interest_rate
  let rho_ := P.correlation
  let trend := P.trend
  let buf : List (MpiItem α) := []
  let buf := MPI_Pack_int (size_ : Int) buf
  let buf := MPI_Pack_double (fun _ => rho_) 1 buf
  let buf := MPI_Pack_double sigma_.array sigma_.size buf
  let buf := MPI_Pack_double trend.array trend.size buf
  let buf := MPI_Pack_double spot_.array spot_.size buf
  let buf := MPI_Pack_double (fun _ => r_) 1 buf
  let sent := (List.range' 1 (size - 1)).map (fun i => (i, buf ++ unused))
  let mat_cholesky ← cholesky_of_rho chol size_ rho_
  pure ({ size_ := size_, r_ := r_, rho_ := rho_, sigma_ := sigma_, spot_ := spot_,
          trend := trend, mat_cholesky := mat_cholesky, G := pnl_vect_new,
          clone_past_ := pnl_mat_new, subBlock_ := pnl_mat_new }, sent)

/-- The default constructor `BlackScholesModel()` of a worker, run on the buffer
received from rank 0. -/
def BlackScholesModel.worker (chol : PnlMat α → Option (PnlMat α))
    (buf : List (MpiItem α)) : Option (BlackScholesModel α) := do
  let pos := 0
  let (n, pos) ← MPI_Unpack_int buf pos
  if n < 0 then none
  let size_ := n.toNat
  let sigma_ : PnlVect α := pnl_vect_create size_
  let spot_ : PnlVect α := pnl_vect_create size_
  let trend : PnlVect α := pnl_vect_create size_
  let (rho, pos) ← MPI_Unpack_double buf pos (fun _ => 0) 1
  let rho_ := rho 0
  let (sigma_array, pos) ← MPI_Unpack_double buf pos sigma_.array sigma_.size
  let (trend_array, pos) ← MPI_Unpack_double buf pos trend.array trend.size
  let (spot_array, pos) ← MPI_Unpack_double buf pos spot_.array spot_.size
  let (r, _) ← MPI_Unpack_double buf pos (fun _ => 0) 1
  let r_ := r 0
  let mat_cholesky ← cholesky_of_rho chol size_ rho_
  pure { size_ := size_, r_ := r_, rho_ := rho_,
         sigma_ := { sigma_ with array := sigma_array },
         spot_ := { spot_ with array := spot_array },
         trend := { trend with array := trend_array },
         mat_cholesky := mat_cholesky, G := pnl_vect_new,
         clone_past_ := pnl_mat_new, subBlock_ := pnl_mat_new }

/-- The constructor `BlackScholesModel(Param *P)` without communication. -/
def BlackScholesModel.from_param (chol : PnlMat α → Option (PnlMat α)) (P : Param α) :
    Option (BlackScholesModel α) := do
  let mat_cholesky ← cholesky_of_rho chol P.option_size P.correlation
  pure { size_ := P.option_size, r_ := P.interest_rate, rho_ := P.correlation,
         sigma_ := P.volatility, spot_ := P.spot, trend := P.trend,
         mat_cholesky := mat_cholesky, G := pnl_vect_new,
         clone_past_ := pnl_mat_new, subBlock_ := pnl_mat_new }

end Constructors

/-! ## Closed forms used in the statements -/

section ClosedForms

variable {α : Type} [LinearOrderedField α] [FloorRing α]

/-- The factor one update multiplies the price of asset `i` by, for the drift `mu i`, the
elapsed time `dt` and the sample `G`. -/
def growth (F : Libm α) (M : BlackScholesModel α) (mu : Nat → α) (dt : α) (G : PnlVect α)
    (i : Nat) : α :=
  F.exp ((mu i - M.sigma_.array i ^ 2 / 2) * dt
    + M.sigma_.array i * F.sqrt dt * dot (M.mat_cholesky.row i) G)

/-- The prices after one update of all `size_` assets. -/
def next_cours (F : Libm α) (M : BlackScholesModel α) (mu : Nat → α) (dt : α) (G : PnlVect α)
    (v : Nat → α) : Nat → α :=
  fun i => if i < M.size_ then v i * growth F M mu dt G i else v i

/-- The value of `cours_date` after `j` dates of a loop that starts at date `s` with the
prices `v` and applies `g date` at each date. -/
def iter_rows (g : Nat → (Nat → α) → (Nat → α)) (s : Nat) (v : Nat → α) : Nat → (Nat → α)
  | 0 => v
  | j + 1 => g (s + j) (iter_rows g s v j)

/-- The effect of one date of a path loop whose update of `cours_date` is `g date`:
`cours_date` is updated and written to row `date` of `path`. -/
def after_date (g : Nat → (Nat → α) → (Nat → α)) (st : PathState α) (date : Nat) :
    PathState α :=
  { cours_date := { size := st.cours_date.size, array := g date st.cours_date.array },
    path := { st.path with
      array := Function.update st.path.array date (g date st.cours_date.array) } }

/-- The vector the call number `k` (from 0) of `pnl_vect_rng_normal(G, size, rng)` delivers
when the generator starts in state `rng`. -/
def nth_draw (size : Nat) (rng : PnlRng α) (k : Nat) : PnlVect α :=
  (pnl_vect_rng_normal size { rng with pos := rng.pos + k * size }).1

/-- The update of `cours_date` at `date` in the loops that start from the spot: nothing
at date 0, then one update with the drift `mu`, the elapsed time `dt` and the sample
`Gs date`. -/
def forward_update (F : Libm α) (M : BlackScholesModel α) (mu : Nat → α) (dt : α)
    (Gs : Nat → PnlVect α) : Nat → (Nat → α) → (Nat → α) :=
  fun date v => if date = 0 then v else next_cours F M mu dt (Gs date) v

/-- The object of a generator-driven loop after `j` draws: its member `G` holds the last
draw, the other members are those of `M`. -/
def model_at (M : BlackScholesModel α) (rng : PnlRng α) (j : Nat) : BlackScholesModel α :=
  if j = 0 then M else { M with G := nth_draw M.size_ rng (j - 1) }

/-- The generator after `j` draws of `size` samples. -/
def rng_at (size : Nat) (rng : PnlRng α) (j : Nat) : PnlRng α :=
  { rng with pos := rng.pos + j * size }

/-- The local variables `cours_date` and `path` in the state of a generator-driven loop. -/
def RngState.toPathState (st : RngState α) : PathState α :=
  { cours_date := st.cours_date, path := st.path }

/-- The object and the generator of a generator-driven loop after `j` draws. -/
def rng_inv (M : BlackScholesModel α) (rng : PnlRng α) (j : Nat) (st : RngState α) : Prop :=
  st.model = model_at M rng j ∧ st.rng = rng_at M.size_ rng j

/-- The number of rows of the clone of `past`: one less than `past` when
`fmod(t, T / nbTimeSteps) != 0`. -/
def clone_rows (t T : α) (nbTimeSteps : Nat) (past : PnlMat α) : Nat :=
  if fmod_ne_zero t (T / nbTimeSteps) then past.m - 1 else past.m

/-- The elapsed time the continuation uses at `date`: `(past->m - 1) * step - t` at the
first date of the loop when `fmod(t, step) != 0`, and `step` otherwise. -/
def elapsed (t step : α) (past : PnlMat α) (first date : Nat) : α :=
  if date = first ∧ fmod_ne_zero t step = true then irregular_step past step t else step

/-- The update of `cours_date` at `date` in the continuation loops. -/
def past_update (F : Libm α) (M : BlackScholesModel α) (t step : α) (past : PnlMat α)
    (first : Nat) (Gs : Nat → PnlVect α) : Nat → (Nat → α) → (Nat → α) :=
  fun date v => next_cours F M (fun _ => M.r_) (elapsed t step past first date) (Gs date) v

/-- The value `asset` gives to the price of asset `i` after the elapsed time `dt`, from
the price `x` and the sample `G`:
`x * exp((r_ - sigma_i^2 / 2) * dt + sigma_i * sqrt(dt) * (row i of mat_cholesky . G))`. -/
def asset_step (F : Libm α) (M : BlackScholesModel α) (i : Nat) (dt : α) (G : PnlVect α)
    (x : α) : α :=
  x * F.exp ((M.r_ - M.sigma_.array i ^ 2 / 2) * dt
    + M.sigma_.array i * F.sqrt dt * dot (M.mat_cholesky.row i) G)

/-- The start-up message in the order the specification gives: the asset count as an
`int`, then as `double`s the correlation, the `n` volatilities, the `n` trends, the `n`
spots and the interest rate; `unused` is what follows in the buffer. -/
def startup_layout (n : Nat) (rho : α) (sigma trend spot : Nat → α) (r : α)
    (unused : List (MpiItem α)) : List (MpiItem α) :=
  [MpiItem.int (n : Int)] ++ [MpiItem.double rho] ++ double_items sigma n
    ++ double_items trend n ++ double_items spot n ++ [MpiItem.double r] ++ unused

end ClosedForms

/-! ## Concrete inputs

Inputs over the rationals on which the definitions are evaluated.  `exp` and `sqrt` are
interpreted by computable functions. -/

section Examples

/-- An interpretation of `exp` and `sqrt` over `ℚ`. -/
def exLibm : Libm ℚ := { exp := fun x => 1 + x, sqrt := fun x => x }

/-- A model with two assets. -/
def exModel : BlackScholesModel ℚ :=
  { size_ := 2, r_ := 1 / 20, rho_ := 0,
    sigma_ := { size := 2, array := fun i => if i = 0 then 1 / 5 else 3 / 10 },
    spot_ := { size := 2, array := fun i => if i = 0 then 100 else 50 },
    trend := { size := 2, array := fun i => if i = 0 then 1 / 10 else 1 / 25 },
    mat_cholesky := { m := 2, n := 2, array := fun i j => if i = j then 1 else 0 },
    G := pnl_vect_new, clone_past_ := pnl_mat_new, subBlock_ := pnl_mat_new }

/-- A path buffer with three rows and two columns. -/
def exPath : PnlMat ℚ := { m := 3, n := 2, array := fun _ _ => 0 }

/-- A second path buffer of the same dimensions with other contents. -/
def exPath2 : PnlMat ℚ := { m := 3, n := 2, array := fun _ _ => 7 }

/-- A sample of two values. -/
def exG : PnlVect ℚ := { size := 2, array := fun i => if i = 0 then 1 else -1 }

/-- A generator. -/
def exRng : PnlRng ℚ := { stream := fun k => (k : ℚ) - 2, pos := 0 }

/-- An observed past of two rows: the spot and one later observation. -/
def exPast : PnlMat ℚ :=
  { m := 2, n := 2,
    array := fun i j => if i = 0 then (if j = 0 then 100 else 50)
                        else (if j = 0 then 110 else 55) }

/-- The parameters of `exModel` as the parameter file delivers them. -/
def exParam : Param ℚ :=
  { option_size := 2, spot := exModel.spot_, volatility := exModel.sigma_,
    interest_rate := 1 / 20, correlation := 0, trend := exModel.trend }

/-- A factorisation that returns its argument, which is the factor of the identity. -/
def exChol : PnlMat ℚ → Option (PnlMat ℚ) := fun M => some M

end Examples

section PartitionDefs

/-- Modelled from the spec: the number of trials a rank runs in
`MonteCarlo::price_parallelisation`, whose body (`MonteCarlo.cpp`) is not among the
sources.  Every one of the `W` ranks runs `nbSamples_ / W` trials (integer division) and
rank 0, the master, runs the remainder in addition. -/
def trial_share (nbSamples W rank : Nat) : Nat :=
  nbSamples / W + (if rank = 0 then nbSamples % W else 0)

end PartitionDefs

section SampleDefs

/-- A generator whose every draw of two samples is `exG`. -/
def exRngConst : PnlRng ℚ := { stream := fun k => if k % 2 = 0 then 1 else -1, pos := 0 }

end SampleDefs

section BumpDefs

variable {α : Type} [LinearOrderedField α] [FloorRing α]

/-- A past that consists of the spot of `exModel` only. -/
def exSpotPast : PnlMat ℚ := { m := 1, n := 2, array := fun _ => exModel.spot_.array }

/-- The observed past with the entry of its last row in column `d` multiplied by `1 + h`,
every other entry kept. -/
def bump_last (past : PnlMat α) (d : Int) (h : α) : PnlMat α :=
  { past with array := fun k j =>
      if k = past.m - 1 ∧ j = d.toNat then past.array k j * (1 + h) else past.array k j }

end BumpDefs

section UnitDefs

variable (α : Type) [LinearOrderedField α]

/-- A model with one asset over any field: spot 1, volatility 1, rate 0. -/
def unitModel : BlackScholesModel α :=
  { size_ := 1, r_ := 0, rho_ := 0,
    sigma_ := { size := 1, array := fun _ => 1 },
    spot_ := { size := 1, array := fun _ => 1 },
    trend := { size := 1, array := fun _ => 0 },
    mat_cholesky := { m := 1, n := 1, array := fun _ _ => 1 },
    G := pnl_vect_new, clone_past_ := pnl_mat_new, subBlock_ := pnl_mat_new }

/-- A path buffer with three rows and one column over any field. -/
def unitPath : PnlMat α := { m := 3, n := 1, array := fun _ _ => 0 }

/-- A sample of one value over any field. -/
def unitG : PnlVect α := { size := 1, array := fun _ => 1 }

end UnitDefs

section Binary64Defs

/-- The integer nearest to `x`, the even one of the two when `x` lies halfway between two
integers. -/
def round_half_even (x : ℚ) : Int :=
  if x - ⌊x⌋ < 1 / 2 then ⌊x⌋
  else if 1 / 2 < x - ⌊x⌋ then ⌊x⌋ + 1
  else if ⌊x⌋ % 2 = 0 then ⌊x⌋ else ⌊x⌋ + 1

/-- The exponent of the spacing of the binary64 numbers around `x`: the numbers with
`2^e <= |x| < 2^(e+1)` carry 53 significant bits, so they are `2^(e-52)` apart; below
`2^(-1022)` the spacing stays `2^(-1074)`. -/
def ulp_exponent (x : ℚ) : Int := max (Int.log 2 |x|) (-1022) - 52

/-- The binary64 number a C operation on `double` delivers when its exact result is `x`:
the nearest one, ties to the even significand.  Overflow to an infinity (`|x| >= 2^1024`)
is not modelled. -/
def binary64 (x : ℚ) : ℚ :=
  (round_half_even (x / (2 : ℚ) ^ ulp_exponent x) : ℚ) * (2 : ℚ) ^ ulp_exponent x

/-- The C sum `x + y` of two `double`s. -/
def double_add (x y : ℚ) : ℚ := binary64 (x + y)

/-- The C difference `x - y` of two `double`s. -/
def double_sub (x y : ℚ) : ℚ := binary64 (x - y)

/-- The C product `x * y` of two `double`s. -/
def double_mul (x y : ℚ) : ℚ := binary64 (x * y)

/-- The C quotient `x / y` of two `double`s, for `y` other than zero. -/
def double_div (x y : ℚ) : ℚ := binary64 (x / y)

/-- The index `ind_t` of `shiftAsset` as the machine computes it: `fmod` is exact, the
quotient `t / timestep` and the sum `floor(.) + 1` are rounded to binary64, and the
`double` is converted to a 32-bit `int`.  A zero `timestep` (the quotient is an infinity
or NaN) and a value outside the range of `int` make the conversion undefined, here
`none`. -/
def shift_index_binary64 (t timestep : ℚ) : Option Int :=
  if timestep = 0 then none
  else
    let ind_t :=
      if fmod_ne_zero t timestep then double_add ((⌊double_div t timestep⌋ : Int) : ℚ) 1
      else double_div t timestep
    if -(2 : Int) ^ 31 ≤ toInt ind_t ∧ toInt ind_t < (2 : Int) ^ 31 then some (toInt ind_t)
    else none

/-- The elapsed time `(past->m - 1) * step - t` as the machine computes it: the `int`
`past->m - 1` is converted exactly, the product and the difference are rounded to
binary64. -/
def irregular_step_binary64 (past : PnlMat ℚ) (step t : ℚ) : ℚ :=
  double_sub (double_mul ((((past.m : Int) - 1 : Int) : ℚ)) step) t

/-- An observed past of six rows of one asset. -/
def exPastSix : PnlMat ℚ := { m := 6, n := 1, array := fun _ _ => 100 }

end Binary64Defs

section CholeskyDefs

variable {α : Type} [LinearOrderedField α]

/-- The entries `0 .. j-1` of row `i` of the Cholesky factor of `A`, from the rows above it
held in `L`: entry `j` is `(A i j - sum over k < j of L i k * L j k) / L j j`.  Where the
diagonal entry `L j j` is zero the entry is zero, provided the number to divide is zero as
well; otherwise `A` has no factor and the result is `none`. -/
def chol_off_diag (A L : Nat → Nat → α) (i : Nat) : Nat → Option (Nat → α)
  | 0 => some (fun _ => 0)
  | j + 1 =>
    match chol_off_diag A L i j with
    | none => none
    | some row =>
      if L j j = 0 then
        if A i j - ∑ k in Finset.range j, row k * L j k = 0 then some (Function.update row j 0)
        else none
      else some (Function.update row j ((A i j - ∑ k in Finset.range j, row k * L j k) / L j j))

/-- Row `i` of the Cholesky factor of `A`: the entries left of the diagonal, then on the
diagonal the square root of the pivot `A i i - sum over k < i of (L i k)^2`.  A negative
pivot makes the factorisation fail. -/
def chol_row (F : Libm α) (A L : Nat → Nat → α) (i : Nat) : Option (Nat → α) :=
  match chol_off_diag A L i i with
  | none => none
  | some row =>
    if 0 ≤ A i i - ∑ k in Finset.range i, row k * row k then
      some (Function.update row i (F.sqrt (A i i - ∑ k in Finset.range i, row k * row k)))
    else none

/-- The first `i` rows of the Cholesky factor of `A`, the other entries being zero. -/
def chol_rows (F : Libm α) (A : Nat → Nat → α) : Nat → Option (Nat → Nat → α)
  | 0 => some (fun _ _ => 0)
  | i + 1 =>
    match chol_rows F A i with
    | none => none
    | some L =>
      match chol_row F A L i with
      | none => none
      | some r => some (Function.update L i r)

/-- Modelled from the spec: `pnl_mat_chol(M)` of the PNL library, which is not among the
sources.  The spec takes it as the library's Cholesky factorisation: for a valid input, a
positive semi-definite matrix, it delivers a lower triangular `L` with `L * L^T = M`, and a
matrix that is not positive semi-definite is rejected.  Here it is the factorisation computed
row by row from the lower part of `M`; on exit the lower part holds the factor and the part
above the diagonal is zero.  It is rejected, here `none`, when `M` is not square, when a
pivot is negative, or when a pivot is zero and an entry below it is not. -/
def pnl_mat_chol (F : Libm α) (M : PnlMat α) : Option (PnlMat α) :=
  if M.m = M.n then
    match chol_rows F M.array M.m with
    | none => none
    | some L => some { M with array := L }
  else none

/-- The quadratic form `sum over i, j < n of x i * A i j * x j`. -/
def quad_form (n : Nat) (A : Nat → Nat → α) (x : Nat → α) : α :=
  ∑ i in Finset.range n, ∑ j in Finset.range n, x i * A i j * x j

/-- The matrix `A` of order `n` is positive semi-definite. -/
def PosSemidef (n : Nat) (A : Nat → Nat → α) : Prop :=
  ∀ x : Nat → α, 0 ≤ quad_form n A x

/-- The matrix every constructor factorises: `rho` off the diagonal, `1` on it. -/
def correlation_matrix (n : Nat) (rho : α) : PnlMat α :=
  pnl_mat_set_diag (pnl_mat_create_from_scalar n n rho) 1

/-- The sum of the squares of the entries left of the diagonal in row `k` of the factor of
the correlation matrix: `k * rho^2 / (1 + (k - 1) * rho)`. -/
def equi_s (rho : α) (k : Nat) : α := (k : α) * rho ^ 2 / (1 + ((k : α) - 1) * rho)

/-- The diagonal entry number `k` of the factor of the correlation matrix. -/
def equi_d (F : Libm α) (rho : α) (k : Nat) : α := F.sqrt (1 - equi_s rho k)

/-- The entry of column `k` below the diagonal of the factor of the correlation matrix; it is
zero where the diagonal entry is zero. -/
def equi_l (F : Libm α) (rho : α) (k : Nat) : α :=
  if equi_d F rho k = 0 then 0 else (rho - equi_s rho k) / equi_d F rho k

/-- The first `i` rows of the factor of the correlation matrix in closed form. -/
def equi_rows (F : Libm α) (rho : α) (i : Nat) : Nat → Nat → α :=
  fun r c => if r < i then (if c < r then equi_l F rho c else if c = r then equi_d F rho r else 0)
             else 0

end CholeskyDefs

section UnderflowDefs

end UnderflowDefs

/-! ## Loop lemmas -/

section ContainerLemmas

variable {α : Type}

theorem foldlM_range'_inv {σ : Type} (body : σ → Nat → Option σ) (Inv : Nat → σ → Prop) :
    ∀ (len s : Nat) (st : σ), Inv s st →
      (∀ k st', s ≤ k → k < s + len → Inv k st' →
        ∃ st'', body st' k = some st'' ∧ Inv (k + 1) st'') →
      ∃ out, (List.range' s len).foldlM body st = some out ∧ Inv (s + len) out := by
  intro len
  induction len with
  | zero => intro s st h0 _; exact ⟨st, by simp, by simpa using h0⟩
  | succ len ih =>
    intro s st h0 hstep
    obtain ⟨st1, hb, h1⟩ := hstep s st le_rfl (by omega) h0
    obtain ⟨out, ho, hi⟩ := ih (s + 1) st1 h1 (fun k st' hk1 hk2 hI =>
      hstep k st' (by omega) (by omega) hI)
    refine ⟨out, ?_, ?_⟩
    · simp [List.range'_succ, hb, ho]
    · have : s + (len + 1) = s + 1 + len := by omega
      rw [this]; exact hi

theorem path_loop_spec {σ : Type} (body : σ → Nat → Option σ) (proj : σ → PathState α)
    (A : Nat → σ → Prop) (g : Nat → (Nat → α) → (Nat → α)) (s len : Nat) (st : σ)
    (hA : A s st)
    (hbody : ∀ date st', s ≤ date → date < s + len → A date st' →
      (proj st').cours_date.size = (proj st).cours_date.size →
      (proj st').path.n = (proj st).path.n → (proj st').path.m = (proj st).path.m →
      ∃ st'', body st' date = some st'' ∧ A (date + 1) st'' ∧
        proj st'' = after_date g (proj st') date) :
    ∃ out, (List.range' s len).foldlM body st = some out ∧ A (s + len) out ∧
      (proj out).path.m = (proj st).path.m ∧ (proj out).path.n = (proj st).path.n ∧
      (proj out).cours_date.size = (proj st).cours_date.size ∧
      (proj out).cours_date.array = iter_rows g s (proj st).cours_date.array len ∧
      (∀ k, k < s → (proj out).path.array k = (proj st).path.array k) ∧
      (∀ k, s + len ≤ k → (proj out).path.array k = (proj st).path.array k) ∧
      (∀ j, j < len →
        (proj out).path.array (s + j) = iter_rows g s (proj st).cours_date.array (j + 1)) := by
  have key := foldlM_range'_inv body
    (fun k x => ∃ j, k = s + j ∧ A k x ∧
      (proj x).path.m = (proj st).path.m ∧ (proj x).path.n = (proj st).path.n ∧
      (proj x).cours_date.size = (proj st).cours_date.size ∧
      (proj x).cours_date.array = iter_rows g s (proj st).cours_date.array j ∧
      (∀ r, r < s → (proj x).path.array r = (proj st).path.array r) ∧
      (∀ r, s + j ≤ r → (proj x).path.array r = (proj st).path.array r) ∧
      (∀ i, i < j →
        (proj x).path.array (s + i) = iter_rows g s (proj st).cours_date.array (i + 1)))
    len s st
    ⟨0, rfl, hA, rfl, rfl, rfl, rfl, fun _ _ => rfl, fun _ _ => rfl,
      fun i hi => absurd hi (Nat.not_lt_zero i)⟩
    (by
      rintro k x hk1 hk2 ⟨j, rfl, hAx, h1, h2, h3, h4, h5, h6, h7⟩
      obtain ⟨y, hy, hAy, hp⟩ := hbody (s + j) x hk1 hk2 hAx h3 h2 h1
      refine ⟨y, hy, j + 1, rfl, hAy, ?_, ?_, ?_, ?_, ?_, ?_, ?_⟩
      · rw [hp]; exact h1
      · rw [hp]; exact h2
      · rw [hp]; exact h3
      · rw [hp]; simp only [after_date, iter_rows, h4]
      · intro r hr
        rw [hp]; simp only [after_date]
        rw [Function.update_noteq (by omega)]; exact h5 r hr
      · intro r hr
        rw [hp]; simp only [after_date]
        rw [Function.update_noteq (by omega)]; exact h6 r (by omega)
      · intro i hi
        rw [hp]; simp only [after_date]
        by_cases hij : i = j
        · subst hij; simp [iter_rows, h4]
        · rw [Function.update_noteq (by omega)]; exact h7 i (by omega))
  obtain ⟨out, ho, j, hj, hAo, h1, h2, h3, h4, h5, h6, h7⟩ := key
  have hj' : j = len := by omega
  subst hj'
  exact ⟨out, ho, hAo, h1, h2, h3, h4, h5, h6, h7⟩

theorem model_at_size (M : BlackScholesModel α) (rng : PnlRng α) (j : Nat) :
    (model_at M rng j).size_ = M.size_ ∧ (model_at M rng j).sigma_ = M.sigma_ ∧
    (model_at M rng j).mat_cholesky = M.mat_cholesky ∧ (model_at M rng j).r_ = M.r_ ∧
    (model_at M rng j).trend = M.trend := by
  unfold model_at
  split <;> exact ⟨rfl, rfl, rfl, rfl, rfl⟩

theorem set_row_eq (P : PnlMat α) (V : PnlVect α) (date : Nat) (hd : date < P.m)
    (hn : P.n = V.size) :
    pnl_mat_set_row P V date = some { P with array := Function.update P.array date V.array } := by
  have h : ((date : Nat) : Int) < (P.m : Int) := by exact_mod_cast hd
  simp [pnl_mat_set_row, h, hn]

theorem drift_r_eq (M : BlackScholesModel α) :
    ∀ j, j < M.size_ → drift_r M j = some ((fun _ => M.r_) j) :=
  fun _ _ => rfl

theorem drift_trend_eq (M : BlackScholesModel α) (hM : M.WellFormed) :
    ∀ j, j < M.size_ → drift_trend M j = some (M.trend.array j) := by
  intro j hj
  have h : ((j : Nat) : Int) < (M.trend.size : Int) := by
    rw [hM.2.2.1]; exact_mod_cast hj
  simp [drift_trend, pnl_vect_get, h]

theorem rng_at_zero (size : Nat) (rng : PnlRng α) : rng_at size rng 0 = rng := by
  simp [rng_at]

theorem model_at_G (M : BlackScholesModel α) (rng : PnlRng α) (j : Nat) :
    (model_at M rng (j + 1)).G = nth_draw M.size_ rng j := by
  simp [model_at]

theorem set_subblock_origin (P B : PnlMat α) (hm : B.m ≤ P.m) (hn : B.n ≤ P.n) :
    pnl_mat_set_subblock P B 0 0
      = some { P with array := fun r c =>
          if r < B.m ∧ c < B.n then B.array r c else P.array r c } := by
  have h1 : (B.m : Int) ≤ (P.m : Int) := by exact_mod_cast hm
  have h2 : (B.n : Int) ≤ (P.n : Int) := by exact_mod_cast hn
  simp [pnl_mat_set_subblock, h1, h2]

theorem last_row_eq (past : PnlMat α) (h1 : 1 ≤ past.m) :
    pnl_mat_get_row past ((past.m : Int) - 1) = some (past.row (past.m - 1)) := by
  have hi : ((past.m : Int) - 1) = ((past.m - 1 : Nat) : Int) := by omega
  have h2 : ((past.m - 1 : Nat) : Int) < (past.m : Int) := by omega
  rw [hi]
  simp only [pnl_mat_get_row, Int.toNat_ofNat]
  rw [if_pos ⟨Int.natCast_nonneg _, h2⟩]

theorem iter_past_one (g : Nat → (Nat → α) → (Nat → α)) (s : Nat) (v : Nat → α) :
    iter_rows g s v 1 = g s v := by
  simp [iter_rows]

theorem iter_past_succ (g : Nat → (Nat → α) → (Nat → α)) (s : Nat) (v : Nat → α) (j : Nat) :
    iter_rows g s v (j + 2) = g (s + (j + 1)) (iter_rows g s v (j + 1)) := by
  simp [iter_rows]

theorem mapM_option_eq {β γ : Type} (f : β → Option γ) (g : β → γ) :
    ∀ l : List β, (∀ x, x ∈ l → f x = some (g x)) → l.mapM f = some (l.map g) := by
  intro l
  induction l with
  | nil => intro _; rfl
  | cons a l ih =>
    intro h
    rw [List.mapM_cons, h a (List.mem_cons_self a l),
      ih (fun x hx => h x (List.mem_cons_of_mem a hx))]
    rfl

theorem double_at_append (pre post : List (MpiItem α)) (a : Nat → α) (c j : Nat) (hj : j < c) :
    double_at (pre ++ double_items a c ++ post) (pre.length + j) = some (a j) := by
  unfold double_at
  have hlen : (double_items a c).length = c := by simp [double_items]
  rw [List.append_assoc, List.getElem?_append_right (Nat.le_add_right _ _),
    Nat.add_sub_cancel_left, List.getElem?_append_left (by rw [hlen]; exact hj)]
  simp [double_items, hj]

/-- The result of a loop over the dates `0 .. N` whose body acts as `after_date g`. -/
theorem forward_loop_spec {σ : Type} (body : σ → Nat → Option σ) (proj : σ → PathState α)
    (A : Nat → σ → Prop) (g : Nat → (Nat → α) → (Nat → α)) (N : Nat) (st : σ)
    (hA : A 0 st)
    (hbody : ∀ date st', date < N + 1 → A date st' →
      (proj st').cours_date.size = (proj st).cours_date.size →
      (proj st').path.n = (proj st).path.n → (proj st').path.m = (proj st).path.m →
      ∃ st'', body st' date = some st'' ∧ A (date + 1) st'' ∧
        proj st'' = after_date g (proj st') date) :
    ∃ out, (List.range (N + 1)).foldlM body st = some out ∧ A (N + 1) out ∧
      (proj out).path.m = (proj st).path.m ∧ (proj out).path.n = (proj st).path.n ∧
      (∀ k, N + 1 ≤ k → (proj out).path.array k = (proj st).path.array k) ∧
      (∀ k, k ≤ N →
        (proj out).path.array k = iter_rows g 0 (proj st).cours_date.array (k + 1)) := by
  obtain ⟨out, ho, hAo, h1, h2, _, _, _, h6, h7⟩ := path_loop_spec body proj A g 0 (N + 1) st hA
    (fun date st' _ hlt => hbody date st' (by omega))
  refine ⟨out, ?_, ?_, h1, h2, ?_, ?_⟩
  · rw [List.range_eq_range']; exact ho
  · simpa using hAo
  · intro k hk; exact h6 k (by omega)
  · intro k hk
    have := h7 k (by omega)
    simpa using this

theorem rng_draw_step (M : BlackScholesModel α) (rng : PnlRng α) (j : Nat) :
    (pnl_vect_rng_normal (model_at M rng j).size_ (rng_at M.size_ rng j)).1
        = nth_draw M.size_ rng j ∧
    (pnl_vect_rng_normal (model_at M rng j).size_ (rng_at M.size_ rng j)).2
        = rng_at M.size_ rng (j + 1) ∧
    { model_at M rng j with G := nth_draw M.size_ rng j } = model_at M rng (j + 1) := by
  rw [(model_at_size M rng j).1]
  refine ⟨rfl, ?_, ?_⟩
  · simp [pnl_vect_rng_normal, rng_at, Nat.add_mul, Nat.add_assoc]
  · unfold model_at
    by_cases h : j = 0
    · subst h; simp
    · simp [h]

theorem unpack_double_append (pre post : List (MpiItem α)) (a arr : Nat → α) (c : Nat) :
    MPI_Unpack_double (pre ++ double_items a c ++ post) pre.length arr c
      = some (fun j => if j < c then a j else arr j, pre.length + c) := by
  unfold MPI_Unpack_double
  rw [mapM_option_eq _ a (List.range c) (fun j hj =>
    double_at_append pre post a c j (List.mem_range.mp hj))]
  simp only [Option.bind_eq_bind, Option.some_bind, Option.pure_def, Option.some.injEq,
    Prod.mk.injEq, and_true]
  funext j
  by_cases hj : j < c
  · simp [hj, List.getD_eq_getElem?_getD]
  · simp [hj]

end ContainerLemmas

section Lemmas

variable {α : Type} [LinearOrderedField α]

theorem update_cours_eq (F : Libm α) (M : BlackScholesModel α) (drift : Nat → Option α)
    (mu : Nat → α) (dt : α) (G cd : PnlVect α) (i : Nat)
    (hi : i < M.size_) (hcd : M.size_ ≤ cd.size) (hs : M.size_ ≤ M.sigma_.size)
    (hm : M.size_ ≤ M.mat_cholesky.m) (hn : M.mat_cholesky.n = G.size)
    (hd : ∀ j, j < M.size_ → drift j = some (mu j)) :
    update_cours F M drift dt G cd i
      = some { size := cd.size,
               array := Function.update cd.array i (cd.array i * growth F M mu dt G i) } := by
  have h1 : (i : Int) < (M.mat_cholesky.m : Int) := by exact_mod_cast lt_of_lt_of_le hi hm
  have h2 : (i : Int) < (cd.size : Int) := by exact_mod_cast lt_of_lt_of_le hi hcd
  have h3 : (i : Int) < (M.sigma_.size : Int) := by exact_mod_cast lt_of_lt_of_le hi hs
  simp [update_cours, pnl_mat_get_row, pnl_vect_get, pnl_vect_set, pnl_vect_scalar_prod,
    h1, h2, h3, hd i hi, growth, PnlMat.row, hn]

theorem update_range_eq (F : Libm α) (M : BlackScholesModel α) (drift : Nat → Option α)
    (mu : Nat → α) (dt : α) (G cd : PnlVect α)
    (hcd : M.size_ ≤ cd.size) (hs : M.size_ ≤ M.sigma_.size)
    (hm : M.size_ ≤ M.mat_cholesky.m) (hn : M.mat_cholesky.n = G.size)
    (hd : ∀ j, j < M.size_ → drift j = some (mu j)) (k : Nat) (hk : k ≤ M.size_) :
    (List.range k).foldlM (update_cours F M drift dt G) cd
      = some { size := cd.size,
               array := fun i => if i < k then cd.array i * growth F M mu dt G i
                                 else cd.array i } := by
  induction k with
  | zero => simp
  | succ k ih =>
    rw [List.range_succ, List.foldlM_append, ih (Nat.le_of_succ_le hk)]
    simp only [Option.bind_eq_bind, Option.some_bind, List.foldlM_cons, List.foldlM_nil]
    rw [update_cours_eq F M drift mu dt G
      ⟨cd.size, fun i => if i < k then cd.array i * growth F M mu dt G i else cd.array i⟩
      k (Nat.lt_of_succ_le hk) hcd hs hm hn hd]
    simp only [Option.some.injEq, PnlVect.mk.injEq, true_and, Option.pure_def, Option.bind_some,
      Option.some_bind]
    funext i
    by_cases h : i = k
    · subst h; simp
    · rw [Function.update_noteq h]
      by_cases h2 : i < k
      · simp [h2, Nat.lt_succ_of_lt h2]
      · have : ¬ i < k + 1 := by omega
        simp [h2, this]

theorem update_all_eq (F : Libm α) (M : BlackScholesModel α) (drift : Nat → Option α)
    (mu : Nat → α) (dt : α) (G cd : PnlVect α)
    (hcd : M.size_ ≤ cd.size) (hs : M.size_ ≤ M.sigma_.size)
    (hm : M.size_ ≤ M.mat_cholesky.m) (hn : M.mat_cholesky.n = G.size)
    (hd : ∀ j, j < M.size_ → drift j = some (mu j)) :
    update_all F M drift dt G cd
      = some { size := cd.size, array := next_cours F M mu dt G cd.array } :=
  update_range_eq F M drift mu dt G cd hcd hs hm hn hd M.size_ le_rfl

theorem growth_model_at (F : Libm α) (M : BlackScholesModel α) (rng : PnlRng α) (j : Nat)
    (mu : Nat → α) (dt : α) (G : PnlVect α) :
    next_cours F (model_at M rng j) mu dt G = next_cours F M mu dt G := by
  unfold model_at
  split <;> rfl

/-- One date of a fixed-sample loop from the spot, for either drift. -/
theorem forward_G_step (F : Libm α) (M : BlackScholesModel α) (hM : M.WellFormed)
    (drift : Nat → Option α) (mu : Nat → α)
    (hd : ∀ j, j < M.size_ → drift j = some (mu j)) (dt : α) (G : PnlVect α)
    (hG : G.size = M.size_) (st : PathState α) (date : Nat) (hdate : date < st.path.m)
    (hn : st.path.n = M.size_) (hc : st.cours_date.size = M.size_) :
    (do
      let cours_date ←
        if date ≠ 0 then update_all F M drift dt G st.cours_date else pure st.cours_date
      let path ← pnl_mat_set_row st.path cours_date date
      pure ({ cours_date := cours_date, path := path } : PathState α))
      = some (after_date (forward_update F M mu dt (fun _ => G)) st date) := by
  obtain ⟨_, h2, _, h4, h5⟩ := hM
  by_cases h0 : date = 0
  · subst h0
    have := set_row_eq st.path st.cours_date 0 hdate (by rw [hn, hc])
    simp only [Nat.cast_zero] at this
    simp [this, after_date, forward_update]
  · rw [if_pos h0, update_all_eq F M drift mu dt G st.cours_date (by omega) (by omega)
      (by omega) (by rw [h5, hG]) hd]
    simp only [Option.bind_eq_bind, Option.some_bind]
    rw [set_row_eq st.path _ date hdate (by rw [hn, hc])]
    simp [after_date, forward_update, h0]

theorem asset_G_body_eq (F : Libm α) (M : BlackScholesModel α) (hM : M.WellFormed) (T : α)
    (nbTimeSteps : Nat) (G : PnlVect α) (hG : G.size = M.size_) (st : PathState α)
    (date : Nat) (hdate : date < st.path.m) (hn : st.path.n = M.size_)
    (hc : st.cours_date.size = M.size_) :
    asset_G_body F M T nbTimeSteps G st date
      = some (after_date (forward_update F M (fun _ => M.r_) (T / nbTimeSteps) (fun _ => G))
          st date) := by
  rw [← forward_G_step F M hM (drift_r M) (fun _ => M.r_) (drift_r_eq M) (T / nbTimeSteps) G hG
    st date hdate hn hc]
  unfold asset_G_body
  by_cases h0 : date = 0
  · subst h0; simp
  · simp [h0]

theorem simul_market_G_body_eq (F : Libm α) (M : BlackScholesModel α) (hM : M.WellFormed)
    (T : α) (H : Nat) (G : PnlVect α) (hG : G.size = M.size_) (st : PathState α)
    (date : Nat) (hdate : date < st.path.m) (hn : st.path.n = M.size_)
    (hc : st.cours_date.size = M.size_) :
    simul_market_G_body F M T H G st date
      = some (after_date (forward_update F M M.trend.array (T / H) (fun _ => G)) st date) := by
  rw [← forward_G_step F M hM (drift_trend M) M.trend.array (drift_trend_eq M hM) (T / H) G hG
    st date hdate hn hc]
  rfl

theorem asset_G_spec (F : Libm α) (M : BlackScholesModel α) (hM : M.WellFormed)
    (path : PnlMat α) (T : α) (nbTimeSteps : Nat) (G : PnlVect α)
    (hm : nbTimeSteps + 1 ≤ path.m) (hn : path.n = M.size_) (hG : G.size = M.size_) :
    ∃ out, asset_G F M path T nbTimeSteps G = some (M, out) ∧
      out.m = path.m ∧ out.n = path.n ∧
      (∀ k, nbTimeSteps + 1 ≤ k → out.array k = path.array k) ∧
      (∀ k, k ≤ nbTimeSteps → out.array k
        = iter_rows (forward_update F M (fun _ => M.r_) (T / nbTimeSteps) (fun _ => G)) 0
            M.spot_.array (k + 1)) := by
  obtain ⟨out, ho, _, h1, h2, h3, h4⟩ := forward_loop_spec
    (asset_G_body F M T nbTimeSteps G) id (fun _ _ => True)
    (forward_update F M (fun _ => M.r_) (T / nbTimeSteps) (fun _ => G)) nbTimeSteps
    { cours_date := pnl_vect_clone pnl_vect_new M.spot_, path := path } trivial
    (fun date st' hd _ hc hn' hm' =>
      ⟨_, asset_G_body_eq F M hM T nbTimeSteps G hG st' date
        (by simp only [id] at hm'; omega) (by simp only [id] at hn'; rw [hn', hn])
        (by simp only [id] at hc; rw [hc]; exact hM.1), trivial, rfl⟩)
  refine ⟨out.path, ?_, h1, h2, h3, h4⟩
  simp [asset_G, ho]

theorem simul_market_G_spec (F : Libm α) (M : BlackScholesModel α) (hM : M.WellFormed)
    (path : PnlMat α) (T : α) (H : Nat) (G : PnlVect α)
    (hm : H + 1 ≤ path.m) (hn : path.n = M.size_) (hG : G.size = M.size_) :
    ∃ out, simul_market_G F M path T H G = some (M, out) ∧
      out.m = path.m ∧ out.n = path.n ∧
      (∀ k, H + 1 ≤ k → out.array k = path.array k) ∧
      (∀ k, k ≤ H → out.array k
        = iter_rows (forward_update F M M.trend.array (T / H) (fun _ => G)) 0
            M.spot_.array (k + 1)) := by
  obtain ⟨out, ho, _, h1, h2, h3, h4⟩ := forward_loop_spec
    (simul_market_G_body F M T H G) id (fun _ _ => True)
    (forward_update F M M.trend.array (T / H) (fun _ => G)) H
    { cours_date := pnl_vect_clone pnl_vect_new M.spot_, path := path } trivial
    (fun date st' hd _ hc hn' hm' =>
      ⟨_, simul_market_G_body_eq F M hM T H G hG st' date
        (by simp only [id] at hm'; omega) (by simp only [id] at hn'; rw [hn', hn])
        (by simp only [id] at hc; rw [hc]; exact hM.1), trivial, rfl⟩)
  refine ⟨out.path, ?_, h1, h2, h3, h4⟩
  simp [simul_market_G, ho]

theorem iter_forward_one (F : Libm α) (M : BlackScholesModel α) (mu : Nat → α) (dt : α)
    (Gs : Nat → PnlVect α) (v : Nat → α) :
    iter_rows (forward_update F M mu dt Gs) 0 v 1 = v := by
  simp [iter_rows, forward_update]

theorem iter_forward_succ (F : Libm α) (M : BlackScholesModel α) (mu : Nat → α) (dt : α)
    (Gs : Nat → PnlVect α) (v : Nat → α) (k : Nat) :
    iter_rows (forward_update F M mu dt Gs) 0 v (k + 2)
      = next_cours F M mu dt (Gs (k + 1)) (iter_rows (forward_update F M mu dt Gs) 0 v (k + 1)) := by
  simp [iter_rows, forward_update]

theorem update_all_model_at (F : Libm α) (M : BlackScholesModel α) (hM : M.WellFormed)
    (rng : PnlRng α) (j : Nat) (drift : Nat → Option α) (mu : Nat → α) (dt : α)
    (G cd : PnlVect α) (hc : cd.size = M.size_) (hG : G.size = M.size_)
    (hd : ∀ k, k < M.size_ → drift k = some (mu k)) :
    update_all F (model_at M rng j) drift dt G cd
      = some { size := cd.size, array := next_cours F M mu dt G cd.array } := by
  obtain ⟨_, h2, _, h4, h5⟩ := hM
  obtain ⟨e1, e2, e3, _, _⟩ := model_at_size M rng j
  rw [update_all_eq F (model_at M rng j) drift mu dt G cd (by rw [e1, hc]) (by rw [e1, e2, h2])
    (by rw [e1, e3, h4]) (by rw [e3, h5, hG]) (by rw [e1]; exact hd), growth_model_at]

/-- One draw followed by one update of all assets, from a state that has seen `j` draws. -/
theorem draw_update_eq (F : Libm α) (M : BlackScholesModel α) (hM : M.WellFormed)
    (rng : PnlRng α) (j : Nat) (drift : BlackScholesModel α → Nat → Option α) (mu : Nat → α)
    (hd : ∀ i k, k < M.size_ → drift (model_at M rng i) k = some (mu k))
    (dt : α) (cd : PnlVect α) (hc : cd.size = M.size_) :
    update_all F
        { model_at M rng j with
          G := (pnl_vect_rng_normal (model_at M rng j).size_ (rng_at M.size_ rng j)).1 }
        (drift { model_at M rng j with
          G := (pnl_vect_rng_normal (model_at M rng j).size_ (rng_at M.size_ rng j)).1 })
        dt
        ({ model_at M rng j with
          G := (pnl_vect_rng_normal (model_at M rng j).size_ (rng_at M.size_ rng j)).1 }).G cd
      = some { size := cd.size,
               array := next_cours F M mu dt (nth_draw M.size_ rng j) cd.array } := by
  obtain ⟨e1, e2, e3⟩ := rng_draw_step M rng j
  rw [e1, e3, model_at_G]
  exact update_all_model_at F M hM rng (j + 1) _ mu dt _ cd hc rfl (hd (j + 1))

theorem asset_rng_body_eq (F : Libm α) (M : BlackScholesModel α) (hM : M.WellFormed) (T : α)
    (nbTimeSteps : Nat) (rng : PnlRng α) (st : RngState α) (date : Nat)
    (hA : rng_inv M rng (date - 1) st) (hdate : date < st.path.m) (hn : st.path.n = M.size_)
    (hc : st.cours_date.size = M.size_) :
    ∃ st', asset_rng_body F T nbTimeSteps st date = some st' ∧
      rng_inv M rng (date + 1 - 1) st' ∧
      st'.toPathState = after_date (forward_update F M (fun _ => M.r_) (T / nbTimeSteps)
        (fun d => nth_draw M.size_ rng (d - 1))) st.toPathState date := by
  obtain ⟨model, rng', cd, path⟩ := st
  obtain ⟨hA1, hA2⟩ := hA
  simp only at hA1 hA2 hdate hn hc
  subst hA1 hA2
  cases date with
  | zero =>
    have := set_row_eq path cd 0 hdate (by rw [hn, hc])
    simp only [Nat.cast_zero] at this
    refine ⟨_, by simp [asset_rng_body, this]; rfl, ⟨rfl, rfl⟩, ?_⟩
    simp [RngState.toPathState, after_date, forward_update]
  | succ k =>
    simp only [Nat.add_sub_cancel] at *
    have hu := draw_update_eq F M hM rng k drift_r (fun _ => M.r_)
      (fun i _ _ => by simp [drift_r, (model_at_size M rng i).2.2.2.1]) (T / nbTimeSteps) cd hc
    have hs := set_row_eq path
      { size := cd.size, array := next_cours F M (fun _ => M.r_) (T / nbTimeSteps)
          (nth_draw M.size_ rng k) cd.array } (k + 1) hdate (by rw [hn, hc])
    obtain ⟨e1, e2, e3⟩ := rng_draw_step M rng k
    refine ⟨_, by simp only [asset_rng_body, Nat.succ_ne_zero, if_false, hu, hs,
      Option.bind_eq_bind, Option.some_bind, Option.pure_def]; rfl, ⟨?_, ?_⟩, ?_⟩
    · simp only [e1, e3]
    · simp only [e2]
    · simp [RngState.toPathState, after_date, forward_update]

theorem simul_market_rng_body_eq (F : Libm α) (M : BlackScholesModel α) (hM : M.WellFormed)
    (T : α) (H : Nat) (rng : PnlRng α) (st : RngState α) (date : Nat)
    (hA : rng_inv M rng (date - 1) st) (hdate : date < st.path.m) (hn : st.path.n = M.size_)
    (hc : st.cours_date.size = M.size_) :
    ∃ st', simul_market_rng_body F T H st date = some st' ∧
      rng_inv M rng (date + 1 - 1) st' ∧
      st'.toPathState = after_date (forward_update F M M.trend.array (T / H)
        (fun d => nth_draw M.size_ rng (d - 1))) st.toPathState date := by
  obtain ⟨model, rng', cd, path⟩ := st
  obtain ⟨hA1, hA2⟩ := hA
  simp only at hA1 hA2 hdate hn hc
  subst hA1 hA2
  cases date with
  | zero =>
    have := set_row_eq path cd 0 hdate (by rw [hn, hc])
    simp only [Nat.cast_zero] at this
    refine ⟨_, by simp [simul_market_rng_body, this]; rfl, ⟨rfl, rfl⟩, ?_⟩
    simp [RngState.toPathState, after_date, forward_update]
  | succ k =>
    simp only [Nat.add_sub_cancel] at *
    have hu := draw_update_eq F M hM rng k drift_trend M.trend.array
      (fun i j hj => by
        have := drift_trend_eq M hM j hj
        simpa [drift_trend, (model_at_size M rng i).2.2.2.2] using this) (T / H) cd hc
    have hs := set_row_eq path
      { size := cd.size, array := next_cours F M M.trend.array (T / H)
          (nth_draw M.size_ rng k) cd.array } (k + 1) hdate (by rw [hn, hc])
    obtain ⟨e1, e2, e3⟩ := rng_draw_step M rng k
    refine ⟨_, by simp only [simul_market_rng_body, ne_eq, Nat.succ_ne_zero, not_false_eq_true,
      if_true, hu, hs, Option.bind_eq_bind, Option.some_bind, Option.pure_def]; rfl,
      ⟨?_, ?_⟩, ?_⟩
    · simp only [e1, e3]
    · simp only [e2]
    · simp [RngState.toPathState, after_date, forward_update]

theorem asset_rng_spec (F : Libm α) (M : BlackScholesModel α) (hM : M.WellFormed)
    (path : PnlMat α) (T : α) (nbTimeSteps : Nat) (rng : PnlRng α)
    (hm : nbTimeSteps + 1 ≤ path.m) (hn : path.n = M.size_) :
    ∃ out, asset_rng F M path T nbTimeSteps rng = some out ∧
      rng_inv M rng nbTimeSteps out ∧
      out.path.m = path.m ∧ out.path.n = path.n ∧
      (∀ k, nbTimeSteps + 1 ≤ k → out.path.array k = path.array k) ∧
      (∀ k, k ≤ nbTimeSteps → out.path.array k
        = iter_rows (forward_update F M (fun _ => M.r_) (T / nbTimeSteps)
            (fun d => nth_draw M.size_ rng (d - 1))) 0 M.spot_.array (k + 1)) := by
  obtain ⟨out, ho, hA, h1, h2, h3, h4⟩ := forward_loop_spec
    (asset_rng_body F T nbTimeSteps) RngState.toPathState
    (fun date st => rng_inv M rng (date - 1) st)
    (forward_update F M (fun _ => M.r_) (T / nbTimeSteps)
      (fun d => nth_draw M.size_ rng (d - 1))) nbTimeSteps
    { model := M, rng := rng, cours_date := pnl_vect_clone pnl_vect_new M.spot_, path := path }
    ⟨rfl, (rng_at_zero M.size_ rng).symm⟩
    (fun date st' hd hA' hc hn' hm' =>
      asset_rng_body_eq F M hM T nbTimeSteps rng st' date hA'
        (by simp only [RngState.toPathState] at hm'; omega)
        (by simp only [RngState.toPathState] at hn'; rw [hn', hn])
        (by simp only [RngState.toPathState] at hc; rw [hc]; exact hM.1))
  exact ⟨out, ho, hA, h1, h2, h3, h4⟩

theorem simul_market_rng_spec (F : Libm α) (M : BlackScholesModel α) (hM : M.WellFormed)
    (path : PnlMat α) (T : α) (H : Nat) (rng : PnlRng α)
    (hm : H + 1 ≤ path.m) (hn : path.n = M.size_) :
    ∃ out, simul_market_rng F M path T H rng = some out ∧
      rng_inv M rng H out ∧
      out.path.m = path.m ∧ out.path.n = path.n ∧
      (∀ k, H + 1 ≤ k → out.path.array k = path.array k) ∧
      (∀ k, k ≤ H → out.path.array k
        = iter_rows (forward_update F M M.trend.array (T / H)
            (fun d => nth_draw M.size_ rng (d - 1))) 0 M.spot_.array (k + 1)) := by
  obtain ⟨out, ho, hA, h1, h2, h3, h4⟩ := forward_loop_spec
    (simul_market_rng_body F T H) RngState.toPathState
    (fun date st => rng_inv M rng (date - 1) st)
    (forward_update F M M.trend.array (T / H)
      (fun d => nth_draw M.size_ rng (d - 1))) H
    { model := M, rng := rng, cours_date := pnl_vect_clone pnl_vect_new M.spot_, path := path }
    ⟨rfl, (rng_at_zero M.size_ rng).symm⟩
    (fun date st' hd hA' hc hn' hm' =>
      simul_market_rng_body_eq F M hM T H rng st' date hA'
        (by simp only [RngState.toPathState] at hm'; omega)
        (by simp only [RngState.toPathState] at hn'; rw [hn', hn])
        (by simp only [RngState.toPathState] at hc; rw [hc]; exact hM.1))
  exact ⟨out, ho, hA, h1, h2, h3, h4⟩

theorem forward_rows_recurrence (F : Libm α) (M : BlackScholesModel α) (mu : Nat → α) (dt : α)
    (Gs : Nat → PnlVect α) (v : Nat → α) (rows : Nat → Nat → α) (N : Nat)
    (h : ∀ k, k ≤ N → rows k = iter_rows (forward_update F M mu dt Gs) 0 v (k + 1)) :
    rows 0 = v ∧
    ∀ k i, 1 ≤ k → k ≤ N → i < M.size_ →
      rows k i = rows (k - 1) i * F.exp ((mu i - M.sigma_.array i ^ 2 / 2) * dt
        + M.sigma_.array i * F.sqrt dt * dot (M.mat_cholesky.row i) (Gs k)) := by
  refine ⟨by rw [h 0 (Nat.zero_le N), iter_forward_one], ?_⟩
  intro k i hk1 hkN hi
  obtain ⟨j, rfl⟩ : ∃ j, k = j + 1 := ⟨k - 1, by omega⟩
  rw [h (j + 1) hkN, iter_forward_succ, Nat.add_sub_cancel, h j (by omega)]
  simp [next_cours, hi, growth]

end Lemmas

section PastLemmas

variable {α : Type} [LinearOrderedField α] [FloorRing α]

theorem clone_of_past_eq (cp past : PnlMat α) (t T : α) (nbTimeSteps : Nat)
    (h1 : 1 ≤ past.m) :
    ∃ clone, clone_of_past cp t T nbTimeSteps past = some clone ∧
      clone.m = clone_rows t T nbTimeSteps past ∧ clone.n = past.n ∧
      ∀ r, r < clone_rows t T nbTimeSteps past → clone.array r = past.array r := by
  unfold clone_of_past clone_rows pnl_mat_clone
  by_cases h : fmod_ne_zero t (T / nbTimeSteps) = true
  · have hi : ((past.m : Int) - 1) = ((past.m - 1 : Nat) : Int) := by omega
    have h2 : ((past.m - 1 : Nat) : Int) < (past.m : Int) := by omega
    simp only [h, if_true, pnl_mat_del_row, hi, Int.toNat_ofNat]
    rw [if_pos ⟨Int.natCast_nonneg _, h2⟩]
    refine ⟨_, rfl, rfl, rfl, ?_⟩
    intro r hr
    funext c
    simp [hr]
  · simp only [h, if_false, Bool.false_eq_true]
    exact ⟨past, rfl, rfl, rfl, fun _ _ => rfl⟩

theorem asset_G_past_body_eq (F : Libm α) (M : BlackScholesModel α) (hM : M.WellFormed)
    (t step : α) (G : PnlVect α) (hG : G.size = M.size_) (past : PnlMat α) (first : Nat)
    (st : PathState α) (date : Nat) (hdate : date < st.path.m) (hn : st.path.n = M.size_)
    (hc : st.cours_date.size = M.size_) :
    asset_G_past_body F M t step G past first st date
      = some (after_date (past_update F M t step past first (fun _ => G)) st date) := by
  obtain ⟨_, h2, _, h4, h5⟩ := hM
  have hu : ∀ dt, update_all F M (drift_r M) dt G st.cours_date
      = some { size := st.cours_date.size,
               array := next_cours F M (fun _ => M.r_) dt G st.cours_date.array } :=
    fun dt => update_all_eq F M (drift_r M) (fun _ => M.r_) dt G st.cours_date (by omega)
      (by omega) (by omega) (by rw [h5, hG]) (drift_r_eq M)
  unfold asset_G_past_body
  by_cases hb : date = first ∧ fmod_ne_zero t step = true
  · rw [if_pos hb, hu]
    simp only [Option.bind_eq_bind, Option.some_bind]
    rw [set_row_eq st.path _ date hdate (by rw [hn, hc])]
    simp [after_date, past_update, elapsed, hb]
  · rw [if_neg hb, hu]
    simp only [Option.bind_eq_bind, Option.some_bind]
    rw [set_row_eq st.path _ date hdate (by rw [hn, hc])]
    simp only [after_date, past_update, elapsed, if_neg hb]
    rfl

theorem asset_rng_past_body_eq (F : Libm α) (M : BlackScholesModel α) (hM : M.WellFormed)
    (t step : α) (rng : PnlRng α) (past : PnlMat α) (first : Nat)
    (st : RngState α) (date : Nat) (hfirst : first ≤ date)
    (hA : rng_inv M rng (date - first) st) (hdate : date < st.path.m)
    (hn : st.path.n = M.size_) (hc : st.cours_date.size = M.size_) :
    ∃ st', asset_rng_past_body F t step past first st date = some st' ∧
      rng_inv M rng (date + 1 - first) st' ∧
      st'.toPathState = after_date (past_update F M t step past first
        (fun d => nth_draw M.size_ rng (d - first))) st.toPathState date := by
  obtain ⟨model, rng', cd, path⟩ := st
  obtain ⟨hA1, hA2⟩ := hA
  simp only at hA1 hA2 hdate hn hc
  subst hA1 hA2
  have hj : date + 1 - first = (date - first) + 1 := by omega
  rw [hj]
  have hu := fun dt => draw_update_eq F M hM rng (date - first) drift_r (fun _ => M.r_)
    (fun i _ _ => by simp [drift_r, (model_at_size M rng i).2.2.2.1]) dt cd hc
  have hs := fun dt => set_row_eq path
    { size := cd.size, array := next_cours F M (fun _ => M.r_) dt
        (nth_draw M.size_ rng (date - first)) cd.array } date hdate (by rw [hn, hc])
  obtain ⟨e1, e2, e3⟩ := rng_draw_step M rng (date - first)
  by_cases hb : date = first ∧ fmod_ne_zero t step = true
  · refine ⟨_, by simp only [asset_rng_past_body, if_pos hb, hu, hs,
      Option.bind_eq_bind, Option.some_bind, Option.pure_def]; rfl, ⟨?_, ?_⟩, ?_⟩
    · simp only [e1, e3]
    · simp only [e2]
    · simp [RngState.toPathState, after_date, past_update, elapsed, hb]
  · refine ⟨_, by simp only [asset_rng_past_body, if_neg hb, hu, hs,
      Option.bind_eq_bind, Option.some_bind, Option.pure_def]; rfl, ⟨?_, ?_⟩, ?_⟩
    · simp only [e1, e3]
    · simp only [e2]
    · simp only [RngState.toPathState, after_date, past_update, elapsed, if_neg hb]

/-- The path the fixed-sample continuation returns: the rows of the clone of `past`, then
the rows the loop simulates from the last row of `past`, then zeros. -/
theorem asset_G_past_spec (F : Libm α) (M : BlackScholesModel α) (hM : M.WellFormed)
    (path : PnlMat α) (t T : α) (nbTimeSteps : Nat) (G : PnlVect α) (past : PnlMat α)
    (h1 : 1 ≤ past.m) (hpm : past.m ≤ nbTimeSteps + 1) (hpn : past.n = M.size_)
    (hm : nbTimeSteps + 1 ≤ path.m) (hn : path.n = M.size_) (hG : G.size = M.size_) :
    ∃ out, asset_G_past F M path t T nbTimeSteps G past = some (M, out) ∧
      out.m = path.m ∧ out.n = path.n ∧
      (∀ k i, k < clone_rows t T nbTimeSteps past → i < M.size_ →
        out.array k i = past.array k i) ∧
      (∀ j, clone_rows t T nbTimeSteps past + j ≤ nbTimeSteps →
        out.array (clone_rows t T nbTimeSteps past + j)
          = iter_rows (past_update F M t (T / nbTimeSteps) past
              (clone_rows t T nbTimeSteps past) (fun _ => G))
              (clone_rows t T nbTimeSteps past) (past.array (past.m - 1)) (j + 1)) ∧
      (∀ k i, nbTimeSteps + 1 ≤ k → out.array k i = 0) := by
  obtain ⟨clone, hcl, hcm, hcn, hca⟩ := clone_of_past_eq pnl_mat_new past t T nbTimeSteps h1
  have hcle : clone_rows t T nbTimeSteps past ≤ past.m := by
    unfold clone_rows; split <;> omega
  have hsb := set_subblock_origin (pnl_mat_set_all path 0) clone
    (by rw [hcm]; simp only [pnl_mat_set_all]; omega)
    (by rw [hcn, hpn]; simp only [pnl_mat_set_all]; omega)
  obtain ⟨out, ho, _, h1', h2', _, _, h5, h6, h7⟩ := path_loop_spec
    (asset_G_past_body F M t (T / nbTimeSteps) G past clone.m) id (fun _ _ => True)
    (past_update F M t (T / nbTimeSteps) past clone.m (fun _ => G))
    clone.m (nbTimeSteps + 1 - clone.m)
    { cours_date := pnl_vect_clone pnl_vect_new (past.row (past.m - 1)),
      path := { pnl_mat_set_all path 0 with array := fun r c =>
          if r < clone.m ∧ c < clone.n then clone.array r c
          else (pnl_mat_set_all path 0).array r c } } trivial
    (fun date st' hd1 hd2 _ hc hn' hm' =>
      ⟨_, asset_G_past_body_eq F M hM t (T / nbTimeSteps) G hG past clone.m st' date
        (by simp only [id, pnl_mat_set_all] at hm'; rw [hm']; omega)
        (by simp only [id, pnl_mat_set_all] at hn'; rw [hn', hn])
        (by simp only [id, pnl_vect_clone, PnlMat.row] at hc; rw [hc, hpn]), trivial, rfl⟩)
  simp only [id, pnl_mat_set_all, pnl_vect_clone, PnlMat.row] at h1' h2' h5 h6 h7
  refine ⟨out.path, ?_, h1', h2', ?_, ?_, ?_⟩
  · simp only [asset_G_past, hcl, hsb, last_row_eq past h1, Option.bind_eq_bind,
      Option.some_bind, ho, Option.pure_def]
  · intro k i hk hi
    rw [h5 k (by rw [hcm]; exact hk)]
    simp only
    rw [if_pos ⟨by rw [hcm]; exact hk, by rw [hcn, hpn]; exact hi⟩, hca k hk]
  · intro j hj
    have := h7 j (by rw [hcm]; omega)
    rw [hcm] at this
    exact this
  · intro k i hk
    rw [h6 k (by omega)]
    simp only
    rw [if_neg (by rw [hcm]; omega)]

/-- The path the generator-driven continuation returns: the rows of the clone of `past`,
then the rows the loop simulates from the last row of `past`; the other rows of the buffer
are not written. -/
theorem asset_rng_past_spec (F : Libm α) (M : BlackScholesModel α) (hM : M.WellFormed)
    (path : PnlMat α) (t T : α) (nbTimeSteps : Nat) (rng : PnlRng α) (past : PnlMat α)
    (h1 : 1 ≤ past.m) (hpm : past.m ≤ nbTimeSteps + 1) (hpn : past.n = M.size_)
    (hm : nbTimeSteps + 1 ≤ path.m) (hn : path.n = M.size_) :
    ∃ out, asset_rng_past F M path t T nbTimeSteps rng past = some out ∧
      out.path.m = path.m ∧ out.path.n = path.n ∧
      (∀ k i, k < clone_rows t T nbTimeSteps past → i < M.size_ →
        out.path.array k i = past.array k i) ∧
      (∀ j, clone_rows t T nbTimeSteps past + j ≤ nbTimeSteps →
        out.path.array (clone_rows t T nbTimeSteps past + j)
          = iter_rows (past_update F M t (T / nbTimeSteps) past
              (clone_rows t T nbTimeSteps past)
              (fun d => nth_draw M.size_ rng (d - clone_rows t T nbTimeSteps past)))
              (clone_rows t T nbTimeSteps past) (past.array (past.m - 1)) (j + 1)) ∧
      (∀ k, nbTimeSteps + 1 ≤ k → out.path.array k = path.array k) := by
  obtain ⟨clone, hcl, hcm, hcn, hca⟩ := clone_of_past_eq M.clone_past_ past t T nbTimeSteps h1
  have hcle : clone_rows t T nbTimeSteps past ≤ past.m := by
    unfold clone_rows; split <;> omega
  have hsb := set_subblock_origin path clone (by rw [hcm]; omega) (by rw [hcn, hpn]; omega)
  have hM' : ({ M with clone_past_ := clone } : BlackScholesModel α).WellFormed := hM
  obtain ⟨out, ho, _, h1', h2', _, _, h5, h6, h7⟩ := path_loop_spec
    (asset_rng_past_body F t (T / nbTimeSteps) past clone.m) RngState.toPathState
    (fun date st => clone.m ≤ date ∧
      rng_inv { M with clone_past_ := clone } rng (date - clone.m) st)
    (past_update F { M with clone_past_ := clone } t (T / nbTimeSteps) past clone.m
      (fun d => nth_draw M.size_ rng (d - clone.m)))
    clone.m (nbTimeSteps + 1 - clone.m)
    { model := { M with clone_past_ := clone }, rng := rng,
      cours_date := pnl_vect_clone pnl_vect_new (past.row (past.m - 1)),
      path := { path with array := fun r c =>
          if r < clone.m ∧ c < clone.n then clone.array r c else path.array r c } }
    ⟨le_rfl, by rw [Nat.sub_self]; exact ⟨rfl, (rng_at_zero M.size_ rng).symm⟩⟩
    (fun date st' hd1 hd2 hA' hc hn' hm' => by
      obtain ⟨st'', hb, hA'', hp⟩ := asset_rng_past_body_eq F { M with clone_past_ := clone }
        hM' t (T / nbTimeSteps) rng past clone.m st' date hA'.1 hA'.2
        (by simp only [RngState.toPathState] at hm'; rw [hm']; omega)
        (by simp only [RngState.toPathState] at hn'; rw [hn', hn])
        (by simp only [RngState.toPathState, pnl_vect_clone, PnlMat.row] at hc; rw [hc, hpn])
      exact ⟨st'', hb, ⟨by omega, hA''⟩, hp⟩)
  simp only [RngState.toPathState, pnl_vect_clone, PnlMat.row] at h1' h2' h5 h6 h7
  refine ⟨out, ?_, h1', h2', ?_, ?_, ?_⟩
  · simp only [asset_rng_past, hcl, hsb, last_row_eq past h1, Option.bind_eq_bind,
      Option.some_bind, ho]
  · intro k i hk hi
    rw [h5 k (by rw [hcm]; exact hk)]
    simp only
    rw [if_pos ⟨by rw [hcm]; exact hk, by rw [hcn, hpn]; exact hi⟩, hca k hk]
  · intro j hj
    have := h7 j (by rw [hcm]; omega)
    rw [hcm] at this
    exact this
  · intro k hk
    rw [h6 k (by omega)]
    funext c
    rw [if_neg (by rw [hcm]; omega)]

theorem past_rows_recurrence (F : Libm α) (M : BlackScholesModel α) (t step : α)
    (past : PnlMat α) (c : Nat) (Gs : Nat → PnlVect α) (last : Nat → α)
    (rows : Nat → Nat → α) (N : Nat)
    (h : ∀ j, c + j ≤ N →
      rows (c + j) = iter_rows (past_update F M t step past c Gs) c last (j + 1)) :
    (c ≤ N → ∀ i, i < M.size_ →
      rows c i = asset_step F M i (elapsed t step past c c) (Gs c) (last i)) ∧
    (∀ k i, c < k → k ≤ N → i < M.size_ →
      rows k i = asset_step F M i step (Gs k) (rows (k - 1) i)) := by
  constructor
  · intro hc i hi
    have := h 0 (by omega)
    rw [Nat.add_zero, iter_past_one] at this
    rw [this]
    simp [past_update, next_cours, hi, growth, asset_step]
  · intro k i hck hkN hi
    obtain ⟨j, rfl⟩ : ∃ j, k = c + (j + 1) := ⟨k - c - 1, by omega⟩
    rw [h (j + 1) hkN, iter_past_succ, ← h j (by omega)]
    have hne : ¬ (c + (j + 1) = c ∧ fmod_ne_zero t step = true) := fun hh => by omega
    have hk : c + (j + 1) - 1 = c + j := by omega
    simp only [past_update, next_cours, hi, if_true, growth, asset_step, elapsed, if_neg hne, hk]

theorem fmod_ne_zero_false_iff (x y : α) :
    fmod_ne_zero x y = false ↔ y ≠ 0 ∧ ∃ k : Int, x = (k : α) * y := by
  unfold fmod_ne_zero fmod
  by_cases hy : y = 0
  · simp [hy]
  · simp only [hy, if_false, ne_eq, Option.some.injEq, decide_not, Bool.not_eq_false',
      decide_eq_true_eq, not_false_eq_true, true_and]
    constructor
    · intro h
      exact ⟨toInt (x / y), by linarith⟩
    · rintro ⟨k, hk⟩
      have : x / y = (k : α) := by rw [hk]; field_simp
      rw [this]
      have ht : toInt ((k : α)) = k := by
        unfold toInt
        split <;> simp
      rw [ht, hk]; ring

theorem asset_G_past_rows (F : Libm α) (M : BlackScholesModel α) (hM : M.WellFormed)
    (path : PnlMat α) (t T : α) (nbTimeSteps : Nat) (G : PnlVect α) (past : PnlMat α)
    (h1 : 1 ≤ past.m) (hpm : past.m ≤ nbTimeSteps + 1) (hpn : past.n = M.size_)
    (hm : nbTimeSteps + 1 ≤ path.m) (hn : path.n = M.size_) (hG : G.size = M.size_) :
    ∃ out, asset_G_past F M path t T nbTimeSteps G past = some (M, out) ∧
      out.m = path.m ∧ out.n = path.n ∧
      (∀ k i, k < clone_rows t T nbTimeSteps past → i < M.size_ →
        out.array k i = past.array k i) ∧
      (clone_rows t T nbTimeSteps past ≤ nbTimeSteps → ∀ i, i < M.size_ →
        out.array (clone_rows t T nbTimeSteps past) i
          = asset_step F M i
              (elapsed t (T / nbTimeSteps) past (clone_rows t T nbTimeSteps past)
                (clone_rows t T nbTimeSteps past))
              G (past.array (past.m - 1) i)) ∧
      (∀ k i, clone_rows t T nbTimeSteps past < k → k ≤ nbTimeSteps → i < M.size_ →
        out.array k i = asset_step F M i (T / nbTimeSteps) G (out.array (k - 1) i)) := by
  obtain ⟨out, ho, h2, h3, h4, h5, _⟩ :=
    asset_G_past_spec F M hM path t T nbTimeSteps G past h1 hpm hpn hm hn hG
  obtain ⟨r0, rk⟩ := past_rows_recurrence F M t (T / nbTimeSteps) past
    (clone_rows t T nbTimeSteps past) (fun _ => G) (past.array (past.m - 1)) out.array
    nbTimeSteps h5
  exact ⟨out, ho, h2, h3, h4, r0, rk⟩

theorem asset_rng_past_rows (F : Libm α) (M : BlackScholesModel α) (hM : M.WellFormed)
    (path : PnlMat α) (t T : α) (nbTimeSteps : Nat) (rng : PnlRng α) (past : PnlMat α)
    (h1 : 1 ≤ past.m) (hpm : past.m ≤ nbTimeSteps + 1) (hpn : past.n = M.size_)
    (hm : nbTimeSteps + 1 ≤ path.m) (hn : path.n = M.size_) :
    ∃ out, asset_rng_past F M path t T nbTimeSteps rng past = some out ∧
      out.path.m = path.m ∧ out.path.n = path.n ∧
      (∀ k i, k < clone_rows t T nbTimeSteps past → i < M.size_ →
        out.path.array k i = past.array k i) ∧
      (clone_rows t T nbTimeSteps past ≤ nbTimeSteps → ∀ i, i < M.size_ →
        out.path.array (clone_rows t T nbTimeSteps past) i
          = asset_step F M i
              (elapsed t (T / nbTimeSteps) past (clone_rows t T nbTimeSteps past)
                (clone_rows t T nbTimeSteps past))
              (nth_draw M.size_ rng 0) (past.array (past.m - 1) i)) ∧
      (∀ k i, clone_rows t T nbTimeSteps past < k → k ≤ nbTimeSteps → i < M.size_ →
        out.path.array k i = asset_step F M i (T / nbTimeSteps)
          (nth_draw M.size_ rng (k - clone_rows t T nbTimeSteps past))
          (out.path.array (k - 1) i)) := by
  obtain ⟨out, ho, h2, h3, h4, h5, _⟩ :=
    asset_rng_past_spec F M hM path t T nbTimeSteps rng past h1 hpm hpn hm hn
  obtain ⟨r0, rk⟩ := past_rows_recurrence F M t (T / nbTimeSteps) past
    (clone_rows t T nbTimeSteps past)
    (fun d => nth_draw M.size_ rng (d - clone_rows t T nbTimeSteps past))
    (past.array (past.m - 1)) out.path.array nbTimeSteps h5
  refine ⟨out, ho, h2, h3, h4, ?_, rk⟩
  intro hc i hi
  have := r0 hc i hi
  rw [Nat.sub_self] at this
  exact this

theorem aligned_rows (t T : α) (nbTimeSteps : Nat) (past : PnlMat α)
    (h : fmod_ne_zero t (T / nbTimeSteps) = false) :
    clone_rows t T nbTimeSteps past = past.m ∧
    elapsed t (T / nbTimeSteps) past past.m past.m = T / nbTimeSteps := by
  simp [clone_rows, elapsed, h]

theorem unaligned_rows (t T : α) (nbTimeSteps : Nat) (past : PnlMat α)
    (h : fmod_ne_zero t (T / nbTimeSteps) = true) :
    clone_rows t T nbTimeSteps past = past.m - 1 ∧
    elapsed t (T / nbTimeSteps) past (past.m - 1) (past.m - 1)
      = (((past.m : Int) - 1 : Int) : α) * (T / nbTimeSteps) - t := by
  simp [clone_rows, elapsed, h, irregular_step]

end PastLemmas

/-! ## The claims -/

section Claims

variable {α : Type} [LinearOrderedField α]

/-- Claim C1: `asset` without past, in both overloads, writes the spot to row 0 of the path
and obtains every row `k` in `1 .. nbTimeSteps` from row `k - 1` by
`path[k][i] = path[k-1][i] * exp((r - sigma_i^2/2) * (T/steps) + sigma_i * sqrt(T/steps) *
(row i of the Cholesky factor dotted with the sample of date k))`; the sample is `G` in the
fixed-sample overload and the draw number `k` of the generator in the other. -/
theorem asset_forward_recurrence (F : Libm α) (M : BlackScholesModel α) (path : PnlMat α)
    (T : α) (nbTimeSteps : Nat) (G : PnlVect α) (rng : PnlRng α)
    (hM : M.WellFormed) (hm : nbTimeSteps + 1 ≤ path.m) (hn : path.n = M.size_)
    (hG : G.size = M.size_) :
    (∃ out, asset_G F M path T nbTimeSteps G = some (M, out) ∧
      (∀ i, i < M.size_ → out.array 0 i = M.spot_.array i) ∧
      ∀ k i, 1 ≤ k → k ≤ nbTimeSteps → i < M.size_ →
        out.array k i = out.array (k - 1) i *
          F.exp ((M.r_ - M.sigma_.array i ^ 2 / 2) * (T / nbTimeSteps)
            + M.sigma_.array i * F.sqrt (T / nbTimeSteps)
              * dot (M.mat_cholesky.row i) G)) ∧
    (∃ st, asset_rng F M path T nbTimeSteps rng = some st ∧
      (∀ i, i < M.size_ → st.path.array 0 i = M.spot_.array i) ∧
      ∀ k i, 1 ≤ k → k ≤ nbTimeSteps → i < M.size_ →
        st.path.array k i = st.path.array (k - 1) i *
          F.exp ((M.r_ - M.sigma_.array i ^ 2 / 2) * (T / nbTimeSteps)
            + M.sigma_.array i * F.sqrt (T / nbTimeSteps)
              * dot (M.mat_cholesky.row i) (nth_draw M.size_ rng (k - 1)))) := by
  constructor
  · obtain ⟨out, ho, _, _, _, h4⟩ := asset_G_spec F M hM path T nbTimeSteps G hm hn hG
    obtain ⟨r0, rk⟩ := forward_rows_recurrence F M (fun _ => M.r_) (T / nbTimeSteps)
      (fun _ => G) M.spot_.array out.array nbTimeSteps h4
    exact ⟨out, ho, fun i _ => by rw [r0], rk⟩
  · obtain ⟨st, ho, _, _, _, _, h4⟩ := asset_rng_spec F M hM path T nbTimeSteps rng hm hn
    obtain ⟨r0, rk⟩ := forward_rows_recurrence F M (fun _ => M.r_) (T / nbTimeSteps)
      (fun d => nth_draw M.size_ rng (d - 1)) M.spot_.array st.path.array nbTimeSteps h4
    exact ⟨st, ho, fun i _ => by rw [r0], rk⟩

/-- The recurrence of claim C1 on the two-asset model with two time steps. -/
theorem asset_forward_recurrence_witness :
    (exModel.WellFormed ∧ 2 + 1 ≤ exPath.m ∧ exPath.n = exModel.size_ ∧
      exG.size = exModel.size_) ∧
    ((∃ out, asset_G exLibm exModel exPath 1 2 exG = some (exModel, out) ∧
      (∀ i, i < exModel.size_ → out.array 0 i = exModel.spot_.array i) ∧
      ∀ k i, 1 ≤ k → k ≤ 2 → i < exModel.size_ →
        out.array k i = out.array (k - 1) i *
          exLibm.exp ((exModel.r_ - exModel.sigma_.array i ^ 2 / 2) * (1 / (2 : Nat))
            + exModel.sigma_.array i * exLibm.sqrt (1 / (2 : Nat))
              * dot (exModel.mat_cholesky.row i) exG)) ∧
    (∃ st, asset_rng exLibm exModel exPath 1 2 exRng = some st ∧
      (∀ i, i < exModel.size_ → st.path.array 0 i = exModel.spot_.array i) ∧
      ∀ k i, 1 ≤ k → k ≤ 2 → i < exModel.size_ →
        st.path.array k i = st.path.array (k - 1) i *
          exLibm.exp ((exModel.r_ - exModel.sigma_.array i ^ 2 / 2) * (1 / (2 : Nat))
            + exModel.sigma_.array i * exLibm.sqrt (1 / (2 : Nat))
              * dot (exModel.mat_cholesky.row i) (nth_draw exModel.size_ exRng (k - 1))))) :=
  ⟨⟨⟨rfl, rfl, rfl, rfl, rfl⟩, by decide, rfl, rfl⟩,
    asset_forward_recurrence exLibm exModel exPath 1 2 exG exRng ⟨rfl, rfl, rfl, rfl, rfl⟩
      (by decide) rfl rfl⟩

/-- Claim C7: `simul_market`, in both overloads, writes the spot to row 0 and obtains row `k`
from row `k - 1` by the recurrence of `asset` with `trend_i` in the place of `r`; and when
`trend_i = r` for every asset, `simul_market(path, T, H, G)` returns exactly what
`asset(path, T, H, G)` returns. -/
theorem simul_market_recurrence (F : Libm α) (M : BlackScholesModel α) (path : PnlMat α)
    (T : α) (H : Nat) (G : PnlVect α) (rng : PnlRng α)
    (hM : M.WellFormed) (hm : H + 1 ≤ path.m) (hn : path.n = M.size_)
    (hG : G.size = M.size_) :
    (∃ out, simul_market_G F M path T H G = some (M, out) ∧
      (∀ i, i < M.size_ → out.array 0 i = M.spot_.array i) ∧
      ∀ k i, 1 ≤ k → k ≤ H → i < M.size_ →
        out.array k i = out.array (k - 1) i *
          F.exp ((M.trend.array i - M.sigma_.array i ^ 2 / 2) * (T / H)
            + M.sigma_.array i * F.sqrt (T / H) * dot (M.mat_cholesky.row i) G)) ∧
    (∃ st, simul_market_rng F M path T H rng = some st ∧
      (∀ i, i < M.size_ → st.path.array 0 i = M.spot_.array i) ∧
      ∀ k i, 1 ≤ k → k ≤ H → i < M.size_ →
        st.path.array k i = st.path.array (k - 1) i *
          F.exp ((M.trend.array i - M.sigma_.array i ^ 2 / 2) * (T / H)
            + M.sigma_.array i * F.sqrt (T / H)
              * dot (M.mat_cholesky.row i) (nth_draw M.size_ rng (k - 1)))) ∧
    ((∀ i, i < M.size_ → M.trend.array i = M.r_) →
      ∃ out, simul_market_G F M path T H G = some (M, out) ∧
        asset_G F M path T H G = some (M, out)) := by
  obtain ⟨out, ho, h1, h2, h3, h4⟩ := simul_market_G_spec F M hM path T H G hm hn hG
  refine ⟨?_, ?_, ?_⟩
  · obtain ⟨r0, rk⟩ := forward_rows_recurrence F M M.trend.array (T / H)
      (fun _ => G) M.spot_.array out.array H h4
    exact ⟨out, ho, fun i _ => by rw [r0], rk⟩
  · obtain ⟨st, hs, _, _, _, _, h4'⟩ := simul_market_rng_spec F M hM path T H rng hm hn
    obtain ⟨r0, rk⟩ := forward_rows_recurrence F M M.trend.array (T / H)
      (fun d => nth_draw M.size_ rng (d - 1)) M.spot_.array st.path.array H h4'
    exact ⟨st, hs, fun i _ => by rw [r0], rk⟩
  · intro htrend
    obtain ⟨out', ho', h1', h2', h3', h4'⟩ := asset_G_spec F M hM path T H G hm hn hG
    have hnext : ∀ v, next_cours F M M.trend.array (T / H) G v
        = next_cours F M (fun _ => M.r_) (T / H) G v := by
      intro v
      funext i
      by_cases hi : i < M.size_
      · simp [next_cours, hi, growth, htrend i hi]
      · simp [next_cours, hi]
    have hg : forward_update F M M.trend.array (T / H) (fun _ => G)
        = forward_update F M (fun _ => M.r_) (T / H) (fun _ => G) := by
      funext date v
      simp only [forward_update, hnext]
    have harr : out.array = out'.array := by
      funext k
      by_cases hk : k ≤ H
      · rw [h4 k hk, h4' k hk, hg]
      · rw [h3 k (by omega), h3' k (by omega)]
    have : out = out' := by
      cases out; cases out'
      simp only at h1 h2 h1' h2' harr
      simp [h1, h2, h1', h2', harr]
    exact ⟨out, ho, by rw [this]; exact ho'⟩

/-- The recurrence of claim C7 on the two-asset model with two time steps. -/
theorem simul_market_recurrence_witness :
    (exModel.WellFormed ∧ 2 + 1 ≤ exPath.m ∧ exPath.n = exModel.size_ ∧
      exG.size = exModel.size_) ∧
    ∃ out, simul_market_G exLibm exModel exPath 1 2 exG = some (exModel, out) ∧
      (∀ i, i < exModel.size_ → out.array 0 i = exModel.spot_.array i) ∧
      ∀ k i, 1 ≤ k → k ≤ 2 → i < exModel.size_ →
        out.array k i = out.array (k - 1) i *
          exLibm.exp ((exModel.trend.array i - exModel.sigma_.array i ^ 2 / 2) * (1 / (2 : Nat))
            + exModel.sigma_.array i * exLibm.sqrt (1 / (2 : Nat))
              * dot (exModel.mat_cholesky.row i) exG) :=
  ⟨⟨⟨rfl, rfl, rfl, rfl, rfl⟩, by decide, rfl, rfl⟩,
    (simul_market_recurrence exLibm exModel exPath 1 2 exG exRng ⟨rfl, rfl, rfl, rfl, rfl⟩
      (by decide) rfl rfl).1⟩

/-- Claim C9: the fixed-sample `asset(path, T, nbTimeSteps, G)` returns the object as it
received it, and a second call with the same `T`, `nbTimeSteps` and `G` writes the same
rows `0 .. nbTimeSteps`, whatever the path buffer held before and whatever other calls
have stored in the members `G`, `clone_past_` and `subBlock_` in between (the only members
a method writes). -/
theorem asset_G_replay (F : Libm α) (M : BlackScholesModel α) (path path2 : PnlMat α)
    (T : α) (nbTimeSteps : Nat) (G : PnlVect α) (g : PnlVect α) (c b : PnlMat α)
    (hM : M.WellFormed) (hm : nbTimeSteps + 1 ≤ path.m) (hn : path.n = M.size_)
    (hm2 : nbTimeSteps + 1 ≤ path2.m) (hn2 : path2.n = M.size_) (hG : G.size = M.size_) :
    ∃ out out2, asset_G F M path T nbTimeSteps G = some (M, out) ∧
      asset_G F { M with G := g, clone_past_ := c, subBlock_ := b } path2 T nbTimeSteps G
        = some ({ M with G := g, clone_past_ := c, subBlock_ := b }, out2) ∧
      ∀ k, k ≤ nbTimeSteps → ∀ i, out.array k i = out2.array k i := by
  obtain ⟨out, ho, _, _, _, h4⟩ := asset_G_spec F M hM path T nbTimeSteps G hm hn hG
  obtain ⟨out2, ho2, _, _, _, h4'⟩ := asset_G_spec F
    { M with G := g, clone_past_ := c, subBlock_ := b } hM path2 T nbTimeSteps G hm2 hn2 hG
  refine ⟨out, out2, ho, ho2, ?_⟩
  intro k hk i
  rw [h4 k hk, h4' k hk]
  rfl

/-- Two calls of claim C9 on the two-asset model, with two different path buffers. -/
theorem asset_G_replay_witness :
    (exModel.WellFormed ∧ 2 + 1 ≤ exPath.m ∧ exPath.n = exModel.size_ ∧
      2 + 1 ≤ exPath2.m ∧ exPath2.n = exModel.size_ ∧ exG.size = exModel.size_) ∧
    ∃ out out2, asset_G exLibm exModel exPath 1 2 exG = some (exModel, out) ∧
      asset_G exLibm { exModel with G := exG, clone_past_ := exPath2, subBlock_ := exPath }
          exPath2 1 2 exG
        = some ({ exModel with G := exG, clone_past_ := exPath2, subBlock_ := exPath }, out2) ∧
      ∀ k, k ≤ 2 → ∀ i, out.array k i = out2.array k i :=
  ⟨⟨⟨rfl, rfl, rfl, rfl, rfl⟩, by decide, rfl, by decide, rfl, rfl⟩,
    asset_G_replay exLibm exModel exPath exPath2 1 2 exG exG exPath2 exPath
      ⟨rfl, rfl, rfl, rfl, rfl⟩ (by decide) rfl (by decide) rfl rfl⟩

/-- Claim C10, refuted as stated: on the two-asset model both overloads of `asset` called
with `nbTimeSteps = 0` return a result, not an error. -/
theorem asset_zero_steps_not_rejected :
    (asset_G exLibm exModel exPath 1 0 exG).isSome = true ∧
    (asset_rng exLibm exModel exPath 1 0 exRng).isSome = true := by
  decide

/-- Claim C10, amended: with `nbTimeSteps = 0` both overloads of `asset` without past return
normally; row 0 of the path is the spot, every other row is left as it was, the object is
unchanged and no sample is drawn. -/
theorem asset_zero_steps (F : Libm α) (M : BlackScholesModel α) (path : PnlMat α) (T : α)
    (G : PnlVect α) (rng : PnlRng α)
    (hM : M.WellFormed) (hm : 1 ≤ path.m) (hn : path.n = M.size_) :
    asset_G F M path T 0 G
      = some (M, { path with array := Function.update path.array 0 M.spot_.array }) ∧
    asset_rng F M path T 0 rng
      = some { model := M, rng := rng, cours_date := M.spot_,
               path := { path with array := Function.update path.array 0 M.spot_.array } } := by
  have h := set_row_eq path M.spot_ 0 hm (by rw [hn, hM.1])
  simp only [Nat.cast_zero] at h
  constructor
  · simp [asset_G, asset_G_body, pnl_vect_clone, h, List.range_succ]
  · simp [asset_rng, asset_rng_body, pnl_vect_clone, h, List.range_succ]

/-- The amended claim C10 on the two-asset model. -/
theorem asset_zero_steps_witness :
    (exModel.WellFormed ∧ 1 ≤ exPath.m ∧ exPath.n = exModel.size_) ∧
    asset_G exLibm exModel exPath 1 0 exG
      = some (exModel,
          { exPath with array := Function.update exPath.array 0 exModel.spot_.array }) :=
  ⟨⟨⟨rfl, rfl, rfl, rfl, rfl⟩, by decide, rfl⟩,
    (asset_zero_steps exLibm exModel exPath 1 exG exRng ⟨rfl, rfl, rfl, rfl, rfl⟩
      (by decide) rfl).1⟩

end Claims

section ContinuationClaims

variable {α : Type} [LinearOrderedField α] [FloorRing α]

/-- Claim C2: in `asset` with past (both overloads), when `fmod(t, T/steps) != 0` is false
the first simulated row, row `m = past->m`, is computed with the elapsed time `T/steps`;
when it is true the first simulated row, row `m - 1`, is computed with the elapsed time
`(m - 1) * (T/steps) - t`, in the drift term and under the square root alike; in both
cases every later row up to `steps` is computed from the row before it with `T/steps`. -/
theorem continuation_step_rule (F : Libm α) (M : BlackScholesModel α) (path : PnlMat α)
    (t T : α) (nbTimeSteps : Nat) (G : PnlVect α) (rng : PnlRng α) (past : PnlMat α)
    (hM : M.WellFormed) (h1 : 1 ≤ past.m) (hpm : past.m ≤ nbTimeSteps + 1)
    (hpn : past.n = M.size_) (hm : nbTimeSteps + 1 ≤ path.m) (hn : path.n = M.size_)
    (hG : G.size = M.size_) :
    (∃ out, asset_G_past F M path t T nbTimeSteps G past = some (M, out) ∧
      (fmod_ne_zero t (T / nbTimeSteps) = false →
        (past.m ≤ nbTimeSteps → ∀ i, i < M.size_ →
          out.array past.m i
            = asset_step F M i (T / nbTimeSteps) G (past.array (past.m - 1) i)) ∧
        (∀ k i, past.m < k → k ≤ nbTimeSteps → i < M.size_ →
          out.array k i = asset_step F M i (T / nbTimeSteps) G (out.array (k - 1) i))) ∧
      (fmod_ne_zero t (T / nbTimeSteps) = true →
        (∀ i, i < M.size_ →
          out.array (past.m - 1) i
            = asset_step F M i ((((past.m : Int) - 1 : Int) : α) * (T / nbTimeSteps) - t) G
                (past.array (past.m - 1) i)) ∧
        (∀ k i, past.m - 1 < k → k ≤ nbTimeSteps → i < M.size_ →
          out.array k i = asset_step F M i (T / nbTimeSteps) G (out.array (k - 1) i)))) ∧
    (∃ st, asset_rng_past F M path t T nbTimeSteps rng past = some st ∧
      (fmod_ne_zero t (T / nbTimeSteps) = false →
        (past.m ≤ nbTimeSteps → ∀ i, i < M.size_ →
          st.path.array past.m i
            = asset_step F M i (T / nbTimeSteps) (nth_draw M.size_ rng 0)
                (past.array (past.m - 1) i)) ∧
        (∀ k i, past.m < k → k ≤ nbTimeSteps → i < M.size_ →
          st.path.array k i = asset_step F M i (T / nbTimeSteps)
            (nth_draw M.size_ rng (k - past.m)) (st.path.array (k - 1) i))) ∧
      (fmod_ne_zero t (T / nbTimeSteps) = true →
        (∀ i, i < M.size_ →
          st.path.array (past.m - 1) i
            = asset_step F M i ((((past.m : Int) - 1 : Int) : α) * (T / nbTimeSteps) - t)
                (nth_draw M.size_ rng 0) (past.array (past.m - 1) i)) ∧
        (∀ k i, past.m - 1 < k → k ≤ nbTimeSteps → i < M.size_ →
          st.path.array k i = asset_step F M i (T / nbTimeSteps)
            (nth_draw M.size_ rng (k - (past.m - 1))) (st.path.array (k - 1) i)))) := by
  constructor
  · obtain ⟨out, ho, _, _, _, r0, rk⟩ :=
      asset_G_past_rows F M hM path t T nbTimeSteps G past h1 hpm hpn hm hn hG
    refine ⟨out, ho, ?_, ?_⟩
    · intro h
      obtain ⟨e1, e2⟩ := aligned_rows t T nbTimeSteps past h
      rw [e1] at r0 rk
      rw [e2] at r0
      exact ⟨r0, rk⟩
    · intro h
      obtain ⟨e1, e2⟩ := unaligned_rows t T nbTimeSteps past h
      rw [e1] at r0 rk
      rw [e2] at r0
      exact ⟨r0 (by omega), rk⟩
  · obtain ⟨st, ho, _, _, _, r0, rk⟩ :=
      asset_rng_past_rows F M hM path t T nbTimeSteps rng past h1 hpm hpn hm hn
    refine ⟨st, ho, ?_, ?_⟩
    · intro h
      obtain ⟨e1, e2⟩ := aligned_rows t T nbTimeSteps past h
      rw [e1] at r0 rk
      rw [e2] at r0
      exact ⟨r0, rk⟩
    · intro h
      obtain ⟨e1, e2⟩ := unaligned_rows t T nbTimeSteps past h
      rw [e1] at r0 rk
      rw [e2] at r0
      exact ⟨r0 (by omega), rk⟩

/-- The step rule of claim C2 on the two-asset model, two time steps, a past of two rows
and `t = 1/4`, which is not on the grid of step `1/2`. -/
theorem continuation_step_rule_witness :
    (exModel.WellFormed ∧ 1 ≤ exPast.m ∧ exPast.m ≤ 2 + 1 ∧ exPast.n = exModel.size_ ∧
      2 + 1 ≤ exPath.m ∧ exPath.n = exModel.size_ ∧ exG.size = exModel.size_) ∧
    ∃ out, asset_G_past exLibm exModel exPath (1 / 4) 1 2 exG exPast = some (exModel, out) ∧
      (fmod_ne_zero (1 / 4 : ℚ) (1 / (2 : Nat)) = false →
        (exPast.m ≤ 2 → ∀ i, i < exModel.size_ →
          out.array exPast.m i
            = asset_step exLibm exModel i (1 / (2 : Nat)) exG
                (exPast.array (exPast.m - 1) i)) ∧
        (∀ k i, exPast.m < k → k ≤ 2 → i < exModel.size_ →
          out.array k i
            = asset_step exLibm exModel i (1 / (2 : Nat)) exG (out.array (k - 1) i))) ∧
      (fmod_ne_zero (1 / 4 : ℚ) (1 / (2 : Nat)) = true →
        (∀ i, i < exModel.size_ →
          out.array (exPast.m - 1) i
            = asset_step exLibm exModel i
                ((((exPast.m : Int) - 1 : Int) : ℚ) * (1 / (2 : Nat)) - 1 / 4) exG
                (exPast.array (exPast.m - 1) i)) ∧
        (∀ k i, exPast.m - 1 < k → k ≤ 2 → i < exModel.size_ →
          out.array k i
            = asset_step exLibm exModel i (1 / (2 : Nat)) exG (out.array (k - 1) i))) :=
  ⟨⟨⟨rfl, rfl, rfl, rfl, rfl⟩, by decide, by decide, rfl, by decide, rfl, rfl⟩,
    (continuation_step_rule exLibm exModel exPath (1 / 4) 1 2 exG exRng exPast
      ⟨rfl, rfl, rfl, rfl, rfl⟩ (by decide) (by decide) rfl (by decide) rfl rfl).1⟩

/-- Claim C3: in `asset` with past (both overloads), for a past of `m` rows with
`1 <= m <= steps + 1`: when `fmod(t, T/steps) != 0` is false, rows `0 .. m-1` of the output
are the rows of `past` and row `m` (if `m <= steps`) is the first simulated row; when it
is true, rows `0 .. m-2` of the output are the rows of `past` and row `m - 1` is the first
simulated row, computed from the last row of `past`. -/
theorem continuation_copy_rule (F : Libm α) (M : BlackScholesModel α) (path : PnlMat α)
    (t T : α) (nbTimeSteps : Nat) (G : PnlVect α) (rng : PnlRng α) (past : PnlMat α)
    (hM : M.WellFormed) (h1 : 1 ≤ past.m) (hpm : past.m ≤ nbTimeSteps + 1)
    (hpn : past.n = M.size_) (hm : nbTimeSteps + 1 ≤ path.m) (hn : path.n = M.size_)
    (hG : G.size = M.size_) :
    (∃ out, asset_G_past F M path t T nbTimeSteps G past = some (M, out) ∧
      (fmod_ne_zero t (T / nbTimeSteps) = false →
        (∀ k i, k < past.m → i < M.size_ → out.array k i = past.array k i) ∧
        (past.m ≤ nbTimeSteps → ∀ i, i < M.size_ →
          out.array past.m i
            = asset_step F M i (T / nbTimeSteps) G (past.array (past.m - 1) i))) ∧
      (fmod_ne_zero t (T / nbTimeSteps) = true →
        (∀ k i, k < past.m - 1 → i < M.size_ → out.array k i = past.array k i) ∧
        (∀ i, i < M.size_ →
          out.array (past.m - 1) i
            = asset_step F M i ((((past.m : Int) - 1 : Int) : α) * (T / nbTimeSteps) - t) G
                (past.array (past.m - 1) i)))) ∧
    (∃ st, asset_rng_past F M path t T nbTimeSteps rng past = some st ∧
      (fmod_ne_zero t (T / nbTimeSteps) = false →
        (∀ k i, k < past.m → i < M.size_ → st.path.array k i = past.array k i) ∧
        (past.m ≤ nbTimeSteps → ∀ i, i < M.size_ →
          st.path.array past.m i
            = asset_step F M i (T / nbTimeSteps) (nth_draw M.size_ rng 0)
                (past.array (past.m - 1) i))) ∧
      (fmod_ne_zero t (T / nbTimeSteps) = true →
        (∀ k i, k < past.m - 1 → i < M.size_ → st.path.array k i = past.array k i) ∧
        (∀ i, i < M.size_ →
          st.path.array (past.m - 1) i
            = asset_step F M i ((((past.m : Int) - 1 : Int) : α) * (T / nbTimeSteps) - t)
                (nth_draw M.size_ rng 0) (past.array (past.m - 1) i)))) := by
  constructor
  · obtain ⟨out, ho, _, _, hcopy, r0, _⟩ :=
      asset_G_past_rows F M hM path t T nbTimeSteps G past h1 hpm hpn hm hn hG
    refine ⟨out, ho, ?_, ?_⟩
    · intro h
      obtain ⟨e1, e2⟩ := aligned_rows t T nbTimeSteps past h
      rw [e1] at r0 hcopy
      rw [e2] at r0
      exact ⟨hcopy, r0⟩
    · intro h
      obtain ⟨e1, e2⟩ := unaligned_rows t T nbTimeSteps past h
      rw [e1] at r0 hcopy
      rw [e2] at r0
      exact ⟨hcopy, r0 (by omega)⟩
  · obtain ⟨st, ho, _, _, hcopy, r0, _⟩ :=
      asset_rng_past_rows F M hM path t T nbTimeSteps rng past h1 hpm hpn hm hn
    refine ⟨st, ho, ?_, ?_⟩
    · intro h
      obtain ⟨e1, e2⟩ := aligned_rows t T nbTimeSteps past h
      rw [e1] at r0 hcopy
      rw [e2] at r0
      exact ⟨hcopy, r0⟩
    · intro h
      obtain ⟨e1, e2⟩ := unaligned_rows t T nbTimeSteps past h
      rw [e1] at r0 hcopy
      rw [e2] at r0
      exact ⟨hcopy, r0 (by omega)⟩

/-- The copy rule of claim C3 on the two-asset model, two time steps, a past of two rows
and `t = 1/2`, which is on the grid of step `1/2`. -/
theorem continuation_copy_rule_witness :
    (exModel.WellFormed ∧ 1 ≤ exPast.m ∧ exPast.m ≤ 2 + 1 ∧ exPast.n = exModel.size_ ∧
      2 + 1 ≤ exPath.m ∧ exPath.n = exModel.size_ ∧ exG.size = exModel.size_) ∧
    ∃ out, asset_G_past exLibm exModel exPath (1 / 2) 1 2 exG exPast = some (exModel, out) ∧
      (fmod_ne_zero (1 / 2 : ℚ) (1 / (2 : Nat)) = false →
        (∀ k i, k < exPast.m → i < exModel.size_ → out.array k i = exPast.array k i) ∧
        (exPast.m ≤ 2 → ∀ i, i < exModel.size_ →
          out.array exPast.m i
            = asset_step exLibm exModel i (1 / (2 : Nat)) exG
                (exPast.array (exPast.m - 1) i))) ∧
      (fmod_ne_zero (1 / 2 : ℚ) (1 / (2 : Nat)) = true →
        (∀ k i, k < exPast.m - 1 → i < exModel.size_ → out.array k i = exPast.array k i) ∧
        (∀ i, i < exModel.size_ →
          out.array (exPast.m - 1) i
            = asset_step exLibm exModel i
                ((((exPast.m : Int) - 1 : Int) : ℚ) * (1 / (2 : Nat)) - 1 / 2) exG
                (exPast.array (exPast.m - 1) i))) :=
  ⟨⟨⟨rfl, rfl, rfl, rfl, rfl⟩, by decide, by decide, rfl, by decide, rfl, rfl⟩,
    (continuation_copy_rule exLibm exModel exPath (1 / 2) 1 2 exG exRng exPast
      ⟨rfl, rfl, rfl, rfl, rfl⟩ (by decide) (by decide) rfl (by decide) rfl rfl).1⟩

end ContinuationClaims

section ShiftLemmas

variable {α : Type} [LinearOrderedField α] [FloorRing α]

theorem toInt_intCast (z : Int) : toInt ((z : α)) = z := by
  unfold toInt
  split <;> simp

/-- The value of `shiftAsset` for a valid column and a shift index inside the path. -/
theorem shiftAsset_spec (M : BlackScholesModel α) (shift_path path : PnlMat α) (d : Int)
    (h t timestep : α) (hd0 : 0 ≤ d) (hd : d < path.n)
    (hi0 : 0 ≤ shift_index t timestep) (hi : shift_index t timestep ≤ (path.m : Int) - 1) :
    ∃ res, shiftAsset M shift_path path d h t timestep = some res ∧
      res.path = path ∧ res.shift_path.m = path.m ∧ res.shift_path.n = path.n ∧
      ∀ k j, res.shift_path.array k j
        = if (shift_index t timestep).toNat ≤ k ∧ k < path.m ∧ j = d.toNat
          then path.array k j * (1 + h) else path.array k j := by
  obtain ⟨ind, hind⟩ : ∃ ind : Nat, shift_index t timestep = (ind : Int) :=
    ⟨(shift_index t timestep).toNat, (Int.toNat_of_nonneg hi0).symm⟩
  obtain ⟨col, hcol⟩ : ∃ col : Nat, d = (col : Int) := ⟨d.toNat, (Int.toNat_of_nonneg hd0).symm⟩
  rw [hind] at hi ⊢
  subst hcol
  have hlen : ((path.m : Int) - (ind : Int)) = ((path.m - ind : Nat) : Int) := by omega
  have hcoln : col < path.n := by exact_mod_cast hd
  have hindm : ind < path.m := by omega
  have e1 : pnl_mat_extract_subblock path (ind : Int) ((path.m : Int) - (ind : Int)) (col : Int) 1
      = some { m := path.m - ind, n := 1,
               array := fun r c => path.array (ind + r) (col + c) } := by
    rw [hlen]
    unfold pnl_mat_extract_subblock
    rw [if_pos ⟨by omega, by omega, by omega, by omega, by omega, by omega⟩]
    simp
  have e2 : pnl_mat_set_subblock (pnl_mat_clone (pnl_mat_resize shift_path path.m path.n) path)
          { m := path.m - ind, n := 1,
            array := fun i j => path.array (ind + i) (col + j) * (1 + h) }
          (ind : Int) (col : Int)
        = some { path with array := fun r c =>
            if ind ≤ r ∧ r < ind + (path.m - ind) ∧ col ≤ c ∧ c < col + 1
            then path.array (ind + (r - ind)) (col + (c - col)) * (1 + h)
            else path.array r c } := by
    unfold pnl_mat_set_subblock pnl_mat_clone
    rw [if_pos ⟨by omega, by omega, by simp only; omega, by simp only; omega⟩]
    simp
  refine ⟨_, by simp only [shiftAsset, hind, e1, Option.bind_eq_bind, Option.some_bind,
    e2, pnl_mat_mult_scalar, Option.pure_def]; rfl, rfl, rfl, rfl, ?_⟩
  intro k j
  simp only [Int.toNat_ofNat]
  by_cases hc : ind ≤ k ∧ k < path.m ∧ j = col
  · obtain ⟨hc1, hc2, rfl⟩ := hc
    have hk : ind + (k - ind) = k := by omega
    rw [if_pos ⟨hc1, by omega, le_rfl, by omega⟩, if_pos ⟨hc1, hc2, rfl⟩, hk, Nat.sub_self,
      Nat.add_zero]
  · rw [if_neg hc, if_neg (fun hh => hc ⟨hh.1, by omega, by omega⟩)]

theorem fmod_ne_zero_false_of_pos (t timestep : α) (hpos : 0 < timestep) :
    fmod_ne_zero t timestep = false ↔ ∃ k : Int, t = (k : α) * timestep := by
  rw [fmod_ne_zero_false_iff]
  exact ⟨fun h => h.2, fun h => ⟨ne_of_gt hpos, h⟩⟩

theorem shift_index_eq_ceil (t timestep : α) (hpos : 0 < timestep) :
    shift_index t timestep = ⌈t / timestep⌉ := by
  unfold shift_index
  by_cases h : fmod_ne_zero t timestep = true
  · rw [if_pos h]
    have hcast : ((⌊t / timestep⌋ : Int) : α) + 1 = (((⌊t / timestep⌋ + 1 : Int)) : α) := by
      push_cast; rfl
    rw [hcast, toInt_intCast]
    have hne : ∀ k : Int, t / timestep ≠ (k : α) := by
      intro k hk
      have hfalse : fmod_ne_zero t timestep = false :=
        (fmod_ne_zero_false_of_pos t timestep hpos).mpr
          ⟨k, by rw [← hk]; field_simp⟩
      rw [h] at hfalse
      exact Bool.noConfusion hfalse
    symm
    rw [Int.ceil_eq_iff]
    constructor
    · have := lt_of_le_of_ne (Int.floor_le (t / timestep)) (fun hh => hne _ hh.symm)
      push_cast
      linarith
    · push_cast
      exact le_of_lt (Int.lt_floor_add_one (t / timestep))
  · have hfalse : fmod_ne_zero t timestep = false := by
      cases hb : fmod_ne_zero t timestep
      · rfl
      · exact absurd hb h
    obtain ⟨k, hk⟩ := (fmod_ne_zero_false_of_pos t timestep hpos).mp hfalse
    have hq : t / timestep = (k : α) := by rw [hk]; field_simp
    rw [if_neg h, hq, toInt_intCast, Int.ceil_intCast]

theorem exShift_index : shift_index (1 / 4 : ℚ) (1 / 2) = 1 := by
  rw [shift_index_eq_ceil _ _ (by norm_num), Int.ceil_eq_iff]
  norm_num

end ShiftLemmas

section ShiftClaims

variable {α : Type} [LinearOrderedField α] [FloorRing α]

/-- Claim C4: for a column `d` in `[0, n)` and a shift index `ind_t` with
`0 <= ind_t <= M - 1`, `shiftAsset` returns a matrix with the dimensions of `path` whose
entry `(k, d)` is `path[k][d] * (1 + h)` for every row `k >= ind_t` and whose every other
entry is the entry of `path`; the argument `path` is returned as it was received. -/
theorem shiftAsset_frame (M : BlackScholesModel α) (shift_path path : PnlMat α) (d : Int)
    (h t timestep : α) (hd0 : 0 ≤ d) (hd : d < path.n)
    (hi0 : 0 ≤ shift_index t timestep) (hi : shift_index t timestep ≤ (path.m : Int) - 1) :
    ∃ res, shiftAsset M shift_path path d h t timestep = some res ∧
      res.shift_path.m = path.m ∧ res.shift_path.n = path.n ∧
      (∀ k, k < path.m → shift_index t timestep ≤ (k : Int) →
        res.shift_path.array k d.toNat = path.array k d.toNat * (1 + h)) ∧
      (∀ k, k < path.m → (k : Int) < shift_index t timestep →
        res.shift_path.array k d.toNat = path.array k d.toNat) ∧
      (∀ k j, k < path.m → j < path.n → (j : Int) ≠ d →
        res.shift_path.array k j = path.array k j) ∧
      res.path = path := by
  obtain ⟨res, hr, hp, hm, hn, ha⟩ := shiftAsset_spec M shift_path path d h t timestep hd0 hd hi0 hi
  refine ⟨res, hr, hm, hn, ?_, ?_, ?_, hp⟩
  · intro k hk hik
    rw [ha, if_pos ⟨by omega, hk, rfl⟩]
  · intro k hk hik
    rw [ha, if_neg (fun hh => by omega)]
  · intro k j hk hj hjd
    rw [ha, if_neg (fun hh => hjd (by omega))]

/-- The frame of claim C4 on a path of two rows, column 1, `t = 1/4` and `timestep = 1/2`,
for which the shift index is 1. -/
theorem shiftAsset_frame_witness :
    ((0 : Int) ≤ 1 ∧ (1 : Int) < exPast.n ∧ 0 ≤ shift_index (1 / 4 : ℚ) (1 / 2) ∧
      shift_index (1 / 4 : ℚ) (1 / 2) ≤ (exPast.m : Int) - 1) ∧
    ∃ res, shiftAsset exModel exPath exPast 1 (1 / 10) (1 / 4) (1 / 2) = some res ∧
      res.shift_path.m = exPast.m ∧ res.shift_path.n = exPast.n ∧
      (∀ k, k < exPast.m → shift_index (1 / 4 : ℚ) (1 / 2) ≤ (k : Int) →
        res.shift_path.array k (1 : Int).toNat
          = exPast.array k (1 : Int).toNat * (1 + 1 / 10)) ∧
      (∀ k, k < exPast.m → (k : Int) < shift_index (1 / 4 : ℚ) (1 / 2) →
        res.shift_path.array k (1 : Int).toNat = exPast.array k (1 : Int).toNat) ∧
      (∀ k j, k < exPast.m → j < exPast.n → (j : Int) ≠ 1 →
        res.shift_path.array k j = exPast.array k j) ∧
      res.path = exPast :=
  ⟨⟨by decide, by decide, by rw [exShift_index]; decide, by rw [exShift_index]; decide⟩,
    shiftAsset_frame exModel exPath exPast 1 (1 / 10) (1 / 4) (1 / 2) (by decide) (by decide)
      (by rw [exShift_index]; decide) (by rw [exShift_index]; decide)⟩

/-- In exact arithmetic: for `timestep > 0` the index `shift_index` is
`ceil(t / timestep)` when `t` is not a multiple of `timestep` and `t / timestep` when it
is (the case the test `fmod(t, timestep) != 0` rejects); in both cases it is the least
integer `k` with `k * timestep >= t`.  The rounded quotient of the machine can differ, see
`shift_index_binary64`. -/
theorem shift_index_first_grid_point (t timestep : α) (hpos : 0 < timestep) :
    (fmod_ne_zero t timestep = false ↔ ∃ k : Int, t = (k : α) * timestep) ∧
    ((¬ ∃ k : Int, t = (k : α) * timestep) → shift_index t timestep = ⌈t / timestep⌉) ∧
    ((∃ k : Int, t = (k : α) * timestep) → ((shift_index t timestep : Int) : α) = t / timestep) ∧
    t ≤ ((shift_index t timestep : Int) : α) * timestep ∧
    ∀ k : Int, t ≤ (k : α) * timestep → shift_index t timestep ≤ k := by
  have hc := shift_index_eq_ceil t timestep hpos
  refine ⟨fmod_ne_zero_false_of_pos t timestep hpos, fun _ => hc, ?_, ?_, ?_⟩
  · rintro ⟨k, hk⟩
    have hq : t / timestep = (k : α) := by rw [hk]; field_simp
    rw [hc, hq, Int.ceil_intCast]
  · rw [hc]
    have := Int.le_ceil (t / timestep)
    calc t = t / timestep * timestep := by field_simp
      _ ≤ ((⌈t / timestep⌉ : Int) : α) * timestep :=
        mul_le_mul_of_nonneg_right this (le_of_lt hpos)
  · intro k hk
    rw [hc, Int.ceil_le]
    rw [div_le_iff₀ hpos]
    exact hk

/-- The exact index for `t = 3/4` and `timestep = 1/2`. -/
theorem shift_index_first_grid_point_witness :
    (0 : ℚ) < 1 / 2 ∧
    ((fmod_ne_zero (3 / 4 : ℚ) (1 / 2) = false ↔ ∃ k : Int, (3 / 4 : ℚ) = (k : ℚ) * (1 / 2)) ∧
    ((¬ ∃ k : Int, (3 / 4 : ℚ) = (k : ℚ) * (1 / 2)) →
      shift_index (3 / 4 : ℚ) (1 / 2) = ⌈(3 / 4 : ℚ) / (1 / 2)⌉) ∧
    ((∃ k : Int, (3 / 4 : ℚ) = (k : ℚ) * (1 / 2)) →
      ((shift_index (3 / 4 : ℚ) (1 / 2) : Int) : ℚ) = (3 / 4) / (1 / 2)) ∧
    (3 / 4 : ℚ) ≤ ((shift_index (3 / 4 : ℚ) (1 / 2) : Int) : ℚ) * (1 / 2) ∧
    ∀ k : Int, (3 / 4 : ℚ) ≤ (k : ℚ) * (1 / 2) → shift_index (3 / 4 : ℚ) (1 / 2) ≤ k) :=
  ⟨by norm_num, shift_index_first_grid_point (3 / 4 : ℚ) (1 / 2) (by norm_num)⟩

/-- Claim C6: with `h = 0`, for a valid column and a shift index inside the path,
`shiftAsset` returns `path` itself as the shifted path: same dimensions, same entries. -/
theorem shiftAsset_zero_bump (M : BlackScholesModel α) (shift_path path : PnlMat α) (d : Int)
    (t timestep : α) (hd0 : 0 ≤ d) (hd : d < path.n)
    (hi0 : 0 ≤ shift_index t timestep) (hi : shift_index t timestep ≤ (path.m : Int) - 1) :
    ∃ res, shiftAsset M shift_path path d 0 t timestep = some res ∧
      res.shift_path.m = path.m ∧ res.shift_path.n = path.n ∧
      (∀ k j, res.shift_path.array k j = path.array k j) ∧
      res.shift_path = path := by
  obtain ⟨res, hr, _, hm, hn, ha⟩ :=
    shiftAsset_spec M shift_path path d 0 t timestep hd0 hd hi0 hi
  have harr : ∀ k j, res.shift_path.array k j = path.array k j := by
    intro k j
    rw [ha]
    split <;> simp
  refine ⟨res, hr, hm, hn, harr, ?_⟩
  obtain ⟨model, sp, p⟩ := res
  obtain ⟨m, n, arr⟩ := sp
  obtain ⟨m', n', arr'⟩ := path
  simp only at hm hn harr
  subst hm hn
  have : arr = arr' := by funext k j; exact harr k j
  rw [this]

/-- The identity of claim C6 on a path of two rows, column 1, `t = 1/4`, `timestep = 1/2`. -/
theorem shiftAsset_zero_bump_witness :
    ((0 : Int) ≤ 1 ∧ (1 : Int) < exPast.n ∧ 0 ≤ shift_index (1 / 4 : ℚ) (1 / 2) ∧
      shift_index (1 / 4 : ℚ) (1 / 2) ≤ (exPast.m : Int) - 1) ∧
    ∃ res, shiftAsset exModel exPath exPast 1 0 (1 / 4) (1 / 2) = some res ∧
      res.shift_path.m = exPast.m ∧ res.shift_path.n = exPast.n ∧
      (∀ k j, res.shift_path.array k j = exPast.array k j) ∧
      res.shift_path = exPast :=
  ⟨⟨by decide, by decide, by rw [exShift_index]; decide, by rw [exShift_index]; decide⟩,
    shiftAsset_zero_bump exModel exPath exPast 1 (1 / 4) (1 / 2) (by decide) (by decide)
      (by rw [exShift_index]; decide) (by rw [exShift_index]; decide)⟩

end ShiftClaims

section MessageLemmas

variable {α : Type} [LinearOrderedField α]

theorem worker_on_layout (chol : PnlMat α → Option (PnlMat α)) (n : Nat) (rho : α)
    (sigma trend spot : Nat → α) (r : α) (unused : List (MpiItem α)) (L : PnlMat α)
    (hL : cholesky_of_rho chol n rho = some L) :
    BlackScholesModel.worker chol (startup_layout n rho sigma trend spot r unused)
      = some { size_ := n, r_ := r, rho_ := rho,
               sigma_ := { size := n, array := fun j => if j < n then sigma j else 0 },
               spot_ := { size := n, array := fun j => if j < n then spot j else 0 },
               trend := { size := n, array := fun j => if j < n then trend j else 0 },
               mat_cholesky := L, G := pnl_vect_new, clone_past_ := pnl_mat_new,
               subBlock_ := pnl_mat_new } := by
  have hitem : ∀ x : α, [MpiItem.double x] = double_items (fun _ => x) 1 := by
    intro x; simp [double_items, List.range_succ]
  have hlen : ∀ (a : Nat → α) (c : Nat), (double_items a c).length = c := by
    intro a c; simp [double_items]
  have h0 : (startup_layout n rho sigma trend spot r unused)[0]? = some (MpiItem.int (n : Int)) := by
    simp [startup_layout]
  have u1 : MPI_Unpack_double (startup_layout n rho sigma trend spot r unused) 1 (fun _ => 0) 1
      = some (fun j => if j < 1 then rho else 0, 1 + 1) := by
    have h := unpack_double_append [MpiItem.int (n : Int)]
      (double_items sigma n ++ double_items trend n ++ double_items spot n
        ++ [MpiItem.double r] ++ unused) (fun _ => rho) (fun _ => 0) 1
    rw [← hitem] at h
    have e : startup_layout n rho sigma trend spot r unused
        = [MpiItem.int (n : Int)] ++ [MpiItem.double rho] ++ (double_items sigma n
          ++ double_items trend n ++ double_items spot n ++ [MpiItem.double r] ++ unused) := by
      simp [startup_layout, List.append_assoc]
    rw [e]; exact h
  have u2 : MPI_Unpack_double (startup_layout n rho sigma trend spot r unused) (1 + 1)
      (fun _ => 0) n = some (fun j => if j < n then sigma j else 0, 1 + 1 + n) := by
    have h := unpack_double_append ([MpiItem.int (n : Int)] ++ [MpiItem.double rho])
      (double_items trend n ++ double_items spot n ++ [MpiItem.double r] ++ unused)
      sigma (fun _ => 0) n
    have e : startup_layout n rho sigma trend spot r unused
        = [MpiItem.int (n : Int)] ++ [MpiItem.double rho] ++ double_items sigma n
          ++ (double_items trend n ++ double_items spot n ++ [MpiItem.double r] ++ unused) := by
      simp [startup_layout, List.append_assoc]
    rw [e]; exact h
  have u3 : MPI_Unpack_double (startup_layout n rho sigma trend spot r unused) (1 + 1 + n)
      (fun _ => 0) n = some (fun j => if j < n then trend j else 0, 1 + 1 + n + n) := by
    have h := unpack_double_append
      ([MpiItem.int (n : Int)] ++ [MpiItem.double rho] ++ double_items sigma n)
      (double_items spot n ++ [MpiItem.double r] ++ unused) trend (fun _ => 0) n
    have e : startup_layout n rho sigma trend spot r unused
        = [MpiItem.int (n : Int)] ++ [MpiItem.double rho] ++ double_items sigma n
          ++ double_items trend n ++ (double_items spot n ++ [MpiItem.double r] ++ unused) := by
      simp [startup_layout, List.append_assoc]
    have l : ([MpiItem.int (n : Int)] ++ [MpiItem.double rho] ++ double_items sigma n).length
        = 1 + 1 + n := by simp [hlen]; omega
    rw [l] at h
    rw [e]; exact h
  have u4 : MPI_Unpack_double (startup_layout n rho sigma trend spot r unused) (1 + 1 + n + n)
      (fun _ => 0) n = some (fun j => if j < n then spot j else 0, 1 + 1 + n + n + n) := by
    have h := unpack_double_append
      ([MpiItem.int (n : Int)] ++ [MpiItem.double rho] ++ double_items sigma n
        ++ double_items trend n)
      ([MpiItem.double r] ++ unused) spot (fun _ => 0) n
    have e : startup_layout n rho sigma trend spot r unused
        = [MpiItem.int (n : Int)] ++ [MpiItem.double rho] ++ double_items sigma n
          ++ double_items trend n ++ double_items spot n ++ ([MpiItem.double r] ++ unused) := by
      simp [startup_layout, List.append_assoc]
    have l : ([MpiItem.int (n : Int)] ++ [MpiItem.double rho] ++ double_items sigma n
        ++ double_items trend n).length = 1 + 1 + n + n := by simp [hlen]; omega
    rw [l] at h
    rw [e]; exact h
  have u5 : MPI_Unpack_double (startup_layout n rho sigma trend spot r unused)
      (1 + 1 + n + n + n) (fun _ => 0) 1
      = some (fun j => if j < 1 then r else 0, 1 + 1 + n + n + n + 1) := by
    have h := unpack_double_append
      ([MpiItem.int (n : Int)] ++ [MpiItem.double rho] ++ double_items sigma n
        ++ double_items trend n ++ double_items spot n)
      unused (fun _ => r) (fun _ => 0) 1
    rw [← hitem] at h
    have l : ([MpiItem.int (n : Int)] ++ [MpiItem.double rho] ++ double_items sigma n
        ++ double_items trend n ++ double_items spot n).length = 1 + 1 + n + n + n := by
      simp [hlen]; omega
    rw [l] at h
    exact h
  have hneg : ¬ ((n : Int) < 0) := by omega
  unfold BlackScholesModel.worker
  simp only [MPI_Unpack_int, h0, Option.bind_eq_bind, Option.some_bind, Nat.zero_add,
    hneg, if_false, Option.pure_def, Int.toNat_ofNat, pnl_vect_create, u1, u2, u3, u4, u5,
    Nat.lt_one_iff, if_true, hL]

theorem master_eq (chol : PnlMat α → Option (PnlMat α)) (P : Param α) (size : Nat)
    (unused : List (MpiItem α)) (L : PnlMat α)
    (hL : cholesky_of_rho chol P.option_size P.correlation = some L)
    (hv : P.volatility.size = P.option_size) (ht : P.trend.size = P.option_size)
    (hs : P.spot.size = P.option_size) :
    BlackScholesModel.master chol P size unused
      = some ({ size_ := P.option_size, r_ := P.interest_rate, rho_ := P.correlation,
                sigma_ := P.volatility, spot_ := P.spot, trend := P.trend,
                mat_cholesky := L, G := pnl_vect_new, clone_past_ := pnl_mat_new,
                subBlock_ := pnl_mat_new },
              (List.range' 1 (size - 1)).map (fun i =>
                (i, startup_layout P.option_size P.correlation P.volatility.array
                  P.trend.array P.spot.array P.interest_rate unused))) := by
  have hitem : ∀ x : α, double_items (fun _ => x) 1 = [MpiItem.double x] := by
    intro x; simp [double_items, List.range_succ]
  simp only [BlackScholesModel.master, MPI_Pack_int, MPI_Pack_double, hL, hv, ht, hs, hitem,
    Option.bind_eq_bind, Option.some_bind, Option.pure_def, List.nil_append, startup_layout]

end MessageLemmas

section MessageClaims

variable {α : Type} [LinearOrderedField α]

/-- Claim C8: when the three vectors of the parameter set have `n = option size` entries,
every message the master constructor sends is the asset count, the correlation, the
volatilities, the trends, the spots and the rate in this order, and the worker constructor
run on it obtains `size_`, `rho_`, `sigma_`, `trend`, `spot_` and `r_` equal to the
master's, the three vectors having the size it read first. -/
theorem startup_payload_round_trip (chol : PnlMat α → Option (PnlMat α)) (P : Param α)
    (size : Nat) (unused : List (MpiItem α)) (master : BlackScholesModel α)
    (sent : List (Nat × List (MpiItem α)))
    (hv : P.volatility.size = P.option_size) (ht : P.trend.size = P.option_size)
    (hs : P.spot.size = P.option_size)
    (hmaster : BlackScholesModel.master chol P size unused = some (master, sent)) :
    master.size_ = P.option_size ∧ master.rho_ = P.correlation ∧
    master.sigma_ = P.volatility ∧ master.trend = P.trend ∧ master.spot_ = P.spot ∧
    master.r_ = P.interest_rate ∧
    (sent.map (fun msg => msg.1) = List.range' 1 (size - 1)) ∧
    ∀ dest buf, (dest, buf) ∈ sent →
      buf = startup_layout master.size_ master.rho_ master.sigma_.array master.trend.array
        master.spot_.array master.r_ unused ∧
      ∃ worker, BlackScholesModel.worker chol buf = some worker ∧
        worker.size_ = master.size_ ∧ worker.rho_ = master.rho_ ∧ worker.r_ = master.r_ ∧
        worker.sigma_.size = worker.size_ ∧ worker.trend.size = worker.size_ ∧
        worker.spot_.size = worker.size_ ∧
        (∀ i, i < master.size_ →
          worker.sigma_.array i = master.sigma_.array i ∧
          worker.trend.array i = master.trend.array i ∧
          worker.spot_.array i = master.spot_.array i) ∧
        worker.mat_cholesky = master.mat_cholesky := by
  obtain ⟨L, hL⟩ : ∃ L, cholesky_of_rho chol P.option_size P.correlation = some L := by
    cases hc : cholesky_of_rho chol P.option_size P.correlation with
    | none => simp [BlackScholesModel.master, hc] at hmaster
    | some L => exact ⟨L, rfl⟩
  rw [master_eq chol P size unused L hL hv ht hs] at hmaster
  simp only [Option.some.injEq, Prod.mk.injEq] at hmaster
  obtain ⟨rfl, rfl⟩ := hmaster
  refine ⟨rfl, rfl, rfl, rfl, rfl, rfl, ?_, ?_⟩
  · simp [List.map_map, Function.comp_def]
  · intro dest buf hmem
    simp only [List.mem_map, Prod.mk.injEq] at hmem
    obtain ⟨_, _, _, rfl⟩ := hmem
    refine ⟨rfl, _, worker_on_layout chol _ _ _ _ _ _ unused L hL, rfl, rfl, rfl, rfl, rfl, rfl,
      ?_, rfl⟩
    intro i hi
    simp only at hi
    simp [hi]

/-- The round trip of claim C8 for the parameters of the two-asset model and three
processes. -/
theorem startup_payload_round_trip_witness :
    (exParam.volatility.size = exParam.option_size ∧ exParam.trend.size = exParam.option_size ∧
      exParam.spot.size = exParam.option_size) ∧
    ∃ master sent, BlackScholesModel.master exChol exParam 3 [] = some (master, sent) ∧
      sent.map (fun msg => msg.1) = List.range' 1 (3 - 1) ∧
      ∀ dest buf, (dest, buf) ∈ sent →
        buf = startup_layout master.size_ master.rho_ master.sigma_.array master.trend.array
          master.spot_.array master.r_ [] ∧
        ∃ worker, BlackScholesModel.worker exChol buf = some worker ∧
          worker.size_ = master.size_ ∧ worker.rho_ = master.rho_ ∧ worker.r_ = master.r_ ∧
          worker.sigma_.size = worker.size_ ∧ worker.trend.size = worker.size_ ∧
          worker.spot_.size = worker.size_ ∧
          (∀ i, i < master.size_ →
            worker.sigma_.array i = master.sigma_.array i ∧
            worker.trend.array i = master.trend.array i ∧
            worker.spot_.array i = master.spot_.array i) ∧
          worker.mat_cholesky = master.mat_cholesky :=
  ⟨⟨rfl, rfl, rfl⟩, _, _, rfl,
    (startup_payload_round_trip exChol exParam 3 [] _ _ rfl rfl rfl rfl).2.2.2.2.2.2⟩

end MessageClaims

section PartitionClaims

theorem sum_trial_share (nbSamples W : Nat) :
    ∀ k, k ≤ W → ((List.range (k + 1)).map (trial_share nbSamples W)).sum
      = (k + 1) * (nbSamples / W) + nbSamples % W := by
  intro k
  induction k with
  | zero => intro _; simp [trial_share, List.range_succ]
  | succ k ih =>
    intro hk
    rw [List.range_succ, List.map_append, List.sum_append, ih (by omega)]
    simp [trial_share]
    ring

/-- Claim C12: for `W > 0` ranks the shares `nbSamples / W`, with the remainder added to the
share of rank 0 only, sum to `nbSamples`. -/
theorem trial_share_partition (nbSamples W : Nat) (hW : 0 < W) :
    ((List.range W).map (trial_share nbSamples W)).sum = nbSamples ∧
    trial_share nbSamples W 0 = nbSamples / W + nbSamples % W ∧
    ∀ rank, 0 < rank → rank < W → trial_share nbSamples W rank = nbSamples / W := by
  refine ⟨?_, by simp [trial_share], ?_⟩
  · obtain ⟨k, rfl⟩ : ∃ k, W = k + 1 := ⟨W - 1, by omega⟩
    rw [sum_trial_share nbSamples (k + 1) k (by omega)]
    have := Nat.div_add_mod nbSamples (k + 1)
    linarith
  · intro rank h0 _
    have : rank ≠ 0 := by omega
    simp [trial_share, this]

/-- The partition of claim C12 for ten trials and three ranks. -/
theorem trial_share_partition_witness :
    0 < 3 ∧
    (((List.range 3).map (trial_share 10 3)).sum = 10 ∧
    trial_share 10 3 0 = 10 / 3 + 10 % 3 ∧
    ∀ rank, 0 < rank → rank < 3 → trial_share 10 3 rank = 10 / 3) :=
  ⟨by decide, trial_share_partition 10 3 (by decide)⟩

end PartitionClaims

section GridExamples

end GridExamples

section SampleContainerLemmas

variable {α : Type}

theorem iter_rows_congr (g g' : Nat → (Nat → α) → (Nat → α)) (s : Nat) (v : Nat → α)
    (h : ∀ date, g date = g' date) (j : Nat) : iter_rows g s v j = iter_rows g' s v j := by
  induction j with
  | zero => rfl
  | succ j ih => simp only [iter_rows, ih, h]

end SampleContainerLemmas

section SampleLemmas

variable {α : Type} [LinearOrderedField α]

theorem foldl_range_eq_sum (f : Nat → α) (k : Nat) :
    (List.range k).foldl (fun s j => s + f j) 0 = ∑ j in Finset.range k, f j := by
  induction k with
  | zero => simp
  | succ k ih => rw [List.range_succ, List.foldl_append, ih, Finset.sum_range_succ]; rfl

theorem dot_eq_sum (x y : PnlVect α) :
    dot x y = ∑ j in Finset.range x.size, x.array j * y.array j :=
  foldl_range_eq_sum (fun j => x.array j * y.array j) x.size

theorem dot_congr (x y y' : PnlVect α) (h : ∀ j, j < x.size → y.array j = y'.array j) :
    dot x y = dot x y' := by
  rw [dot_eq_sum, dot_eq_sum]
  exact Finset.sum_congr rfl (fun j hj => by rw [h j (Finset.mem_range.mp hj)])

theorem next_cours_congr (F : Libm α) (M : BlackScholesModel α) (mu : Nat → α) (dt : α)
    (G G' : PnlVect α) (h : ∀ j, j < M.mat_cholesky.n → G.array j = G'.array j) :
    next_cours F M mu dt G = next_cours F M mu dt G' := by
  funext v i
  have hd : dot (M.mat_cholesky.row i) G = dot (M.mat_cholesky.row i) G' :=
    dot_congr _ G G' h
  simp only [next_cours, growth, hd]

end SampleLemmas

section SampleClaims

variable {α : Type} [LinearOrderedField α] [FloorRing α]

/-- Claim C13: when every draw of the generator delivers the entries of `G`, the overload
with a generator and the overload with the fixed sample write the same values into rows
`0 .. steps` of the path, for `asset` without past, for `simul_market` and, for a past of
`1 .. steps + 1` rows, for `asset` with past. -/
theorem rng_agrees_with_fixed_sample (F : Libm α) (M : BlackScholesModel α)
    (path path2 : PnlMat α) (t T : α) (nbTimeSteps : Nat) (G : PnlVect α) (rng : PnlRng α)
    (past : PnlMat α)
    (hM : M.WellFormed) (hm : nbTimeSteps + 1 ≤ path.m) (hn : path.n = M.size_)
    (hm2 : nbTimeSteps + 1 ≤ path2.m) (hn2 : path2.n = M.size_)
    (hG : G.size = M.size_)
    (hdraw : ∀ k j, j < M.size_ → (nth_draw M.size_ rng k).array j = G.array j)
    (h1 : 1 ≤ past.m) (hpm : past.m ≤ nbTimeSteps + 1) (hpn : past.n = M.size_) :
    (∃ out st, asset_G F M path T nbTimeSteps G = some (M, out) ∧
      asset_rng F M path2 T nbTimeSteps rng = some st ∧
      ∀ k i, k ≤ nbTimeSteps → i < M.size_ → st.path.array k i = out.array k i) ∧
    (∃ out st, simul_market_G F M path T nbTimeSteps G = some (M, out) ∧
      simul_market_rng F M path2 T nbTimeSteps rng = some st ∧
      ∀ k i, k ≤ nbTimeSteps → i < M.size_ → st.path.array k i = out.array k i) ∧
    (∃ out st, asset_G_past F M path t T nbTimeSteps G past = some (M, out) ∧
      asset_rng_past F M path2 t T nbTimeSteps rng past = some st ∧
      ∀ k i, k ≤ nbTimeSteps → i < M.size_ → st.path.array k i = out.array k i) := by
  have hnext : ∀ (mu : Nat → α) (dt : α) (k : Nat),
      next_cours F M mu dt (nth_draw M.size_ rng k) = next_cours F M mu dt G :=
    fun mu dt k => next_cours_congr F M mu dt _ G
      (fun j hj => hdraw k j (by rw [← hM.2.2.2.2]; exact hj))
  refine ⟨?_, ?_, ?_⟩
  · obtain ⟨out, ho, _, _, _, h4⟩ := asset_G_spec F M hM path T nbTimeSteps G hm hn hG
    obtain ⟨st, hs, _, _, _, _, h4'⟩ := asset_rng_spec F M hM path2 T nbTimeSteps rng hm2 hn2
    refine ⟨out, st, ho, hs, ?_⟩
    intro k i hk _
    rw [h4 k hk, h4' k hk]
    rw [iter_rows_congr _ (forward_update F M (fun _ => M.r_) (T / nbTimeSteps) (fun _ => G))]
    intro date
    funext v
    simp only [forward_update, hnext]
  · obtain ⟨out, ho, _, _, _, h4⟩ := simul_market_G_spec F M hM path T nbTimeSteps G hm hn hG
    obtain ⟨st, hs, _, _, _, _, h4'⟩ :=
      simul_market_rng_spec F M hM path2 T nbTimeSteps rng hm2 hn2
    refine ⟨out, st, ho, hs, ?_⟩
    intro k i hk _
    rw [h4 k hk, h4' k hk]
    rw [iter_rows_congr _ (forward_update F M M.trend.array (T / nbTimeSteps) (fun _ => G))]
    intro date
    funext v
    simp only [forward_update, hnext]
  · obtain ⟨out, ho, _, _, hc, h5, _⟩ :=
      asset_G_past_spec F M hM path t T nbTimeSteps G past h1 hpm hpn hm hn hG
    obtain ⟨st, hs, _, _, hc', h5', _⟩ :=
      asset_rng_past_spec F M hM path2 t T nbTimeSteps rng past h1 hpm hpn hm2 hn2
    refine ⟨out, st, ho, hs, ?_⟩
    intro k i hk hi
    by_cases hkc : k < clone_rows t T nbTimeSteps past
    · rw [hc k i hkc hi, hc' k i hkc hi]
    · obtain ⟨j, rfl⟩ : ∃ j, k = clone_rows t T nbTimeSteps past + j :=
        ⟨k - clone_rows t T nbTimeSteps past, by omega⟩
      rw [h5 j hk, h5' j hk]
      rw [iter_rows_congr _ (past_update F M t (T / nbTimeSteps) past
        (clone_rows t T nbTimeSteps past) (fun _ => G))]
      intro date
      funext v
      simp only [past_update, hnext]

theorem exConstant_draw : ∀ k j, j < exModel.size_ →
    (nth_draw exModel.size_ exRngConst k).array j = exG.array j := by
  intro k j hj
  have hj2 : j < 2 := hj
  simp only [nth_draw, pnl_vect_rng_normal, exG, exModel, exRngConst]
  interval_cases j
  · simp [Nat.mul_mod]
  · have h1 : (k * 2 + 1) % 2 = 1 := by omega
    simp [h1]

/-- The agreement of claim C13 on the two-asset model, two time steps and a generator that
delivers `exG` at every draw. -/
theorem rng_agrees_with_fixed_sample_witness :
    (exModel.WellFormed ∧ 2 + 1 ≤ exPath.m ∧ exPath.n = exModel.size_ ∧
      2 + 1 ≤ exPath2.m ∧ exPath2.n = exModel.size_ ∧ exG.size = exModel.size_ ∧
      (∀ k j, j < exModel.size_ →
        (nth_draw exModel.size_ exRngConst k).array j = exG.array j) ∧
      1 ≤ exPast.m ∧ exPast.m ≤ 2 + 1 ∧ exPast.n = exModel.size_) ∧
    ∃ out st, asset_G_past exLibm exModel exPath (1 / 4) 1 2 exG exPast = some (exModel, out) ∧
      asset_rng_past exLibm exModel exPath2 (1 / 4) 1 2 exRngConst exPast = some st ∧
      ∀ k i, k ≤ 2 → i < exModel.size_ → st.path.array k i = out.array k i :=
  ⟨⟨⟨rfl, rfl, rfl, rfl, rfl⟩, by decide, rfl, by decide, rfl, rfl, exConstant_draw,
      by decide, by decide, rfl⟩,
    (rng_agrees_with_fixed_sample exLibm exModel exPath exPath2 (1 / 4) 1 2 exG exRngConst
      exPast ⟨rfl, rfl, rfl, rfl, rfl⟩ (by decide) rfl (by decide) rfl rfl exConstant_draw
      (by decide) (by decide) rfl).2.2⟩

end SampleClaims

section StepLemmas

variable {α : Type} [LinearOrderedField α]

theorem asset_step_mul (F : Libm α) (M : BlackScholesModel α) (i : Nat) (dt : α)
    (G : PnlVect α) (x y : α) :
    asset_step F M i dt G (x * y) = asset_step F M i dt G x * y := by
  unfold asset_step
  ring

theorem asset_G_rows (F : Libm α) (M : BlackScholesModel α) (hM : M.WellFormed)
    (path : PnlMat α) (T : α) (nbTimeSteps : Nat) (G : PnlVect α)
    (hm : nbTimeSteps + 1 ≤ path.m) (hn : path.n = M.size_) (hG : G.size = M.size_) :
    ∃ out, asset_G F M path T nbTimeSteps G = some (M, out) ∧
      (∀ i, out.array 0 i = M.spot_.array i) ∧
      ∀ k i, 1 ≤ k → k ≤ nbTimeSteps → i < M.size_ →
        out.array k i = asset_step F M i (T / nbTimeSteps) G (out.array (k - 1) i) := by
  obtain ⟨out, ho, _, _, _, h4⟩ := asset_G_spec F M hM path T nbTimeSteps G hm hn hG
  obtain ⟨r0, rk⟩ := forward_rows_recurrence F M (fun _ => M.r_) (T / nbTimeSteps)
    (fun _ => G) M.spot_.array out.array nbTimeSteps h4
  exact ⟨out, ho, fun i => by rw [r0], rk⟩

end StepLemmas

section ZeroLemmas

variable {α : Type} [LinearOrderedField α] [FloorRing α]

theorem fmod_zero_left (y : α) (hy : y ≠ 0) : fmod_ne_zero 0 y = false := by
  rw [fmod_ne_zero_false_iff]
  exact ⟨hy, 0, by simp⟩

theorem fmod_zero_right (x : α) : fmod_ne_zero x 0 = true := by
  cases hb : fmod_ne_zero x 0
  · exact absurd rfl ((fmod_ne_zero_false_iff x 0).mp hb).1
  · rfl

/-- Claim C15: for `steps >= 1`, the fixed-sample `asset` with past called with `t = 0` and
a past that consists of the single row `spot_` writes the same rows `0 .. steps` as the
fixed-sample `asset` without past.  For `T = 0` the step is zero, the test
`fmod(0, 0) != 0` holds and the equality uses `sqrt(0) = 0` and `exp(0) = 1`. -/
theorem continuation_from_zero (F : Libm α) (M : BlackScholesModel α)
    (path path2 : PnlMat α) (T : α) (nbTimeSteps : Nat) (G : PnlVect α) (past : PnlMat α)
    (hM : M.WellFormed) (hN : 1 ≤ nbTimeSteps)
    (hm : nbTimeSteps + 1 ≤ path.m) (hn : path.n = M.size_)
    (hm2 : nbTimeSteps + 1 ≤ path2.m) (hn2 : path2.n = M.size_) (hG : G.size = M.size_)
    (hp1 : past.m = 1) (hpn : past.n = M.size_)
    (hspot : ∀ i, i < M.size_ → past.array 0 i = M.spot_.array i)
    (hF : T = 0 → F.sqrt 0 = 0 ∧ F.exp 0 = 1) :
    ∃ out out2, asset_G_past F M path 0 T nbTimeSteps G past = some (M, out) ∧
      asset_G F M path2 T nbTimeSteps G = some (M, out2) ∧
      ∀ k i, k ≤ nbTimeSteps → i < M.size_ → out.array k i = out2.array k i := by
  obtain ⟨out2, ho2, f0, fk⟩ := asset_G_rows F M hM path2 T nbTimeSteps G hm2 hn2 hG
  obtain ⟨out, ho, _, _, hcopy, r0, rk⟩ := asset_G_past_rows F M hM path 0 T nbTimeSteps G past
    (by omega) (by omega) hpn hm hn hG
  refine ⟨out, out2, ho, ho2, ?_⟩
  have hrows : (∀ i, i < M.size_ → out.array 0 i = M.spot_.array i) ∧
      ∀ k i, 1 ≤ k → k ≤ nbTimeSteps → i < M.size_ →
        out.array k i = asset_step F M i (T / nbTimeSteps) G (out.array (k - 1) i) := by
    by_cases hstep : T / (nbTimeSteps : α) = 0
    · have hT : T = 0 := by
        rcases div_eq_zero_iff.mp hstep with h | h
        · exact h
        · exact absurd (by exact_mod_cast h : nbTimeSteps = 0) (by omega)
      obtain ⟨hs0, he0⟩ := hF hT
      have htest : fmod_ne_zero (0 : α) (T / nbTimeSteps) = true := by
        rw [hstep]; exact fmod_zero_right 0
      obtain ⟨e1, e2⟩ := unaligned_rows 0 T nbTimeSteps past htest
      rw [e1, hp1] at r0 rk hcopy
      rw [hp1] at e2
      simp only [Nat.sub_self] at r0 rk hcopy e2
      rw [e2] at r0
      constructor
      · intro i hi
        rw [r0 (Nat.zero_le _) i hi, ← hspot i hi]
        simp [asset_step, hstep, hs0, he0]
      · intro k i hk1 hkN hi
        exact rk k i (by omega) hkN hi
    · have htest : fmod_ne_zero (0 : α) (T / nbTimeSteps) = false := fmod_zero_left _ hstep
      obtain ⟨e1, e2⟩ := aligned_rows 0 T nbTimeSteps past htest
      rw [e1, hp1] at r0 rk hcopy
      rw [hp1] at e2
      rw [e2] at r0
      simp only [Nat.sub_self] at r0
      have h0 : ∀ i, i < M.size_ → out.array 0 i = M.spot_.array i :=
        fun i hi => by rw [hcopy 0 i (by omega) hi, hspot i hi]
      refine ⟨h0, ?_⟩
      intro k i hk1 hkN hi
      by_cases hk : k = 1
      · subst hk
        rw [r0 hN i hi, Nat.sub_self, hcopy 0 i (by omega) hi]
      · exact rk k i (by omega) hkN hi
  obtain ⟨c0, ck⟩ := hrows
  intro k
  induction k with
  | zero => intro i _ hi; rw [c0 i hi, f0 i]
  | succ k ih =>
    intro i hk hi
    rw [ck (k + 1) i (by omega) hk hi, fk (k + 1) i (by omega) hk hi, Nat.add_sub_cancel,
      ih i (by omega) hi]

/-- The equality of claim C15 on the two-asset model with `T = 1` and two time steps. -/
theorem continuation_from_zero_witness :
    (exModel.WellFormed ∧ 1 ≤ 2 ∧ 2 + 1 ≤ exPath.m ∧ exPath.n = exModel.size_ ∧
      2 + 1 ≤ exPath2.m ∧ exPath2.n = exModel.size_ ∧ exG.size = exModel.size_ ∧
      exSpotPast.m = 1 ∧ exSpotPast.n = exModel.size_ ∧
      (∀ i, i < exModel.size_ → exSpotPast.array 0 i = exModel.spot_.array i) ∧
      ((1 : ℚ) = 0 → exLibm.sqrt 0 = 0 ∧ exLibm.exp 0 = 1)) ∧
    ∃ out out2, asset_G_past exLibm exModel exPath 0 1 2 exG exSpotPast = some (exModel, out) ∧
      asset_G exLibm exModel exPath2 1 2 exG = some (exModel, out2) ∧
      ∀ k i, k ≤ 2 → i < exModel.size_ → out.array k i = out2.array k i :=
  ⟨⟨⟨rfl, rfl, rfl, rfl, rfl⟩, by decide, by decide, rfl, by decide, rfl, rfl, rfl, rfl,
      fun _ _ => rfl, fun h => absurd h one_ne_zero⟩,
    continuation_from_zero exLibm exModel exPath exPath2 1 2 exG exSpotPast
      ⟨rfl, rfl, rfl, rfl, rfl⟩ (by decide) (by decide) rfl (by decide) rfl rfl rfl rfl
      (fun _ _ => rfl) (fun h => absurd h one_ne_zero)⟩

/-- Claim C16: in `asset` with past (both overloads) the first simulated row is computed
from the last row of `past`: when `fmod(t, T/steps) != 0` holds, row `m - 1` of the output
is `past[m-1][i] * exp((r - sigma_i^2/2) * delta + sigma_i * sqrt(delta) * (L_i . G))` with
`delta = (m - 1) * (T/steps) - t`, although that row of `past` is not copied; when it does
not hold, row `m` is computed from `past[m-1]` with `T/steps`. -/
theorem first_row_from_last_of_past (F : Libm α) (M : BlackScholesModel α) (path : PnlMat α)
    (t T : α) (nbTimeSteps : Nat) (G : PnlVect α) (rng : PnlRng α) (past : PnlMat α)
    (hM : M.WellFormed) (h1 : 1 ≤ past.m) (hpm : past.m ≤ nbTimeSteps + 1)
    (hpn : past.n = M.size_) (hm : nbTimeSteps + 1 ≤ path.m) (hn : path.n = M.size_)
    (hG : G.size = M.size_) :
    (∃ out, asset_G_past F M path t T nbTimeSteps G past = some (M, out) ∧
      (fmod_ne_zero t (T / nbTimeSteps) = true → ∀ i, i < M.size_ →
        out.array (past.m - 1) i = past.array (past.m - 1) i *
          F.exp ((M.r_ - M.sigma_.array i ^ 2 / 2)
              * ((((past.m : Int) - 1 : Int) : α) * (T / nbTimeSteps) - t)
            + M.sigma_.array i
              * F.sqrt ((((past.m : Int) - 1 : Int) : α) * (T / nbTimeSteps) - t)
              * dot (M.mat_cholesky.row i) G)) ∧
      (fmod_ne_zero t (T / nbTimeSteps) = false → past.m ≤ nbTimeSteps → ∀ i, i < M.size_ →
        out.array past.m i = past.array (past.m - 1) i *
          F.exp ((M.r_ - M.sigma_.array i ^ 2 / 2) * (T / nbTimeSteps)
            + M.sigma_.array i * F.sqrt (T / nbTimeSteps)
              * dot (M.mat_cholesky.row i) G))) ∧
    (∃ st, asset_rng_past F M path t T nbTimeSteps rng past = some st ∧
      (fmod_ne_zero t (T / nbTimeSteps) = true → ∀ i, i < M.size_ →
        st.path.array (past.m - 1) i = past.array (past.m - 1) i *
          F.exp ((M.r_ - M.sigma_.array i ^ 2 / 2)
              * ((((past.m : Int) - 1 : Int) : α) * (T / nbTimeSteps) - t)
            + M.sigma_.array i
              * F.sqrt ((((past.m : Int) - 1 : Int) : α) * (T / nbTimeSteps) - t)
              * dot (M.mat_cholesky.row i) (nth_draw M.size_ rng 0))) ∧
      (fmod_ne_zero t (T / nbTimeSteps) = false → past.m ≤ nbTimeSteps → ∀ i, i < M.size_ →
        st.path.array past.m i = past.array (past.m - 1) i *
          F.exp ((M.r_ - M.sigma_.array i ^ 2 / 2) * (T / nbTimeSteps)
            + M.sigma_.array i * F.sqrt (T / nbTimeSteps)
              * dot (M.mat_cholesky.row i) (nth_draw M.size_ rng 0)))) := by
  constructor
  · obtain ⟨out, ho, _, _, _, r0, _⟩ :=
      asset_G_past_rows F M hM path t T nbTimeSteps G past h1 hpm hpn hm hn hG
    refine ⟨out, ho, ?_, ?_⟩
    · intro h
      obtain ⟨e1, e2⟩ := unaligned_rows t T nbTimeSteps past h
      rw [e1] at r0
      rw [e2] at r0
      exact r0 (by omega)
    · intro h
      obtain ⟨e1, e2⟩ := aligned_rows t T nbTimeSteps past h
      rw [e1] at r0
      rw [e2] at r0
      exact r0
  · obtain ⟨st, ho, _, _, _, r0, _⟩ :=
      asset_rng_past_rows F M hM path t T nbTimeSteps rng past h1 hpm hpn hm hn
    refine ⟨st, ho, ?_, ?_⟩
    · intro h
      obtain ⟨e1, e2⟩ := unaligned_rows t T nbTimeSteps past h
      rw [e1] at r0
      rw [e2] at r0
      exact r0 (by omega)
    · intro h
      obtain ⟨e1, e2⟩ := aligned_rows t T nbTimeSteps past h
      rw [e1] at r0
      rw [e2] at r0
      exact r0

/-- The first simulated row of claim C16 on the two-asset model, two time steps, a past of
two rows and `t = 1/4`. -/
theorem first_row_from_last_of_past_witness :
    (exModel.WellFormed ∧ 1 ≤ exPast.m ∧ exPast.m ≤ 2 + 1 ∧ exPast.n = exModel.size_ ∧
      2 + 1 ≤ exPath.m ∧ exPath.n = exModel.size_ ∧ exG.size = exModel.size_) ∧
    ∃ out, asset_G_past exLibm exModel exPath (1 / 4) 1 2 exG exPast = some (exModel, out) ∧
      (fmod_ne_zero (1 / 4 : ℚ) (1 / (2 : Nat)) = true → ∀ i, i < exModel.size_ →
        out.array (exPast.m - 1) i = exPast.array (exPast.m - 1) i *
          exLibm.exp ((exModel.r_ - exModel.sigma_.array i ^ 2 / 2)
              * ((((exPast.m : Int) - 1 : Int) : ℚ) * (1 / (2 : Nat)) - 1 / 4)
            + exModel.sigma_.array i
              * exLibm.sqrt ((((exPast.m : Int) - 1 : Int) : ℚ) * (1 / (2 : Nat)) - 1 / 4)
              * dot (exModel.mat_cholesky.row i) exG)) ∧
      (fmod_ne_zero (1 / 4 : ℚ) (1 / (2 : Nat)) = false → exPast.m ≤ 2 →
        ∀ i, i < exModel.size_ →
        out.array exPast.m i = exPast.array (exPast.m - 1) i *
          exLibm.exp ((exModel.r_ - exModel.sigma_.array i ^ 2 / 2) * (1 / (2 : Nat))
            + exModel.sigma_.array i * exLibm.sqrt (1 / (2 : Nat))
              * dot (exModel.mat_cholesky.row i) exG)) :=
  ⟨⟨⟨rfl, rfl, rfl, rfl, rfl⟩, by decide, by decide, rfl, by decide, rfl, rfl⟩,
    (first_row_from_last_of_past exLibm exModel exPath (1 / 4) 1 2 exG exRng exPast
      ⟨rfl, rfl, rfl, rfl, rfl⟩ (by decide) (by decide) rfl (by decide) rfl rfl).1⟩

end ZeroLemmas

section BumpClaims

variable {α : Type} [LinearOrderedField α] [FloorRing α]

/-- The rows of the continuation from the bumped past in terms of the rows of the
continuation from the past itself. -/
theorem bumped_rows (F : Libm α) (M : BlackScholesModel α) (t T : α) (nbTimeSteps : Nat)
    (G : PnlVect α) (past : PnlMat α) (d : Int) (h : α) (out out2 : PnlMat α) (ind : Nat)
    (hm : past.m = ind + 1)
    (hc1 : ind ≤ clone_rows t T nbTimeSteps past)
    (hcopy : ∀ k i, k < clone_rows t T nbTimeSteps past → i < M.size_ →
      out.array k i = past.array k i)
    (r0 : clone_rows t T nbTimeSteps past ≤ nbTimeSteps → ∀ i, i < M.size_ →
      out.array (clone_rows t T nbTimeSteps past) i
        = asset_step F M i
            (elapsed t (T / nbTimeSteps) past (clone_rows t T nbTimeSteps past)
              (clone_rows t T nbTimeSteps past)) G (past.array (past.m - 1) i))
    (rk : ∀ k i, clone_rows t T nbTimeSteps past < k → k ≤ nbTimeSteps → i < M.size_ →
      out.array k i = asset_step F M i (T / nbTimeSteps) G (out.array (k - 1) i))
    (hcopy2 : ∀ k i, k < clone_rows t T nbTimeSteps past → i < M.size_ →
      out2.array k i = (bump_last past d h).array k i)
    (r02 : clone_rows t T nbTimeSteps past ≤ nbTimeSteps → ∀ i, i < M.size_ →
      out2.array (clone_rows t T nbTimeSteps past) i
        = asset_step F M i
            (elapsed t (T / nbTimeSteps) past (clone_rows t T nbTimeSteps past)
              (clone_rows t T nbTimeSteps past)) G ((bump_last past d h).array (past.m - 1) i))
    (rk2 : ∀ k i, clone_rows t T nbTimeSteps past < k → k ≤ nbTimeSteps → i < M.size_ →
      out2.array k i = asset_step F M i (T / nbTimeSteps) G (out2.array (k - 1) i)) :
    ∀ k, k ≤ nbTimeSteps → ∀ i, i < M.size_ →
      out2.array k i = if ind ≤ k ∧ i = d.toNat then out.array k i * (1 + h)
                       else out.array k i := by
  have hlast : past.m - 1 = ind := by omega
  have hb : ∀ k i, (bump_last past d h).array k i
      = if k = ind ∧ i = d.toNat then past.array k i * (1 + h) else past.array k i := by
    intro k i
    simp only [bump_last, hlast]
  intro k
  induction k with
  | zero =>
    intro hk i hi
    by_cases hc : 0 < clone_rows t T nbTimeSteps past
    · rw [hcopy2 0 i hc hi, hcopy 0 i hc hi, hb]
      by_cases hcase : 0 = ind ∧ i = d.toNat
      · rw [if_pos hcase, if_pos ⟨by omega, hcase.2⟩]
      · rw [if_neg hcase, if_neg (fun hh => hcase ⟨by omega, hh.2⟩)]
    · have hc0 : clone_rows t T nbTimeSteps past = 0 := by omega
      have h0 := r0 (by omega) i hi
      have h02 := r02 (by omega) i hi
      rw [hc0] at h0 h02
      rw [h0, h02, hlast, hb]
      by_cases hcase : i = d.toNat
      · rw [if_pos ⟨rfl, hcase⟩, if_pos ⟨by omega, hcase⟩, asset_step_mul]
      · rw [if_neg (fun hh => hcase hh.2), if_neg (fun hh => hcase hh.2)]
  | succ k ih =>
    intro hk i hi
    rcases Nat.lt_trichotomy (k + 1) (clone_rows t T nbTimeSteps past) with hlt | heq | hgt
    · rw [hcopy2 (k + 1) i hlt hi, hcopy (k + 1) i hlt hi, hb]
      by_cases hcase : k + 1 = ind ∧ i = d.toNat
      · rw [if_pos hcase, if_pos ⟨by omega, hcase.2⟩]
      · by_cases hi' : i = d.toNat
        · have hne : k + 1 ≠ ind := fun hh => hcase ⟨hh, hi'⟩
          have hlt2 : k + 1 < ind ∨ ind < k + 1 := by omega
          rcases hlt2 with h3 | h3
          · rw [if_neg hcase, if_neg (fun hh => by omega)]
          · exfalso
            have : clone_rows t T nbTimeSteps past ≤ past.m := by
              unfold clone_rows; split <;> omega
            omega
        · rw [if_neg hcase, if_neg (fun hh => hi' hh.2)]
    · have h0 := r0 (by omega) i hi
      have h02 := r02 (by omega) i hi
      rw [← heq] at h0 h02
      rw [h0, h02, hlast, hb]
      by_cases hcase : i = d.toNat
      · rw [if_pos ⟨rfl, hcase⟩, if_pos ⟨by omega, hcase⟩, asset_step_mul]
      · rw [if_neg (fun hh => hcase hh.2), if_neg (fun hh => hcase hh.2)]
    · rw [rk2 (k + 1) i hgt hk hi, rk (k + 1) i hgt hk hi, Nat.add_sub_cancel,
        ih (by omega) i hi]
      by_cases hcase : i = d.toNat
      · rw [if_pos ⟨by omega, hcase⟩, if_pos ⟨by omega, hcase⟩, asset_step_mul]
      · rw [if_neg (fun hh => hcase hh.2), if_neg (fun hh => hcase hh.2)]

/-- Claim C14: for a column `d` in `[0, n)` and a past of exactly `ind_t + 1` rows, where
`ind_t <= steps` is the index `shiftAsset` computes for `t` and `T/steps`, shifting the
path the fixed-sample `asset` with past simulates from `past` gives the path the same call
simulates from the past whose entry (last row, column `d`) is multiplied by `1 + h`;
this holds whichever way the test `fmod(t, T/steps) != 0` goes. -/
theorem shift_commutes_with_continuation (F : Libm α) (M : BlackScholesModel α)
    (shift_path path : PnlMat α) (t T : α) (nbTimeSteps : Nat) (G : PnlVect α)
    (past : PnlMat α) (d : Int) (h : α)
    (hM : M.WellFormed) (hd0 : 0 ≤ d) (hd : d < M.size_)
    (hind : (past.m : Int) = shift_index t (T / nbTimeSteps) + 1)
    (hi0 : 0 ≤ shift_index t (T / nbTimeSteps))
    (hle : shift_index t (T / nbTimeSteps) ≤ nbTimeSteps)
    (hpn : past.n = M.size_) (hm : nbTimeSteps + 1 ≤ path.m) (hn : path.n = M.size_)
    (hG : G.size = M.size_) :
    ∃ out out2 res, asset_G_past F M path t T nbTimeSteps G past = some (M, out) ∧
      asset_G_past F M path t T nbTimeSteps G (bump_last past d h) = some (M, out2) ∧
      shiftAsset M shift_path out d h t (T / nbTimeSteps) = some res ∧
      res.shift_path.m = out2.m ∧ res.shift_path.n = out2.n ∧
      ∀ k i, k < out2.m → i < out2.n → res.shift_path.array k i = out2.array k i := by
  obtain ⟨ind, hindex⟩ : ∃ ind : Nat, shift_index t (T / nbTimeSteps) = (ind : Int) :=
    ⟨(shift_index t (T / nbTimeSteps)).toNat, (Int.toNat_of_nonneg hi0).symm⟩
  rw [hindex] at hind hle
  have hpm : past.m = ind + 1 := by omega
  have hindN : ind ≤ nbTimeSteps := by omega
  obtain ⟨out, ho, hom, hon, hcopy, r0, rk⟩ := asset_G_past_rows F M hM path t T nbTimeSteps G
    past (by omega) (by omega) hpn hm hn hG
  obtain ⟨out2, ho2, hom2, hon2, hcopy2, r02, rk2⟩ := asset_G_past_rows F M hM path t T
    nbTimeSteps G (bump_last past d h) (by simp only [bump_last]; omega)
    (by simp only [bump_last]; omega) hpn hm hn hG
  obtain ⟨out', ho', _, _, _, _, hz⟩ := asset_G_past_spec F M hM path t T nbTimeSteps G
    past (by omega) (by omega) hpn hm hn hG
  obtain ⟨out2', ho2', _, _, _, _, hz2⟩ := asset_G_past_spec F M hM path t T
    nbTimeSteps G (bump_last past d h) (by simp only [bump_last]; omega)
    (by simp only [bump_last]; omega) hpn hm hn hG
  have e1 : out' = out := by
    rw [ho] at ho'; simp only [Option.some.injEq, Prod.mk.injEq, true_and] at ho'; exact ho'.symm
  have e2 : out2' = out2 := by
    rw [ho2] at ho2'
    simp only [Option.some.injEq, Prod.mk.injEq, true_and] at ho2'; exact ho2'.symm
  subst e1 e2
  have hc1 : ind ≤ clone_rows t T nbTimeSteps past := by
    unfold clone_rows; split <;> omega
  have hrows := bumped_rows F M t T nbTimeSteps G past d h out' out2' ind hpm hc1 hcopy r0 rk
    hcopy2 r02 rk2
  obtain ⟨res, hr, _, rm, rn, ra⟩ := shiftAsset_spec M shift_path out' d h t
    (T / nbTimeSteps) hd0 (by rw [hon, hn]; exact hd) hi0 (by rw [hindex, hom]; omega)
  refine ⟨out', out2', res, ho, ho2, hr, by rw [rm, hom, hom2], by rw [rn, hon, hon2], ?_⟩
  intro k i hk hi
  rw [ra, hindex, Int.toNat_ofNat]
  rw [hom2] at hk
  rw [hon2, hn] at hi
  by_cases hkN : k ≤ nbTimeSteps
  · rw [hrows k hkN i hi]
    by_cases hcase : ind ≤ k ∧ i = d.toNat
    · rw [if_pos hcase, if_pos ⟨hcase.1, by rw [hom]; exact hk, hcase.2⟩]
    · rw [if_neg hcase, if_neg (fun hh => hcase ⟨hh.1, hh.2.2⟩)]
  · rw [hz k i (by omega), hz2 k i (by omega)]
    split <;> simp

/-- The shift index for `t = 1/4` and the step `1 / 2` written as `T / steps`. -/
theorem exShift_index_steps : shift_index (1 / 4 : ℚ) (1 / (2 : Nat)) = 1 := by
  rw [shift_index_eq_ceil _ _ (by norm_num), Int.ceil_eq_iff]
  norm_num

/-- The commutation of claim C14 on the two-asset model, two time steps, column 1, a past
of two rows and `t = 1/4`, for which the shift index is 1. -/
theorem shift_commutes_with_continuation_witness :
    (exModel.WellFormed ∧ (0 : Int) ≤ 1 ∧ (1 : Int) < exModel.size_ ∧
      (exPast.m : Int) = shift_index (1 / 4 : ℚ) (1 / (2 : Nat)) + 1 ∧
      0 ≤ shift_index (1 / 4 : ℚ) (1 / (2 : Nat)) ∧
      shift_index (1 / 4 : ℚ) (1 / (2 : Nat)) ≤ (2 : Nat) ∧
      exPast.n = exModel.size_ ∧ 2 + 1 ≤ exPath.m ∧ exPath.n = exModel.size_ ∧
      exG.size = exModel.size_) ∧
    ∃ out out2 res, asset_G_past exLibm exModel exPath (1 / 4) 1 2 exG exPast
        = some (exModel, out) ∧
      asset_G_past exLibm exModel exPath (1 / 4) 1 2 exG (bump_last exPast 1 (1 / 10))
        = some (exModel, out2) ∧
      shiftAsset exModel exPath2 out 1 (1 / 10) (1 / 4) (1 / (2 : Nat)) = some res ∧
      res.shift_path.m = out2.m ∧ res.shift_path.n = out2.n ∧
      ∀ k i, k < out2.m → i < out2.n → res.shift_path.array k i = out2.array k i :=
  ⟨⟨⟨rfl, rfl, rfl, rfl, rfl⟩, by decide, by decide, by rw [exShift_index_steps]; decide,
      by rw [exShift_index_steps]; decide, by rw [exShift_index_steps]; decide, rfl,
      by decide, rfl, rfl⟩,
    shift_commutes_with_continuation exLibm exModel exPath2 exPath (1 / 4) 1 2 exG exPast 1
      (1 / 10) ⟨rfl, rfl, rfl, rfl, rfl⟩ (by decide) (by decide)
      (by rw [exShift_index_steps]; decide) (by rw [exShift_index_steps]; decide)
      (by rw [exShift_index_steps]; decide) rfl (by decide) rfl rfl⟩

end BumpClaims

section ClosedFormClaims

variable {α : Type} [LinearOrderedField α]

/-- Claim C18: when `exp` turns sums into products and `exp(0) = 1`, row `k` of the path of
the fixed-sample `asset` without past is, for `k` in `0 .. steps` and every asset `i`,
`spot_i * exp(k * ((r - sigma_i^2/2) * (T/steps) + sigma_i * sqrt(T/steps) * (L_i . G)))`. -/
theorem asset_G_closed_form (F : Libm α) (M : BlackScholesModel α) (path : PnlMat α)
    (T : α) (nbTimeSteps : Nat) (G : PnlVect α)
    (hM : M.WellFormed) (hm : nbTimeSteps + 1 ≤ path.m) (hn : path.n = M.size_)
    (hG : G.size = M.size_)
    (hexp0 : F.exp 0 = 1) (hexp : ∀ a b, F.exp (a + b) = F.exp a * F.exp b) :
    ∃ out, asset_G F M path T nbTimeSteps G = some (M, out) ∧
      ∀ k i, k ≤ nbTimeSteps → i < M.size_ →
        out.array k i = M.spot_.array i *
          F.exp ((k : α) * ((M.r_ - M.sigma_.array i ^ 2 / 2) * (T / nbTimeSteps)
            + M.sigma_.array i * F.sqrt (T / nbTimeSteps)
              * dot (M.mat_cholesky.row i) G)) := by
  obtain ⟨out, ho, _, _, _, h4⟩ := asset_G_spec F M hM path T nbTimeSteps G hm hn hG
  obtain ⟨r0, rk⟩ := forward_rows_recurrence F M (fun _ => M.r_) (T / nbTimeSteps)
    (fun _ => G) M.spot_.array out.array nbTimeSteps h4
  refine ⟨out, ho, ?_⟩
  intro k
  induction k with
  | zero => intro i _ _; simp [r0, hexp0]
  | succ k ih =>
    intro i hk hi
    rw [rk (k + 1) i (by omega) hk hi, Nat.add_sub_cancel, ih i (by omega) hi, mul_assoc,
      ← hexp]
    congr 2
    push_cast
    ring

/-- The closed form of claim C18 for the real exponential and square root, on the
one-asset model with two time steps. -/
theorem asset_G_closed_form_witness :
    ((unitModel ℝ).WellFormed ∧ 2 + 1 ≤ (unitPath ℝ).m ∧ (unitPath ℝ).n = (unitModel ℝ).size_ ∧
      (unitG ℝ).size = (unitModel ℝ).size_ ∧ Real.exp 0 = 1 ∧
      (∀ a b : ℝ, Real.exp (a + b) = Real.exp a * Real.exp b)) ∧
    ∃ out, asset_G { exp := Real.exp, sqrt := Real.sqrt } (unitModel ℝ) (unitPath ℝ) 1 2
        (unitG ℝ) = some (unitModel ℝ, out) ∧
      ∀ k i, k ≤ 2 → i < (unitModel ℝ).size_ →
        out.array k i = (unitModel ℝ).spot_.array i *
          Real.exp ((k : ℝ) * (((unitModel ℝ).r_ - (unitModel ℝ).sigma_.array i ^ 2 / 2)
              * (1 / (2 : Nat))
            + (unitModel ℝ).sigma_.array i * Real.sqrt (1 / (2 : Nat))
              * dot ((unitModel ℝ).mat_cholesky.row i) (unitG ℝ))) :=
  ⟨⟨⟨rfl, rfl, rfl, rfl, rfl⟩, by decide, rfl, rfl, Real.exp_zero, Real.exp_add⟩,
    asset_G_closed_form { exp := Real.exp, sqrt := Real.sqrt } (unitModel ℝ) (unitPath ℝ) 1 2
      (unitG ℝ) ⟨rfl, rfl, rfl, rfl, rfl⟩ (by decide) rfl rfl Real.exp_zero Real.exp_add⟩

end ClosedFormClaims

section Binary64Lemmas

theorem round_half_even_eq (x : ℚ) (n : Int) (h1 : (n : ℚ) - 1 / 2 < x)
    (h2 : x < (n : ℚ) + 1 / 2) : round_half_even x = n := by
  unfold round_half_even
  have hf1 : (⌊x⌋ : ℚ) ≤ x := Int.floor_le x
  have hf2 : x < (⌊x⌋ : ℚ) + 1 := Int.lt_floor_add_one x
  have hlo : n - 1 < ⌊x⌋ + 1 := by
    have : ((n - 1 : Int) : ℚ) < ((⌊x⌋ + 1 : Int) : ℚ) := by push_cast; linarith
    exact_mod_cast this
  have hhi : ⌊x⌋ < n + 1 := by
    have : ((⌊x⌋ : Int) : ℚ) < ((n + 1 : Int) : ℚ) := by push_cast; linarith
    exact_mod_cast this
  have hcase : ⌊x⌋ = n ∨ ⌊x⌋ = n - 1 := by omega
  rcases hcase with h | h
  · have hlt : x - (⌊x⌋ : ℚ) < 1 / 2 := by rw [h]; linarith
    rw [if_pos hlt, h]
  · have hq : ((⌊x⌋ : Int) : ℚ) = (n : ℚ) - 1 := by rw [h]; push_cast; ring
    have hnlt : ¬ x - (⌊x⌋ : ℚ) < 1 / 2 := by rw [hq]; linarith
    have hgt : 1 / 2 < x - (⌊x⌋ : ℚ) := by rw [hq]; linarith
    rw [if_neg hnlt, if_pos hgt, h]
    ring

theorem ulp_exponent_eq (x : ℚ) (e : Int) (he : -1022 ≤ e) (h1 : (2 : ℚ) ^ e ≤ |x|)
    (h2 : |x| < (2 : ℚ) ^ (e + 1)) : ulp_exponent x = e - 52 := by
  have hpos : 0 < |x| := lt_of_lt_of_le (zpow_pos (by norm_num) e) h1
  have hlog : Int.log 2 |x| = e := by
    apply le_antisymm
    · have := (Int.lt_zpow_iff_log_lt (b := 2) (by norm_num) hpos (x := e + 1)).mp
        (by simpa using h2)
      omega
    · exact (Int.zpow_le_iff_le_log (b := 2) (by norm_num) hpos).mp (by simpa using h1)
  unfold ulp_exponent
  rw [hlog, max_eq_left he]

/-- Evaluation of `binary64` at a number strictly nearer to `n * 2^(e-52)` than to its
neighbours. -/
theorem binary64_eq (x : ℚ) (e n : Int) (he : -1022 ≤ e) (h1 : (2 : ℚ) ^ e ≤ |x|)
    (h2 : |x| < (2 : ℚ) ^ (e + 1))
    (h3 : (n : ℚ) - 1 / 2 < x / (2 : ℚ) ^ (e - 52))
    (h4 : x / (2 : ℚ) ^ (e - 52) < (n : ℚ) + 1 / 2) :
    binary64 x = (n : ℚ) * (2 : ℚ) ^ (e - 52) := by
  unfold binary64
  rw [ulp_exponent_eq x e he h1 h2, round_half_even_eq _ n h3 h4]

theorem round_half_even_intCast (n : Int) : round_half_even (n : ℚ) = n :=
  round_half_even_eq _ n (by linarith) (by linarith)

theorem round_half_even_bounds (x : ℚ) :
    ⌊x⌋ ≤ round_half_even x ∧ round_half_even x ≤ ⌊x⌋ + 1 := by
  unfold round_half_even
  split
  · omega
  · split
    · omega
    · split <;> omega

theorem round_half_even_mono (a b : ℚ) (h : a ≤ b) : round_half_even a ≤ round_half_even b := by
  have hfl : ⌊a⌋ ≤ ⌊b⌋ := Int.floor_mono h
  rcases lt_or_eq_of_le hfl with hlt | heq
  · have h1 := (round_half_even_bounds a).2
    have h2 := (round_half_even_bounds b).1
    omega
  · have hfr : a - (⌊a⌋ : ℚ) ≤ b - (⌊b⌋ : ℚ) := by rw [heq]; linarith
    unfold round_half_even
    rw [heq]
    by_cases ha : a - (⌊b⌋ : ℚ) < 1 / 2
    · rw [if_pos ha]
      split_ifs <;> omega
    · rw [if_neg ha]
      have hb : ¬ b - (⌊b⌋ : ℚ) < 1 / 2 := by
        rw [heq] at hfr
        intro hb; exact ha (lt_of_le_of_lt hfr hb)
      rw [if_neg hb]
      by_cases ha2 : 1 / 2 < a - (⌊b⌋ : ℚ)
      · have hb2 : 1 / 2 < b - (⌊b⌋ : ℚ) := by
          rw [heq] at hfr
          exact lt_of_lt_of_le ha2 hfr
        rw [if_pos ha2, if_pos hb2]
      · rw [if_neg ha2]
        split_ifs <;> omega

theorem binary64_zero : binary64 0 = 0 := by
  unfold binary64
  rw [zero_div]
  have : round_half_even 0 = 0 := by
    have := round_half_even_intCast 0
    simpa using this
  rw [this]
  simp

theorem binary64_nonneg (x : ℚ) (hx : 0 ≤ x) : 0 ≤ binary64 x := by
  unfold binary64
  have hp : (0 : ℚ) < (2 : ℚ) ^ ulp_exponent x := zpow_pos (by norm_num) _
  have h0 : (0 : ℚ) ≤ x / (2 : ℚ) ^ ulp_exponent x := div_nonneg hx (le_of_lt hp)
  have h1 : round_half_even 0 ≤ round_half_even (x / (2 : ℚ) ^ ulp_exponent x) :=
    round_half_even_mono _ _ h0
  have h2 : round_half_even 0 = 0 := by
    have := round_half_even_intCast 0
    simpa using this
  rw [h2] at h1
  exact mul_nonneg (by exact_mod_cast h1) (le_of_lt hp)

/-- Rounding to binary64 is monotone on the non-negative numbers. -/
theorem binary64_mono (x y : ℚ) (hx : 0 ≤ x) (hxy : x ≤ y) : binary64 x ≤ binary64 y := by
  rcases eq_or_lt_of_le hx with h0 | hpos
  · rw [← h0, binary64_zero]
    exact binary64_nonneg y (le_trans hx hxy)
  have hypos : 0 < y := lt_of_lt_of_le hpos hxy
  have hax : |x| = x := abs_of_pos hpos
  have hay : |y| = y := abs_of_pos hypos
  have hlog : Int.log 2 x ≤ Int.log 2 y := Int.log_mono_right hpos hxy
  have h2 : (2 : ℚ) ≠ 0 := by norm_num
  have h12 : (1 : ℚ) ≤ 2 := by norm_num
  have hmax : max (Int.log 2 x) (-1022) ≤ max (Int.log 2 y) (-1022) :=
    max_le_max hlog (le_refl (-1022 : Int))
  rcases lt_or_eq_of_le hmax with hlt | heq
  · -- different binades
    have hux : ulp_exponent x = max (Int.log 2 x) (-1022) - 52 := by
      unfold ulp_exponent; rw [hax]
    have huy : ulp_exponent y = max (Int.log 2 y) (-1022) - 52 := by
      unfold ulp_exponent; rw [hay]
    have hey : max (Int.log 2 y) (-1022) = Int.log 2 y := by
      apply max_eq_left
      by_contra hcon
      have : max (Int.log 2 y) (-1022) = -1022 := max_eq_right (by omega)
      rw [this] at hlt
      have := le_max_right (Int.log 2 x) (-1022)
      omega
    -- upper bound of the rounded x
    have hxlt : x < (2 : ℚ) ^ (max (Int.log 2 x) (-1022) + 1) := by
      have h1 : x < ((2 : ℕ) : ℚ) ^ (Int.log 2 x + 1) := Int.lt_zpow_succ_log_self (by norm_num) x
      have h3 : (2 : ℚ) ^ (Int.log 2 x + 1) ≤ (2 : ℚ) ^ (max (Int.log 2 x) (-1022) + 1) :=
        zpow_le_zpow_right₀ h12 (by have := le_max_left (Int.log 2 x) (-1022); omega)
      have h1' : x < (2 : ℚ) ^ (Int.log 2 x + 1) := by simpa using h1
      exact lt_of_lt_of_le h1' h3
    have hbx : binary64 x ≤ (2 : ℚ) ^ (max (Int.log 2 x) (-1022) + 1) := by
      unfold binary64
      rw [hux]
      have hp : (0 : ℚ) < (2 : ℚ) ^ (max (Int.log 2 x) (-1022) - 52) := zpow_pos (by norm_num) _
      have hq : x / (2 : ℚ) ^ (max (Int.log 2 x) (-1022) - 52) ≤ (((2 : Int) ^ 53 : Int) : ℚ) := by
        rw [div_le_iff₀ hp]
        have e : (((2 : Int) ^ 53 : Int) : ℚ) * (2 : ℚ) ^ (max (Int.log 2 x) (-1022) - 52)
            = (2 : ℚ) ^ (max (Int.log 2 x) (-1022) + 1) := by
          have : (((2 : Int) ^ 53 : Int) : ℚ) = (2 : ℚ) ^ (53 : Int) := by norm_num
          rw [this, ← zpow_add₀ h2]
          congr 1
          ring
        rw [e]
        exact le_of_lt hxlt
      have hr := round_half_even_mono _ _ hq
      rw [round_half_even_intCast] at hr
      have hr' : ((round_half_even (x / (2 : ℚ) ^ (max (Int.log 2 x) (-1022) - 52)) : Int) : ℚ)
          ≤ (((2 : Int) ^ 53 : Int) : ℚ) := by exact_mod_cast hr
      have e : (((2 : Int) ^ 53 : Int) : ℚ) * (2 : ℚ) ^ (max (Int.log 2 x) (-1022) - 52)
          = (2 : ℚ) ^ (max (Int.log 2 x) (-1022) + 1) := by
        have : (((2 : Int) ^ 53 : Int) : ℚ) = (2 : ℚ) ^ (53 : Int) := by norm_num
        rw [this, ← zpow_add₀ h2]
        congr 1
        ring
      rw [← e]
      exact mul_le_mul_of_nonneg_right hr' (le_of_lt hp)
    have hby : (2 : ℚ) ^ (Int.log 2 y) ≤ binary64 y := by
      unfold binary64
      rw [huy, hey]
      have hp : (0 : ℚ) < (2 : ℚ) ^ (Int.log 2 y - 52) := zpow_pos (by norm_num) _
      have hle : (2 : ℚ) ^ (Int.log 2 y) ≤ y := by
        have := Int.zpow_log_le_self (b := 2) (by norm_num) hypos
        simpa using this
      have e : (((2 : Int) ^ 52 : Int) : ℚ) * (2 : ℚ) ^ (Int.log 2 y - 52)
          = (2 : ℚ) ^ (Int.log 2 y) := by
        have : (((2 : Int) ^ 52 : Int) : ℚ) = (2 : ℚ) ^ (52 : Int) := by norm_num
        rw [this, ← zpow_add₀ h2]
        congr 1
        ring
      have hq : (((2 : Int) ^ 52 : Int) : ℚ) ≤ y / (2 : ℚ) ^ (Int.log 2 y - 52) := by
        rw [le_div_iff₀ hp, e]
        exact hle
      have hr := round_half_even_mono _ _ hq
      rw [round_half_even_intCast] at hr
      have hr' : (((2 : Int) ^ 52 : Int) : ℚ)
          ≤ ((round_half_even (y / (2 : ℚ) ^ (Int.log 2 y - 52)) : Int) : ℚ) := by
        exact_mod_cast hr
      rw [← e]
      exact mul_le_mul_of_nonneg_right hr' (le_of_lt hp)
    have hmid : (2 : ℚ) ^ (max (Int.log 2 x) (-1022) + 1) ≤ (2 : ℚ) ^ (Int.log 2 y) :=
      zpow_le_zpow_right₀ h12 (by rw [hey] at hlt; omega)
    exact le_trans hbx (le_trans hmid hby)
  · -- same binade
    have hu : ulp_exponent x = ulp_exponent y := by
      unfold ulp_exponent
      rw [hax, hay, heq]
    unfold binary64
    rw [hu]
    have hp : (0 : ℚ) < (2 : ℚ) ^ ulp_exponent y := zpow_pos (by norm_num) _
    have hq : x / (2 : ℚ) ^ ulp_exponent y ≤ y / (2 : ℚ) ^ ulp_exponent y :=
      div_le_div_of_nonneg_right hxy (le_of_lt hp)
    have hr := round_half_even_mono _ _ hq
    exact mul_le_mul_of_nonneg_right (by exact_mod_cast hr) (le_of_lt hp)

theorem binary64_tenth :
    double_div 1 ((10 : Nat) : ℚ) = 3602879701896397 / 36028797018963968 := by
  unfold double_div
  rw [binary64_eq (1 / ((10 : Nat) : ℚ)) (-4) 7205759403792794 (by norm_num)
    (by norm_num [abs_of_pos]) (by norm_num [abs_of_pos]) (by norm_num) (by norm_num)]
  norm_num

theorem binary64_half : binary64 (1 / 2) = 1 / 2 := by
  rw [binary64_eq (1 / 2) (-1) 4503599627370496 (by norm_num) (by norm_num [abs_of_pos])
    (by norm_num [abs_of_pos]) (by norm_num) (by norm_num)]
  norm_num

theorem binary64_quotient_five :
    double_div (1 / 2) (3602879701896397 / 36028797018963968) = 5 := by
  unfold double_div
  rw [binary64_eq _ 2 5629499534213120 (by norm_num) (by norm_num [abs_of_pos])
    (by norm_num [abs_of_pos]) (by norm_num) (by norm_num)]
  norm_num

theorem binary64_six : double_add 5 1 = 6 := by
  unfold double_add
  rw [binary64_eq _ 2 6755399441055744 (by norm_num) (by norm_num [abs_of_pos])
    (by norm_num [abs_of_pos]) (by norm_num) (by norm_num)]
  norm_num

theorem binary64_product_half :
    double_mul 5 (3602879701896397 / 36028797018963968) = 1 / 2 := by
  unfold double_mul
  rw [binary64_eq _ (-1) 4503599627370496 (by norm_num) (by norm_num [abs_of_pos])
    (by norm_num [abs_of_pos]) (by norm_num) (by norm_num)]
  norm_num

theorem half_off_grid :
    ¬ ∃ k : Int, (1 / 2 : ℚ) = (k : ℚ) * (3602879701896397 / 36028797018963968) := by
  rintro ⟨k, hk⟩
  have h1 : ((k * 3602879701896397 : Int) : ℚ) = ((18014398509481984 : Int) : ℚ) := by
    push_cast
    linarith
  have h2 : k * 3602879701896397 = 18014398509481984 := by exact_mod_cast h1
  omega

theorem half_ceil : ⌈(1 / 2 : ℚ) / (3602879701896397 / 36028797018963968)⌉ = 5 := by
  rw [Int.ceil_eq_iff]
  norm_num

theorem half_fmod :
    fmod_ne_zero (1 / 2 : ℚ) (3602879701896397 / 36028797018963968) = true := by
  cases hb : fmod_ne_zero (1 / 2 : ℚ) (3602879701896397 / 36028797018963968)
  · exact absurd ((fmod_ne_zero_false_of_pos _ _ (by norm_num)).mp hb) half_off_grid
  · rfl

theorem binary64_tenth_literal :
    binary64 (1 / 10) = 3602879701896397 / 36028797018963968 := by
  rw [binary64_eq (1 / 10) (-4) 7205759403792794 (by norm_num) (by norm_num [abs_of_pos])
    (by norm_num [abs_of_pos]) (by norm_num) (by norm_num)]
  norm_num

end Binary64Lemmas

section IrregularExact

variable {α : Type} [LinearOrderedField α] [FloorRing α]

/-- In exact arithmetic: for a step `> 0`, `t` not a multiple of it and `m - 1 = ceil(t / step)`,
the test `fmod(t, step) != 0` holds and `(m - 1) * step - t` lies strictly between `0` and the
step. -/
theorem irregular_step_exact (past : PnlMat α) (t step : α) (hpos : 0 < step)
    (hoff : ¬ ∃ k : Int, t = (k : α) * step)
    (hm : (past.m : Int) - 1 = ⌈t / step⌉) :
    fmod_ne_zero t step = true ∧
    0 < irregular_step past step t ∧ irregular_step past step t < step := by
  have hne : step ≠ 0 := ne_of_gt hpos
  have htest : fmod_ne_zero t step = true := by
    cases hb : fmod_ne_zero t step
    · exact absurd ((fmod_ne_zero_false_of_pos t _ hpos).mp hb) hoff
    · rfl
  have hx : t = t / step * step := (div_mul_cancel₀ t hne).symm
  have hle : t / step ≤ ((⌈t / step⌉ : Int) : α) := Int.le_ceil _
  have hlt : t / step < ((⌈t / step⌉ : Int) : α) := by
    refine lt_of_le_of_ne hle ?_
    intro heq
    exact hoff ⟨⌈t / step⌉, by rw [← heq]; exact hx⟩
  have hgt : ((⌈t / step⌉ : Int) : α) < t / step + 1 := Int.ceil_lt_add_one _
  unfold irregular_step
  rw [hm]
  refine ⟨htest, ?_, ?_⟩
  · have := mul_lt_mul_of_pos_right hlt hpos
    rw [← hx] at this
    linarith
  · have := mul_lt_mul_of_pos_right hgt hpos
    rw [add_mul, ← hx] at this
    linarith

end IrregularExact

section Binary64Claims

/-- Claim C5 at `t = 0.5` and `timestep = 0.1` as binary64 numbers: `t` is not a multiple of
`timestep`, the least `k` with `k * timestep >= t` is `5 = ceil(t / timestep)`, and
`shiftAsset` computes `6`, because `fmod` is not zero while the quotient rounds to `5.0`. -/
theorem shift_index_binary64_misses_grid_point :
    binary64 (1 / 2) = 1 / 2 ∧
    fmod_ne_zero (1 / 2 : ℚ) (binary64 (1 / 10)) = true ∧
    ⌈(1 / 2 : ℚ) / binary64 (1 / 10)⌉ = 5 ∧
    (1 / 2 : ℚ) ≤ 5 * binary64 (1 / 10) ∧
    double_div (1 / 2) (binary64 (1 / 10)) = 5 ∧
    shift_index_binary64 (1 / 2) (binary64 (1 / 10)) = some 6 := by
  rw [binary64_tenth_literal]
  refine ⟨binary64_half, half_fmod, half_ceil, by norm_num, binary64_quotient_five, ?_⟩
  unfold shift_index_binary64
  rw [if_neg (by norm_num)]
  simp only [half_fmod, if_true, binary64_quotient_five]
  have hfl : (⌊(5 : ℚ)⌋ : Int) = 5 := by
    rw [Int.floor_eq_iff]; norm_num
  rw [hfl]
  have h6 : double_add (((5 : Int) : ℚ)) 1 = 6 := by
    have := binary64_six
    simpa using this
  rw [h6]
  have ht : toInt (6 : ℚ) = 6 := by
    unfold toInt
    rw [if_pos (by norm_num), Int.floor_eq_iff]
    norm_num
  rw [ht]
  rfl

/-- Claim C17, amended: for a step `T / steps > 0` (as computed), a `double` `t >= 0` that
is not a multiple of the step and a past with `m - 1 = ceil(t / step)` rows, the continuation
takes the irregular branch, the exact value of `(m - 1) * step - t` lies strictly between
`0` and the step, and the value the machine computes for it is not negative, so the square
root is never taken of a negative number. -/
theorem irregular_step_binary64_nonneg (past : PnlMat ℚ) (t T : ℚ) (nbTimeSteps : Nat)
    (hpos : 0 < double_div T nbTimeSteps) (ht : 0 ≤ t) (hdouble : binary64 t = t)
    (hoff : ¬ ∃ k : Int, t = (k : ℚ) * double_div T nbTimeSteps)
    (hm : (past.m : Int) - 1 = ⌈t / double_div T nbTimeSteps⌉) :
    fmod_ne_zero t (double_div T nbTimeSteps) = true ∧
    0 ≤ irregular_step_binary64 past (double_div T nbTimeSteps) t ∧
    0 < irregular_step past (double_div T nbTimeSteps) t ∧
    irregular_step past (double_div T nbTimeSteps) t < double_div T nbTimeSteps := by
  obtain ⟨h1, h2, h3⟩ := irregular_step_exact past t _ hpos hoff hm
  refine ⟨h1, ?_, h2, h3⟩
  unfold irregular_step_binary64 double_sub double_mul
  unfold irregular_step at h2
  have hle : t ≤ ((((past.m : Int) - 1 : Int) : ℚ)) * double_div T nbTimeSteps := by linarith
  have hmono := binary64_mono _ _ ht hle
  rw [hdouble] at hmono
  exact binary64_nonneg _ (by linarith)

theorem binary64_tiny : binary64 (1 / 2 ^ 60) = 1 / 2 ^ 60 := by
  rw [binary64_eq (1 / 2 ^ 60) (-60) 4503599627370496 (by norm_num) (by norm_num [abs_of_pos])
    (by norm_num [abs_of_pos]) (by norm_num) (by norm_num)]
  norm_num

theorem binary64_one_step : double_div 1 ((1 : Nat) : ℚ) = 1 := by
  unfold double_div
  rw [binary64_eq _ 0 4503599627370496 (by norm_num) (by norm_num [abs_of_pos])
    (by norm_num [abs_of_pos]) (by norm_num) (by norm_num)]
  norm_num

theorem binary64_below_one : double_sub 1 (1 / 2 ^ 60) = 1 := by
  unfold double_sub
  rw [binary64_eq _ (-1) 9007199254740992 (by norm_num) (by norm_num [abs_of_pos])
    (by norm_num [abs_of_pos]) (by norm_num) (by norm_num)]
  norm_num

theorem binary64_one : double_mul 1 1 = 1 := by
  unfold double_mul
  rw [binary64_eq _ 0 4503599627370496 (by norm_num) (by norm_num [abs_of_pos])
    (by norm_num [abs_of_pos]) (by norm_num) (by norm_num)]
  norm_num

/-- Claim C17, refuted as stated: for `T = 1`, ten steps, `t = 0.5` and a past of six rows
the hypotheses of the claim hold for the binary64 numbers (`t` is not a multiple of the step
`0.1` and `ceil(t / step) = 5`), yet the machine computes `5 * 0.1 - 0.5 = 0`, which is not
strictly positive; for `T = 1`, one step, `t = 2^(-60)` and a past of two rows it computes
`1 - 2^(-60) = 1`, which is not below the step. -/
theorem irregular_step_binary64_not_strict :
    (0 < double_div 1 ((10 : Nat) : ℚ) ∧ (0 : ℚ) ≤ 1 / 2 ∧ binary64 (1 / 2) = 1 / 2 ∧
      (¬ ∃ k : Int, (1 / 2 : ℚ) = (k : ℚ) * double_div 1 ((10 : Nat) : ℚ)) ∧
      (exPastSix.m : Int) - 1 = ⌈(1 / 2 : ℚ) / double_div 1 ((10 : Nat) : ℚ)⌉ ∧
      irregular_step_binary64 exPastSix (double_div 1 ((10 : Nat) : ℚ)) (1 / 2) = 0) ∧
    (0 < double_div 1 ((1 : Nat) : ℚ) ∧ (0 : ℚ) ≤ 1 / 2 ^ 60 ∧
      binary64 (1 / 2 ^ 60) = 1 / 2 ^ 60 ∧
      (¬ ∃ k : Int, (1 / 2 ^ 60 : ℚ) = (k : ℚ) * double_div 1 ((1 : Nat) : ℚ)) ∧
      (exPast.m : Int) - 1 = ⌈(1 / 2 ^ 60 : ℚ) / double_div 1 ((1 : Nat) : ℚ)⌉ ∧
      irregular_step_binary64 exPast (double_div 1 ((1 : Nat) : ℚ)) (1 / 2 ^ 60)
        = double_div 1 ((1 : Nat) : ℚ)) := by
  constructor
  · rw [binary64_tenth]
    refine ⟨by norm_num, by norm_num, binary64_half, half_off_grid, ?_, ?_⟩
    · rw [half_ceil]; rfl
    · unfold irregular_step_binary64
      have hm : ((((exPastSix.m : Int) - 1 : Int)) : ℚ) = 5 := by norm_num [exPastSix]
      rw [hm, binary64_product_half]
      unfold double_sub
      rw [sub_self, binary64_zero]
  · rw [binary64_one_step]
    refine ⟨by norm_num, by norm_num, binary64_tiny, ?_, ?_, ?_⟩
    · rintro ⟨k, hk⟩
      have h1 : (0 : ℚ) < (k : ℚ) := by
        have : (0 : ℚ) < 1 / 2 ^ 60 := by norm_num
        rw [hk] at this
        linarith
      have h2 : (k : ℚ) < 1 := by
        have : (1 / 2 ^ 60 : ℚ) < 1 := by norm_num
        rw [hk] at this
        linarith
      have h3 : (0 : Int) < k := by exact_mod_cast h1
      have h4 : k < 1 := by exact_mod_cast h2
      omega
    · symm
      rw [Int.ceil_eq_iff]
      norm_num [exPast]
    · unfold irregular_step_binary64
      have hm : ((((exPast.m : Int) - 1 : Int)) : ℚ) = 1 := by norm_num [exPast]
      rw [hm, binary64_one, binary64_below_one]

/-- The bounds of claim C17 for `T = 1`, ten steps, `t = 0.5` and a past of six rows. -/
theorem irregular_step_binary64_nonneg_witness :
    (0 < double_div 1 ((10 : Nat) : ℚ) ∧ (0 : ℚ) ≤ 1 / 2 ∧ binary64 (1 / 2) = 1 / 2 ∧
      (¬ ∃ k : Int, (1 / 2 : ℚ) = (k : ℚ) * double_div 1 ((10 : Nat) : ℚ)) ∧
      (exPastSix.m : Int) - 1 = ⌈(1 / 2 : ℚ) / double_div 1 ((10 : Nat) : ℚ)⌉) ∧
    (fmod_ne_zero (1 / 2 : ℚ) (double_div 1 ((10 : Nat) : ℚ)) = true ∧
      0 ≤ irregular_step_binary64 exPastSix (double_div 1 ((10 : Nat) : ℚ)) (1 / 2) ∧
      0 < irregular_step exPastSix (double_div 1 ((10 : Nat) : ℚ)) (1 / 2) ∧
      irregular_step exPastSix (double_div 1 ((10 : Nat) : ℚ)) (1 / 2)
        < double_div 1 ((10 : Nat) : ℚ)) :=
  ⟨⟨by rw [binary64_tenth]; norm_num, by norm_num, binary64_half,
      by rw [binary64_tenth]; exact half_off_grid,
      by rw [binary64_tenth, half_ceil]; rfl⟩,
    irregular_step_binary64_nonneg exPastSix (1 / 2) 1 10 (by rw [binary64_tenth]; norm_num)
      (by norm_num) binary64_half (by rw [binary64_tenth]; exact half_off_grid)
      (by rw [binary64_tenth, half_ceil]; rfl)⟩

end Binary64Claims

section CholeskyLemmas

variable {α : Type} [LinearOrderedField α]

theorem equi_c_pos (rho : α) (n k : Nat) (h1 : rho ≤ 1) (hn : 0 ≤ 1 + ((n : α) - 1) * rho)
    (hk1 : 1 ≤ k) (hk : k < n) : 0 < 1 + ((k : α) - 1) * rho := by
  have hkn : (k : α) + 1 ≤ (n : α) := by exact_mod_cast hk
  have hk0 : (1 : α) ≤ (k : α) := by exact_mod_cast hk1
  rcases le_or_lt 0 rho with h | h
  · nlinarith
  · nlinarith

theorem equi_c_succ_pos (rho : α) (n k : Nat) (h1 : rho ≤ 1)
    (hn : 0 ≤ 1 + ((n : α) - 1) * rho) (hk : k + 1 < n) : 0 < 1 + (k : α) * rho := by
  have h := equi_c_pos rho n (k + 1) h1 hn (by omega) hk
  push_cast at h
  have e : (1 : α) + ((k : α) + 1 - 1) * rho = 1 + (k : α) * rho := by ring
  rw [e] at h
  exact h

theorem equi_c_succ_nonneg (rho : α) (n k : Nat)
    (hn : 0 ≤ 1 + ((n : α) - 1) * rho) (hk : k < n) : 0 ≤ 1 + (k : α) * rho := by
  have hkn : (k : α) + 1 ≤ (n : α) := by exact_mod_cast hk
  have hk0 : (0 : α) ≤ (k : α) := Nat.cast_nonneg k
  rcases le_or_lt 0 rho with h | h
  · nlinarith
  · nlinarith

theorem equi_pivot_eq (rho : α) (k : Nat) (hc : 1 + ((k : α) - 1) * rho ≠ 0) :
    1 - equi_s rho k = (1 - rho) * (1 + (k : α) * rho) / (1 + ((k : α) - 1) * rho) := by
  unfold equi_s
  field_simp
  ring

theorem equi_s_zero (rho : α) : equi_s rho 0 = 0 := by
  simp [equi_s]

theorem equi_s_one (k : Nat) (hk : 1 ≤ k) : equi_s (1 : α) k = 1 := by
  unfold equi_s
  have hk0 : (k : α) ≠ 0 := by
    have : (0 : α) < (k : α) := by exact_mod_cast hk
    exact ne_of_gt this
  have e : (1 : α) + ((k : α) - 1) * 1 = (k : α) := by ring
  rw [e, one_pow, mul_one, div_self hk0]

/-- The pivots of the factorisation of a positive semi-definite correlation matrix are not
negative. -/
theorem equi_pivots (rho : α) (n : Nat)
    (hcond : 2 ≤ n → rho ≤ 1 ∧ 0 ≤ 1 + ((n : α) - 1) * rho) :
    ∀ k, k < n → 0 ≤ 1 - equi_s rho k := by
  intro k hk
  by_cases hk0 : k = 0
  · rw [hk0, equi_s_zero]; simp
  · obtain ⟨h1, hn⟩ := hcond (by omega)
    have hc := equi_c_pos rho n k h1 hn (by omega) hk
    have hc' := equi_c_succ_nonneg rho n k hn hk
    rw [equi_pivot_eq rho k (ne_of_gt hc)]
    exact div_nonneg (mul_nonneg (by linarith) hc') (le_of_lt hc)

/-- A pivot above the last row vanishes only for `rho = 1`. -/
theorem equi_pivot_zero (rho : α) (n : Nat)
    (hcond : 2 ≤ n → rho ≤ 1 ∧ 0 ≤ 1 + ((n : α) - 1) * rho) (k : Nat) (hk : k + 1 < n)
    (hz : 1 - equi_s rho k = 0) : rho = 1 ∧ 1 ≤ k := by
  have hk1 : 1 ≤ k := by
    by_contra hcon
    have hk0 : k = 0 := by omega
    rw [hk0, equi_s_zero] at hz
    simp at hz
  obtain ⟨h1, hn⟩ := hcond (by omega)
  have hc := equi_c_pos rho n k h1 hn hk1 (by omega)
  have hc' := equi_c_succ_pos rho n k h1 hn hk
  rw [equi_pivot_eq rho k (ne_of_gt hc), div_eq_zero_iff] at hz
  rcases hz with hz | hz
  · rcases mul_eq_zero.mp hz with h | h
    · exact ⟨by linarith, hk1⟩
    · exact absurd h (ne_of_gt hc')
  · exact absurd hz (ne_of_gt hc)

theorem equi_d_sq (F : Libm α) (rho : α) (n : Nat)
    (hsqrt : ∀ x, 0 ≤ x → 0 ≤ F.sqrt x ∧ F.sqrt x * F.sqrt x = x)
    (hcond : 2 ≤ n → rho ≤ 1 ∧ 0 ≤ 1 + ((n : α) - 1) * rho) (k : Nat) (hk : k < n) :
    equi_d F rho k * equi_d F rho k = 1 - equi_s rho k :=
  (hsqrt _ (equi_pivots rho n hcond k hk)).2

/-- Below the diagonal the entry times the diagonal entry is `rho - s_k`, also where the
diagonal entry is zero. -/
theorem equi_l_mul_d (F : Libm α) (rho : α) (n : Nat)
    (hsqrt : ∀ x, 0 ≤ x → 0 ≤ F.sqrt x ∧ F.sqrt x * F.sqrt x = x)
    (hcond : 2 ≤ n → rho ≤ 1 ∧ 0 ≤ 1 + ((n : α) - 1) * rho) (k : Nat) (hk : k + 1 < n) :
    equi_l F rho k * equi_d F rho k = rho - equi_s rho k := by
  have hsq := equi_d_sq F rho n hsqrt hcond k (by omega)
  unfold equi_l
  by_cases hd : equi_d F rho k = 0
  · rw [if_pos hd, zero_mul]
    rw [hd, mul_zero] at hsq
    obtain ⟨h1, hk1⟩ := equi_pivot_zero rho n hcond k hk hsq.symm
    rw [h1, equi_s_one k hk1, sub_self]
  · rw [if_neg hd, div_mul_cancel₀ _ hd]

theorem equi_s_succ (F : Libm α) (rho : α) (n : Nat)
    (hsqrt : ∀ x, 0 ≤ x → 0 ≤ F.sqrt x ∧ F.sqrt x * F.sqrt x = x)
    (hcond : 2 ≤ n → rho ≤ 1 ∧ 0 ≤ 1 + ((n : α) - 1) * rho) (k : Nat) (hk : k + 1 < n) :
    equi_s rho k + equi_l F rho k * equi_l F rho k = equi_s rho (k + 1) := by
  have hsq := equi_d_sq F rho n hsqrt hcond k (by omega)
  by_cases hd : equi_d F rho k = 0
  · have hl : equi_l F rho k = 0 := by unfold equi_l; rw [if_pos hd]
    rw [hd, mul_zero] at hsq
    obtain ⟨h1, hk1⟩ := equi_pivot_zero rho n hcond k hk hsq.symm
    rw [hl, mul_zero, add_zero, h1, equi_s_one k hk1, equi_s_one (k + 1) (by omega)]
  · have hl : equi_l F rho k * equi_l F rho k
        = (rho - equi_s rho k) ^ 2 / (1 - equi_s rho k) := by
      unfold equi_l
      rw [if_neg hd, div_mul_div_comm, hsq]
      ring
    have hp : 1 - equi_s rho k ≠ 0 := by
      rw [← hsq]; exact mul_ne_zero hd hd
    rw [hl]
    by_cases hk0 : k = 0
    · subst hk0
      simp [equi_s]
    · obtain ⟨h1, hn⟩ := hcond (by omega)
      have hc : 0 < 1 + ((k : α) - 1) * rho := equi_c_pos rho n k h1 hn (by omega) (by omega)
      have hc' : 0 < 1 + (k : α) * rho := equi_c_succ_pos rho n k h1 hn hk
      have hc1 : (1 : α) + ((k : α) - 1) * rho ≠ 0 := ne_of_gt hc
      have hc2 : (1 : α) + (k : α) * rho ≠ 0 := ne_of_gt hc'
      have hs : equi_s rho k = (k : α) * rho ^ 2 / (1 + ((k : α) - 1) * rho) := rfl
      have hs' : equi_s rho (k + 1) = ((k : α) + 1) * rho ^ 2 / (1 + (k : α) * rho) := by
        unfold equi_s
        push_cast
        ring_nf
      have e1 : rho - equi_s rho k
          = (rho * (1 + ((k : α) - 1) * rho) - (k : α) * rho ^ 2) / (1 + ((k : α) - 1) * rho) := by
        rw [hs]; field_simp
      have e2 : 1 - equi_s rho k
          = (1 + ((k : α) - 1) * rho - (k : α) * rho ^ 2) / (1 + ((k : α) - 1) * rho) := by
        rw [hs]; field_simp
      have h3 : (1 : α) + ((k : α) - 1) * rho - (k : α) * rho ^ 2 ≠ 0 := by
        intro h0
        rw [e2, h0, zero_div] at hp
        exact hp rfl
      rw [e1, e2, hs, hs']
      rw [div_pow, div_div_div_eq, div_add_div _ _ hc1 (mul_ne_zero (pow_ne_zero 2 hc1) h3),
        div_eq_div_iff (mul_ne_zero hc1 (mul_ne_zero (pow_ne_zero 2 hc1) h3)) hc2]
      ring

theorem equi_sum_sq (F : Libm α) (rho : α) (n : Nat)
    (hsqrt : ∀ x, 0 ≤ x → 0 ≤ F.sqrt x ∧ F.sqrt x * F.sqrt x = x)
    (hcond : 2 ≤ n → rho ≤ 1 ∧ 0 ≤ 1 + ((n : α) - 1) * rho) :
    ∀ k, k < n → ∑ m in Finset.range k, equi_l F rho m * equi_l F rho m = equi_s rho k := by
  intro k
  induction k with
  | zero => intro _; simp [equi_s_zero]
  | succ k ih =>
    intro hk
    rw [Finset.sum_range_succ, ih (by omega)]
    exact equi_s_succ F rho n hsqrt hcond k hk

theorem correlation_entry (n : Nat) (rho : α) (i j : Nat) :
    (correlation_matrix n rho).array i j = if i = j then 1 else rho := rfl

theorem chol_off_diag_equi (F : Libm α) (rho : α) (n : Nat)
    (hsqrt : ∀ x, 0 ≤ x → 0 ≤ F.sqrt x ∧ F.sqrt x * F.sqrt x = x)
    (hcond : 2 ≤ n → rho ≤ 1 ∧ 0 ≤ 1 + ((n : α) - 1) * rho) (i : Nat) (hi : i < n) :
    ∀ j, j ≤ i →
      chol_off_diag (correlation_matrix n rho).array (equi_rows F rho i) i j
        = some (fun c => if c < j then equi_l F rho c else 0) := by
  intro j
  induction j with
  | zero => intro _; simp [chol_off_diag]
  | succ j ih =>
    intro hj
    have hji : j < i := by omega
    have hsum : ∑ k in Finset.range j,
        (fun c => if c < j then equi_l F rho c else 0) k * equi_rows F rho i j k
        = equi_s rho j := by
      rw [← equi_sum_sq F rho n hsqrt hcond j (by omega)]
      refine Finset.sum_congr rfl (fun k hk => ?_)
      have hkj : k < j := Finset.mem_range.mp hk
      simp only [equi_rows, hkj, hji, if_true]
    have hdiag : equi_rows F rho i j j = equi_d F rho j := by
      simp [equi_rows, hji]
    have hne : i ≠ j := by omega
    have hmul := equi_l_mul_d F rho n hsqrt hcond j (by omega)
    have hupd : ∀ v : α, v = equi_l F rho j →
        Function.update (fun c => if c < j then equi_l F rho c else 0) j v
          = fun c => if c < j + 1 then equi_l F rho c else 0 := by
      intro v hv
      funext c
      by_cases hc : c = j
      · subst hc; simp [hv]
      · rw [Function.update_noteq hc]
        by_cases hc2 : c < j
        · simp [hc2, Nat.lt_succ_of_lt hc2]
        · have : ¬ c < j + 1 := by omega
          simp [hc2, this]
    simp only [chol_off_diag]
    rw [ih (by omega)]
    simp only [hsum, hdiag, correlation_entry, if_neg hne]
    by_cases hd : equi_d F rho j = 0
    · have hnum : rho - equi_s rho j = 0 := by
        rw [← hmul, hd, mul_zero]
      rw [if_pos hd, if_pos hnum, hupd 0 (by unfold equi_l; rw [if_pos hd])]
    · rw [if_neg hd, hupd _ (by unfold equi_l; rw [if_neg hd])]

theorem chol_row_equi (F : Libm α) (rho : α) (n : Nat)
    (hsqrt : ∀ x, 0 ≤ x → 0 ≤ F.sqrt x ∧ F.sqrt x * F.sqrt x = x)
    (hcond : 2 ≤ n → rho ≤ 1 ∧ 0 ≤ 1 + ((n : α) - 1) * rho) (i : Nat) (hi : i < n) :
    chol_row F (correlation_matrix n rho).array (equi_rows F rho i) i
      = some (fun c => if c < i then equi_l F rho c
                       else if c = i then equi_d F rho i else 0) := by
  have hoff := chol_off_diag_equi F rho n hsqrt hcond i hi i le_rfl
  have hsum : ∑ k in Finset.range i,
      (fun c => if c < i then equi_l F rho c else 0) k
        * (fun c => if c < i then equi_l F rho c else 0) k = equi_s rho i := by
    rw [← equi_sum_sq F rho n hsqrt hcond i hi]
    refine Finset.sum_congr rfl (fun k hk => ?_)
    have hki : k < i := Finset.mem_range.mp hk
    simp only [hki, if_true]
  unfold chol_row
  rw [hoff]
  simp only [hsum, correlation_entry, if_true]
  rw [if_pos (equi_pivots rho n hcond i hi)]
  congr 1
  funext c
  by_cases hc : c = i
  · subst hc; simp [equi_d]
  · rw [Function.update_noteq hc]
    simp [hc]

theorem chol_rows_equi (F : Libm α) (rho : α) (n : Nat)
    (hsqrt : ∀ x, 0 ≤ x → 0 ≤ F.sqrt x ∧ F.sqrt x * F.sqrt x = x)
    (hcond : 2 ≤ n → rho ≤ 1 ∧ 0 ≤ 1 + ((n : α) - 1) * rho) :
    ∀ i, i ≤ n → chol_rows F (correlation_matrix n rho).array i = some (equi_rows F rho i) := by
  intro i
  induction i with
  | zero =>
    intro _
    simp only [chol_rows]
    congr 1
  | succ i ih =>
    intro hi
    simp only [chol_rows, ih (by omega), chol_row_equi F rho n hsqrt hcond i (by omega)]
    congr 1
    funext r c
    by_cases hr : r = i
    · subst hr; simp [equi_rows]
    · rw [Function.update_noteq hr]
      by_cases hr2 : r < i
      · simp [equi_rows, hr2, Nat.lt_succ_of_lt hr2]
      · have : ¬ r < i + 1 := by omega
        simp [equi_rows, hr2, this]

theorem quad_form_correlation (n : Nat) (rho : α) (x : Nat → α) :
    quad_form n (correlation_matrix n rho).array x
      = (1 - rho) * ∑ i in Finset.range n, x i * x i
        + rho * ((∑ i in Finset.range n, x i) * ∑ i in Finset.range n, x i) := by
  have hterm : ∀ i j, x i * (correlation_matrix n rho).array i j * x j
      = rho * (x i * x j) + (if i = j then (1 - rho) * (x i * x i) else 0) := by
    intro i j
    rw [correlation_entry]
    by_cases h : i = j
    · subst h; simp only [if_true]; ring
    · simp only [if_neg h]; ring
  unfold quad_form
  simp only [hterm, Finset.sum_add_distrib, Finset.sum_ite_eq, Finset.mem_range]
  have h1 : ∑ i in Finset.range n, (if i < n then (1 - rho) * (x i * x i) else 0)
      = (1 - rho) * ∑ i in Finset.range n, x i * x i := by
    rw [Finset.mul_sum]
    exact Finset.sum_congr rfl (fun i hi => if_pos (Finset.mem_range.mp hi))
  have h2 : ∑ i in Finset.range n, ∑ j in Finset.range n, rho * (x i * x j)
      = rho * ((∑ i in Finset.range n, x i) * ∑ i in Finset.range n, x i) := by
    rw [Finset.sum_mul_sum, Finset.mul_sum]
    exact Finset.sum_congr rfl (fun i _ => by rw [Finset.mul_sum])
  rw [h1, h2]
  ring

theorem posSemidef_correlation_ones (n : Nat) (hn : 1 ≤ n) (rho : α)
    (hpsd : PosSemidef n (correlation_matrix n rho).array) :
    0 ≤ 1 + ((n : α) - 1) * rho := by
  have h := hpsd (fun _ => 1)
  rw [quad_form_correlation] at h
  simp only [mul_one, Finset.sum_const, Finset.card_range, nsmul_eq_mul] at h
  have hn0 : (0 : α) < (n : α) := by exact_mod_cast hn
  have e : (1 - rho) * (n : α) + rho * ((n : α) * (n : α))
      = (n : α) * (1 + ((n : α) - 1) * rho) := by ring
  rw [e] at h
  by_contra hneg
  have : (n : α) * (1 + ((n : α) - 1) * rho) < 0 :=
    mul_neg_of_pos_of_neg hn0 (not_le.mp hneg)
  linarith

theorem posSemidef_correlation_diff (n : Nat) (hn : 2 ≤ n) (rho : α)
    (hpsd : PosSemidef n (correlation_matrix n rho).array) : rho ≤ 1 := by
  have h := hpsd (fun i => (if i = 0 then 1 else 0) + (if i = 1 then -1 else 0))
  rw [quad_form_correlation] at h
  have hs : ∑ i in Finset.range n, ((if i = 0 then (1 : α) else 0) + (if i = 1 then -1 else 0))
      = 0 := by
    rw [Finset.sum_add_distrib, Finset.sum_ite_eq', Finset.sum_ite_eq']
    simp only [Finset.mem_range]
    rw [if_pos (by omega), if_pos (by omega)]
    ring
  have hq : ∑ i in Finset.range n,
      ((if i = 0 then (1 : α) else 0) + (if i = 1 then -1 else 0))
        * ((if i = 0 then (1 : α) else 0) + (if i = 1 then -1 else 0)) = 2 := by
    have hterm : ∀ i : Nat, ((if i = 0 then (1 : α) else 0) + (if i = 1 then -1 else 0))
        * ((if i = 0 then (1 : α) else 0) + (if i = 1 then -1 else 0))
        = (if i = 0 then (1 : α) else 0) + (if i = 1 then 1 else 0) := by
      intro i
      by_cases h0 : i = 0
      · subst h0; simp
      · by_cases h1 : i = 1
        · subst h1; simp
        · simp [h0, h1]
    simp only [hterm]
    rw [Finset.sum_add_distrib, Finset.sum_ite_eq', Finset.sum_ite_eq']
    simp only [Finset.mem_range]
    rw [if_pos (by omega), if_pos (by omega)]
    norm_num
  rw [hs, hq] at h
  linarith

/-- The product of rows `i` and `j <= i` of the closed form of the factor. -/
theorem equi_rows_dot (F : Libm α) (rho : α) (n : Nat)
    (hsqrt : ∀ x, 0 ≤ x → 0 ≤ F.sqrt x ∧ F.sqrt x * F.sqrt x = x)
    (hcond : 2 ≤ n → rho ≤ 1 ∧ 0 ≤ 1 + ((n : α) - 1) * rho) (i j : Nat) (hi : i < n)
    (hji : j ≤ i) :
    ∑ k in Finset.range n, equi_rows F rho n i k * equi_rows F rho n j k
      = if i = j then 1 else rho := by
  have hj : j < n := by omega
  have hcut : ∑ k in Finset.range n, equi_rows F rho n i k * equi_rows F rho n j k
      = ∑ k in Finset.range (j + 1), equi_rows F rho n i k * equi_rows F rho n j k := by
    symm
    refine Finset.sum_subset (Finset.range_subset.mpr (by omega)) (fun k _ hk => ?_)
    have hkj : j < k := by
      have := Finset.mem_range.not.mp hk
      omega
    have h0 : equi_rows F rho n j k = 0 := by
      have h1 : ¬ k < j := by omega
      have h2 : ¬ k = j := by omega
      simp [equi_rows, hj, h1, h2]
    rw [h0, mul_zero]
  have hlow : ∑ k in Finset.range j, equi_rows F rho n i k * equi_rows F rho n j k
      = equi_s rho j := by
    rw [← equi_sum_sq F rho n hsqrt hcond j hj]
    refine Finset.sum_congr rfl (fun k hk => ?_)
    have hkj : k < j := Finset.mem_range.mp hk
    have hki : k < i := by omega
    simp only [equi_rows, hi, hj, hkj, hki, if_true]
  have hdsq := equi_d_sq F rho n hsqrt hcond j hj
  have hjj : equi_rows F rho n j j = equi_d F rho j := by simp [equi_rows, hj]
  rw [hcut, Finset.sum_range_succ, hlow, hjj]
  by_cases hij : i = j
  · subst hij
    rw [hjj, if_pos rfl, hdsq]
    ring
  · have hlt : j < i := by omega
    have hijv : equi_rows F rho n i j = equi_l F rho j := by simp [equi_rows, hi, hlt]
    rw [hijv, if_neg hij, equi_l_mul_d F rho n hsqrt hcond j (by omega)]
    ring

theorem pnl_mat_chol_correlation (F : Libm α) (rho : α) (n : Nat)
    (hsqrt : ∀ x, 0 ≤ x → 0 ≤ F.sqrt x ∧ F.sqrt x * F.sqrt x = x)
    (hcond : 2 ≤ n → rho ≤ 1 ∧ 0 ≤ 1 + ((n : α) - 1) * rho) :
    cholesky_of_rho (pnl_mat_chol F) n rho
      = some { m := n, n := n, array := equi_rows F rho n } := by
  have h := chol_rows_equi F rho n hsqrt hcond n le_rfl
  have e : cholesky_of_rho (pnl_mat_chol F) n rho
      = pnl_mat_chol F (correlation_matrix n rho) := rfl
  rw [e]
  unfold pnl_mat_chol
  have hm : (correlation_matrix n rho).m = n := rfl
  have hn : (correlation_matrix n rho).n = n := rfl
  rw [hm, hn, if_pos rfl, h]

theorem posSemidef_correlation_of_nonneg (n : Nat) (rho : α) (h0 : 0 ≤ rho) (h1 : rho ≤ 1) :
    PosSemidef n (correlation_matrix n rho).array := by
  intro x
  rw [quad_form_correlation]
  have hsq : 0 ≤ ∑ k in Finset.range n, x k * x k :=
    Finset.sum_nonneg (fun k _ => mul_self_nonneg (x k))
  have h2 : 0 ≤ rho * ((∑ i in Finset.range n, x i) * ∑ i in Finset.range n, x i) :=
    mul_nonneg h0 (mul_self_nonneg _)
  have h3 : 0 ≤ (1 - rho) * ∑ k in Finset.range n, x k * x k :=
    mul_nonneg (by linarith) hsq
  linarith

end CholeskyLemmas

section CholeskyClaims

variable {α : Type} [LinearOrderedField α]

/-- Claim C11: when `sqrt` is the square root on the non-negative numbers, for `n >= 1` and
a correlation `rho` for which the matrix `C` with `1` on the diagonal and `rho` off it is
positive semi-definite, the factorisation every constructor runs delivers a factor `L` that
is `n × n` and lower triangular with `L * L^T = C`, and each of the three constructors
stores this `L` in `mat_cholesky`. -/
theorem cholesky_of_correlation (F : Libm α) (n : Nat) (rho : α) (hn : 1 ≤ n)
    (hsqrt : ∀ x, 0 ≤ x → 0 ≤ F.sqrt x ∧ F.sqrt x * F.sqrt x = x)
    (hpsd : PosSemidef n (correlation_matrix n rho).array) :
    ∃ L, cholesky_of_rho (pnl_mat_chol F) n rho = some L ∧ L.m = n ∧ L.n = n ∧
      (∀ i j, i < j → L.array i j = 0) ∧
      (∀ i j, i < n → j < n →
        dot (L.row i) (L.row j) = (correlation_matrix n rho).array i j) ∧
      (∀ P : Param α, P.option_size = n → P.correlation = rho →
        ∃ M, BlackScholesModel.from_param (pnl_mat_chol F) P = some M ∧
          M.mat_cholesky = L) ∧
      (∀ (P : Param α) (size : Nat) (unused : List (MpiItem α)),
        P.option_size = n → P.correlation = rho →
        ∃ M sent, BlackScholesModel.master (pnl_mat_chol F) P size unused = some (M, sent) ∧
          M.mat_cholesky = L) ∧
      (∀ (sigma trend spot : Nat → α) (r : α) (unused : List (MpiItem α)),
        ∃ W, BlackScholesModel.worker (pnl_mat_chol F)
            (startup_layout n rho sigma trend spot r unused) = some W ∧
          W.mat_cholesky = L) := by
  have hcond : 2 ≤ n → rho ≤ 1 ∧ 0 ≤ 1 + ((n : α) - 1) * rho :=
    fun h2 => ⟨posSemidef_correlation_diff n h2 rho hpsd,
      posSemidef_correlation_ones n hn rho hpsd⟩
  have hL := pnl_mat_chol_correlation F rho n hsqrt hcond
  refine ⟨_, hL, rfl, rfl, ?_, ?_, ?_, ?_, ?_⟩
  · intro i j hij
    have h1 : ¬ j < i := by omega
    have h2 : ¬ j = i := by omega
    simp [equi_rows, h1, h2]
  · intro i j hi hj
    rw [dot_eq_sum, correlation_entry]
    show ∑ k in Finset.range n, equi_rows F rho n i k * equi_rows F rho n j k = _
    rcases le_total j i with hji | hij
    · exact equi_rows_dot F rho n hsqrt hcond i j hi hji
    · have := equi_rows_dot F rho n hsqrt hcond j i hj hij
      rw [show (if i = j then (1 : α) else rho) = if j = i then 1 else rho from by
        by_cases h : i = j
        · subst h; rfl
        · rw [if_neg h, if_neg (fun hh => h hh.symm)], ← this]
      exact Finset.sum_congr rfl (fun k _ => mul_comm _ _)
  · intro P hP hrho
    subst hP hrho
    simp only [BlackScholesModel.from_param, hL, Option.bind_eq_bind,
      Option.some_bind, Option.pure_def]
    exact ⟨_, rfl, rfl⟩
  · intro P size unused hP hrho
    subst hP hrho
    simp only [BlackScholesModel.master, hL, Option.bind_eq_bind,
      Option.some_bind, Option.pure_def]
    exact ⟨_, _, rfl, rfl⟩
  · intro sigma trend spot r unused
    exact ⟨_, worker_on_layout (pnl_mat_chol F) n rho sigma trend spot r unused _ hL, rfl⟩

/-- The factorisation of claim C11 for two assets, the correlation `1`, where the matrix is
singular, and the real square root. -/
theorem cholesky_of_correlation_witness :
    (1 ≤ 2 ∧ (∀ x : ℝ, 0 ≤ x → 0 ≤ Real.sqrt x ∧ Real.sqrt x * Real.sqrt x = x) ∧
      PosSemidef 2 (correlation_matrix 2 (1 : ℝ)).array) ∧
    ∃ L, cholesky_of_rho (pnl_mat_chol { exp := Real.exp, sqrt := Real.sqrt }) 2 (1 : ℝ)
        = some L ∧ L.m = 2 ∧ L.n = 2 ∧
      (∀ i j, i < j → L.array i j = 0) ∧
      (∀ i j, i < 2 → j < 2 →
        dot (L.row i) (L.row j) = (correlation_matrix 2 (1 : ℝ)).array i j) :=
  ⟨⟨by decide, fun x hx => ⟨Real.sqrt_nonneg x, Real.mul_self_sqrt hx⟩,
      posSemidef_correlation_of_nonneg 2 1 (by norm_num) (by norm_num)⟩,
    by
      obtain ⟨L, h1, h2, h3, h4, h5, _⟩ := cholesky_of_correlation
        { exp := Real.exp, sqrt := Real.sqrt } 2 (1 : ℝ) (by decide)
        (fun x hx => ⟨Real.sqrt_nonneg x, Real.mul_self_sqrt hx⟩)
        (posSemidef_correlation_of_nonneg 2 1 (by norm_num) (by norm_num))
      exact ⟨L, h1, h2, h3, h4, h5⟩⟩

end CholeskyClaims

section CholeskyRejects

/-- A matrix that is not positive semi-definite is rejected: for two assets and the
correlation `2` the second pivot is `1 - 4`. -/
theorem pnl_mat_chol_rejects :
    cholesky_of_rho (pnl_mat_chol { exp := Real.exp, sqrt := Real.sqrt }) 2 (2 : ℝ) = none := by
  have e : cholesky_of_rho (pnl_mat_chol { exp := Real.exp, sqrt := Real.sqrt }) 2 (2 : ℝ)
      = pnl_mat_chol { exp := Real.exp, sqrt := Real.sqrt } (correlation_matrix 2 2) := rfl
  rw [e]
  have hm : (correlation_matrix 2 (2 : ℝ)).m = 2 := rfl
  have hn : (correlation_matrix 2 (2 : ℝ)).n = 2 := rfl
  unfold pnl_mat_chol
  rw [hm, hn, if_pos rfl]
  simp [chol_rows, chol_row, chol_off_diag, correlation_entry, Finset.sum_range_succ]
  norm_num

end CholeskyRejects

section SignLemmas

variable {α : Type} [LinearOrderedField α]

end SignLemmas

section SignClaims

variable {α : Type} [LinearOrderedField α] [FloorRing α]

end SignClaims

end BlackScholes
